import Mathlib

/-!
# go-deepcopy: a shallow embedding of `deepcopy.go`

The Go package clones an arbitrary `interface{}` value through `reflect`.
The embedding below makes the pieces of the Go runtime that the package
touches explicit:

* `Ty` is a `reflect.Type`, `Kind` a `reflect.Kind`;
* `Value` is the content of an `interface{}`: `Value.nil` is the untyped nil
  (for which `reflect.ValueOf` yields the invalid `reflect.Value`), every other
  constructor carries its dynamic type;
* `Heap` is the memory the value graph lives in: pointer targets, slice
  backing arrays and map objects are heap cells, addressed by their index;
  allocation appends a cell, so a fresh allocation never reuses an address;
  a variable of a zero-size type is not allocated: the runtime has one address
  for all of them; the address of a backing array or of a map object only names
  its cell (Go does not compare slices or maps by address);
* `State` threads the heap together with the `ptrs` tracker
  (`map[uintptr]interface{}`), which Go passes by reference;
* an `Outcome` is what a Go call can do: return its pair `(interface{}, error)`,
  abort with a run-time panic, or never return (the fuel of the model ran out).

The zero values of the struct types a program declares are not part of the
package: the functions take them as the parameter `Z`.

Limits of the model, all on the side of the inputs it can describe: interface
types are the empty interface; a pointer refers to a whole heap variable or to
its leading field or element (which has the same address); a zero-size value
that a pointer refers to is at the address of the zero-size variables, where the
runtime allocates them; a scalar is its kind, its type and the canonical
rendering of its content (a zero part of a complex number without sign);
overrides are pure functions.
-/

namespace DeepCopy

/-- The kinds of `reflect.Kind`. -/
inductive Kind
  | Invalid | Bool | Int | Int8 | Int16 | Int32 | Int64
  | Uint | Uint8 | Uint16 | Uint32 | Uint64 | Uintptr
  | Float32 | Float64 | Complex64 | Complex128
  | Array | Chan | Func | Interface | Map | Ptr | Slice | Str | Struct
  | UnsafePointer
  deriving DecidableEq, Repr

/-- The Go expression `Kind.String()`. -/
def Kind.toString : Kind → String
  | .Invalid => "invalid" | .Bool => "bool" | .Int => "int" | .Int8 => "int8"
  | .Int16 => "int16" | .Int32 => "int32" | .Int64 => "int64" | .Uint => "uint"
  | .Uint8 => "uint8" | .Uint16 => "uint16" | .Uint32 => "uint32"
  | .Uint64 => "uint64" | .Uintptr => "uintptr" | .Float32 => "float32"
  | .Float64 => "float64" | .Complex64 => "complex64"
  | .Complex128 => "complex128" | .Array => "array" | .Chan => "chan"
  | .Func => "func" | .Interface => "interface" | .Map => "map" | .Ptr => "ptr"
  | .Slice => "slice" | .Str => "string" | .Struct => "struct"
  | .UnsafePointer => "unsafe.Pointer"

/-- The kinds of the predeclared scalar types (numbers, booleans, strings). -/
inductive Basic
  | Bool | Int | Int8 | Int16 | Int32 | Int64
  | Uint | Uint8 | Uint16 | Uint32 | Uint64 | Uintptr
  | Float32 | Float64 | Complex64 | Complex128 | Str
  deriving DecidableEq, Repr

/-- The kinds that have no reflective structure the package can enter. -/
inductive Handle
  | Chan | Func | UnsafePointer
  deriving DecidableEq, Repr

def Basic.kind : Basic → Kind
  | .Bool => .Bool | .Int => .Int | .Int8 => .Int8 | .Int16 => .Int16
  | .Int32 => .Int32 | .Int64 => .Int64 | .Uint => .Uint | .Uint8 => .Uint8
  | .Uint16 => .Uint16 | .Uint32 => .Uint32 | .Uint64 => .Uint64
  | .Uintptr => .Uintptr | .Float32 => .Float32 | .Float64 => .Float64
  | .Complex64 => .Complex64 | .Complex128 => .Complex128 | .Str => .Str

def Handle.kind : Handle → Kind
  | .Chan => .Chan | .Func => .Func | .UnsafePointer => .UnsafePointer

/-- A `reflect.Type`.  Struct types are identified by their name (the fields are
carried by the values); `named` is a defined type over an underlying one. -/
inductive Ty
  | basic (b : Basic)
  | array (len : Nat) (elem : Ty)
  | slice (elem : Ty)
  | map (key : Ty) (elem : Ty)
  | ptr (elem : Ty)
  | struct (name : String)
  | iface
  | handle (h : Handle) (sig : String)
  | named (name : String) (under : Ty)
  deriving DecidableEq, Repr

/-- The Go expression `Type.Kind()`. -/
def Ty.kind : Ty → Kind
  | .basic b => b.kind
  | .array _ _ => .Array
  | .slice _ => .Slice
  | .map _ _ => .Map
  | .ptr _ => .Ptr
  | .struct _ => .Struct
  | .iface => .Interface
  | .handle h _ => h.kind
  | .named _ u => u.kind

/-- The Go expression `Type.Elem()` for arrays, slices, maps and pointers. -/
def Ty.elem : Ty → Ty
  | .array _ e => e
  | .slice e => e
  | .map _ e => e
  | .ptr e => e
  | .named _ u => u.elem
  | t => t

/-- The Go expression `Type.Key()` for maps. -/
def Ty.key : Ty → Ty
  | .map k _ => k
  | .named _ u => u.key
  | t => t

/-- The Go expression `Type.String()`, as printed by `%v` and `%+v`. -/
def Ty.toString : Ty → String
  | .basic b => b.kind.toString
  | .array n e => "[" ++ ToString.toString n ++ "]" ++ e.toString
  | .slice e => "[]" ++ e.toString
  | .map k e => "map[" ++ k.toString ++ "]" ++ e.toString
  | .ptr e => "*" ++ e.toString
  | .struct n => n
  | .iface => "interface \x7b\x7d"
  | .handle _ s => s
  | .named n _ => n

abbrev Addr := Nat

/-- A `reflect.StructField`: `PkgPath` is empty exactly for exported fields. -/
structure StructField where
  Name : String
  PkgPath : String
  Typ : Ty
  deriving DecidableEq, Repr

/-- A slice header: backing array, offset of element 0 in it, length, capacity. -/
structure SliceHdr where
  arr : Addr
  off : Nat
  len : Nat
  cap : Nat
  deriving DecidableEq, Repr

/-- The content of an `interface{}`. -/
inductive Value
  | nil
  | basic (b : Basic) (t : Ty) (data : String)
  | handle (h : Handle) (t : Ty) (id : Nat)
  | array (t : Ty) (elems : List Value)
  | struct (t : Ty) (fields : List (StructField × Value))
  | slice (t : Ty) (hdr : Option SliceHdr)
  | map (t : Ty) (ref : Option Addr)
  | ptr (t : Ty) (addr : Option Addr)

/-- The function `reflect.TypeOf`: the dynamic type, absent for the untyped nil. -/
def Value.typeOf : Value → Option Ty
  | .nil => none
  | .basic _ t _ => some t
  | .handle _ t _ => some t
  | .array t _ => some t
  | .struct t _ => some t
  | .slice t _ => some t
  | .map t _ => some t
  | .ptr t _ => some t

/-- The Go expression `reflect.ValueOf(x).Kind()`. -/
def Value.kind : Value → Kind
  | .nil => .Invalid
  | .basic b _ _ => b.kind
  | .handle h _ _ => h.kind
  | .array _ _ => .Array
  | .struct _ _ => .Struct
  | .slice _ _ => .Slice
  | .map _ _ => .Map
  | .ptr _ _ => .Ptr

/-- The Go expression `reflect.ValueOf(x).IsValid()`. -/
def Value.isValid : Value → Bool
  | .nil => false
  | _ => true

/-- The scalar kinds with a floating-point content. -/
def isFloat : Basic → Bool
  | .Float32 | .Float64 | .Complex64 | .Complex128 => true
  | _ => false

/-- Whether the rendering of a floating-point content shows a NaN. -/
def hasNaN : List Char → Bool
  | 'N' :: 'a' :: 'N' :: _ => true
  | _ :: cs => hasNaN cs
  | [] => false

/-- Go's `==` on the contents of two scalars of one type, given by their
renderings: the same rendering, except that a floating-point NaN differs from
every content, itself included, and that the two zeros of a float are equal. -/
def scalarEq (b : Basic) (d d2 : String) : Bool :=
  if isFloat b then
    !hasNaN d.toList && !hasNaN d2.toList &&
      ((if d = "-0" then "0" else d) == (if d2 = "-0" then "0" else d2))
  else d == d2

mutual
/-- Go's `==` on interface values: same dynamic type and same content; pointers,
maps and slices compare by identity. -/
def Value.beq : Value → Value → Bool
  | .nil, .nil => true
  | .basic b t d, .basic b2 t2 d2 => b == b2 && t == t2 && scalarEq b d d2
  | .handle h t i, .handle h2 t2 i2 => h == h2 && t == t2 && i == i2
  | .array t es, .array t2 es2 => t == t2 && Value.beqList es es2
  | .struct t fs, .struct t2 fs2 => t == t2 && Value.beqFields fs fs2
  | .slice t h, .slice t2 h2 => t == t2 && h == h2
  | .map t r, .map t2 r2 => t == t2 && r == r2
  | .ptr t a, .ptr t2 a2 => t == t2 && a == a2
  | _, _ => false
def Value.beqList : List Value → List Value → Bool
  | [], [] => true
  | x :: xs, y :: ys => Value.beq x y && Value.beqList xs ys
  | _, _ => false
def Value.beqFields :
    List (StructField × Value) → List (StructField × Value) → Bool
  | [], [] => true
  | (d, x) :: xs, (e, y) :: ys => d == e && Value.beq x y && Value.beqFields xs ys
  | _, _ => false
end

/-- The zero data of a scalar, in its `%v` rendering. -/
def Basic.zeroData : Basic → String
  | .Bool => "false"
  | .Str => ""
  | .Complex64 => "(0+0i)"
  | .Complex128 => "(0+0i)"
  | _ => "0"

/-- The Go expression `reflect.Zero(t)` seen as an `interface{}`; `under` is the part of `t` still
to be unfolded.  The zero values of the struct types come from their
declarations, which are the caller's: `Z`. -/
def zeroAs (Z : Ty → Value) (t : Ty) : Ty → Value
  | .basic b => .basic b t b.zeroData
  | .array n e => .array t (List.replicate n (zeroAs Z e e))
  | .slice _ => .slice t none
  | .map _ _ => .map t none
  | .ptr _ => .ptr t none
  | .struct _ => Z t
  | .iface => .nil
  | .handle h _ => .handle h t 0
  | .named _ u => zeroAs Z t u

/-- The Go expression `reflect.Zero(t).Interface()`. -/
def zeroValue (Z : Ty → Value) (t : Ty) : Value := zeroAs Z t t

/-- The underlying type. -/
def Ty.under : Ty → Ty
  | .named _ u => u.under
  | t => t

/-- Whether the type is a defined (named) type: the predeclared scalars, the
struct types (identified by name) and the `named` ones. -/
def Ty.isDefined : Ty → Bool
  | .named _ _ => true
  | .basic _ => true
  | .struct _ => true
  | _ => false

/-- The Go expression `Type.Len()` of an array type. -/
def Ty.len : Ty → Nat
  | .array n _ => n
  | .named _ u => u.len
  | _ => 0

/-- The methods `Value.Set` and `SetMapIndex` accept a typed value when the slot has
interface type, when the two types are identical, or when they have the same
underlying type and one of them is not a defined type. -/
def assignable (x : Value) (slot : Ty) : Bool :=
  slot.kind == .Interface ||
  match x.typeOf with
  | none => false
  | some t => t == slot || (t.under == slot.under && (!t.isDefined || !slot.isDefined))

mutual
/-- Whether a value occupies no memory, which is a property of its type: a struct
all of whose fields do, an array with no element or with elements that do.  An
interface slot has a size whatever it holds. -/
def Value.sizeless : Value → Bool
  | .array t es => es.isEmpty || (t.elem.kind != .Interface && Value.sizelessList es)
  | .struct _ fs => Value.sizelessFields fs
  | _ => false
def Value.sizelessList : List Value → Bool
  | [] => true
  | x :: xs => Value.sizeless x && Value.sizelessList xs
def Value.sizelessFields : List (StructField × Value) → Bool
  | [] => true
  | (f, x) :: xs =>
    f.Typ.kind != .Interface && Value.sizeless x && Value.sizelessFields xs
end

/-- A heap cell: a variable a pointer refers to, the backing array of a slice,
or a map object with its entries in iteration order. -/
inductive Cell
  | var (t : Ty) (v : Value)
  | arr (elem : Ty) (vs : List Value)
  | map (entries : List (Value × Value))

abbrev Heap := List Cell

/-- The value of type `want` stored at the start of a variable of type `have_`
holding `v`: the variable itself, or its leading field or element. -/
def leading (want : Ty) : Ty → Value → Option Value
  | have_, v =>
    if have_ = want then some v
    else match v with
      | .struct _ ((f, x) :: _) => leading want f.Typ x
      | .array t (x :: _) => leading want t.elem x
      | _ => none

/-- The Go expression `v.Elem().Interface()` for a pointer of element type `t` at address `a`. -/
def Heap.deref (h : Heap) (a : Addr) (t : Ty) : Option Value :=
  match h.get? a with
  | some (.var ty v) => leading t ty v
  | _ => none

/-- The Go expression `v.Index(i).Interface()` for a slice with header `hdr`. -/
def Heap.index (h : Heap) (hdr : SliceHdr) (i : Nat) : Option Value :=
  match h.get? hdr.arr with
  | some (.arr _ vs) => vs.get? (hdr.off + i)
  | _ => none

/-- The entries of the map object at `a`. -/
def Heap.entries (h : Heap) (a : Addr) : Option (List (Value × Value)) :=
  match h.get? a with
  | some (.map es) => some es
  | _ => none

/-- The Go expression `dc.Index(i).Set(v)` on the backing array at `a`. -/
def Heap.setIndex (h : Heap) (a : Addr) (i : Nat) (v : Value) : Heap :=
  match h.get? a with
  | some (.arr t vs) => h.set a (.arr t (vs.set i v))
  | _ => h

/-- The Go expression `dc.Elem().Set(v)` on the variable at `a`. -/
def Heap.setVar (h : Heap) (a : Addr) (v : Value) : Heap :=
  match h.get? a with
  | some (.var t _) => h.set a (.var t v)
  | _ => h

/-- The Go expression `dc.Elem().Field(i).Set(v)` on the struct variable at `a`. -/
def Heap.setField (h : Heap) (a : Addr) (i : Nat) (v : Value) : Heap :=
  match h.get? a with
  | some (.var t (.struct st fs)) =>
    match fs.get? i with
    | some (f, _) => h.set a (.var t (.struct st (fs.set i (f, v))))
    | none => h
  | _ => h

/-- The Go expression `dc.Index(i).Set(v)` on the array variable at `a`. -/
def Heap.setElem (h : Heap) (a : Addr) (i : Nat) (v : Value) : Heap :=
  match h.get? a with
  | some (.var t (.array at_ vs)) => h.set a (.var t (.array at_ (vs.set i v)))
  | _ => h

/-- The Go expression `dc.Interface()` of the variable at `a`. -/
def Heap.load (h : Heap) (a : Addr) : Value :=
  match h.get? a with
  | some (.var _ v) => v
  | _ => .nil

/-- Assignment `m[k] = v` on a list of entries. -/
def mapAssign (k v : Value) : List (Value × Value) → List (Value × Value)
  | [] => [(k, v)]
  | (k2, v2) :: rest =>
    if Value.beq k2 k then (k2, v) :: rest else (k2, v2) :: mapAssign k v rest

/-- The builtin `delete(m, k)` on a list of entries. -/
def mapDelete (k : Value) (es : List (Value × Value)) : List (Value × Value) :=
  es.filter (fun e => !Value.beq e.1 k)

/-- The Go expression `dc.SetMapIndex(k, v)` with a valid `v` on the map object at `a`. -/
def Heap.mapSet (h : Heap) (a : Addr) (k v : Value) : Heap :=
  match h.get? a with
  | some (.map es) => h.set a (.map (mapAssign k v es))
  | _ => h

/-- The Go expression `dc.SetMapIndex(k, reflect.Value{})` on the map object at `a`: the key is
deleted. -/
def Heap.mapDel (h : Heap) (a : Addr) (k : Value) : Heap :=
  match h.get? a with
  | some (.map es) => h.set a (.map (mapDelete k es))
  | _ => h

/-- The errors the package builds with `fmt.Errorf`, kept structured; the last
constructor is an error returned by a caller-supplied override. -/
inductive Err
  | notPrimitive (x : Value) (k : Kind)
  | unsupported (x : Value) (t : Option Ty) (k : Kind)
  | wrongKind (want : Kind) (got : Kind)
  | sliceItem (i : Nat) (e : Err)
  | mapItem (key : Value) (e : Err)
  | mapKey (k : Value) (e : Err)
  | pointee (x : Value) (e : Err)
  | unexported (t : Ty) (fname : String)
  | field (name : String) (x : Value) (e : Err)
  | arrayItem (i : Nat) (e : Err)
  | other (msg : String)

/-- The name the strategies print for the kind they expect. -/
def Kind.title : Kind → String
  | .Slice => "Slice" | .Map => "Map" | .Ptr => "Ptr" | .Struct => "Struct"
  | .Array => "Array" | k => k.toString

/-- The Go expression `err.Error()`.  The renderings of values by `fmt` (`%v` and `%#v`) are the
host's: `fv` and `fs`. -/
def Err.message (fv fs : Value → String) : Err → String
  | .notPrimitive x k =>
    "unable to copy " ++ fv x ++ " (a " ++ k.toString ++ ") as a primitive"
  | .unsupported x t k =>
    "unable to make a deep copy of " ++ fv x ++ " (type: " ++
      (match t with | some t => t.toString | none => "<nil>") ++
      ") - kind " ++ k.toString ++ " is not supported"
  | .wrongKind want got =>
    "must pass a value with kind of " ++ want.title ++ "; got " ++ got.toString
  | .sliceItem i e =>
    "failed to clone slice item at index " ++ ToString.toString i ++ ": " ++
      e.message fv fs
  | .mapItem key e =>
    "failed to clone map item " ++ fv key ++ ": " ++ e.message fv fs
  | .mapKey k e =>
    "failed to clone the map key " ++ fv k ++ ": " ++ e.message fv fs
  | .pointee x e =>
    "failed to copy the value under the pointer " ++ fv x ++ ": " ++
      e.message fv fs
  | .unexported t fname =>
    "can\x27t copy type " ++ t.toString ++ " cause of field " ++ fname
  | .field name x e =>
    "failed to copy the field " ++ name ++ " in the struct " ++ fs x ++ ": " ++
      e.message fv fs
  | .arrayItem i e =>
    "failed to clone array item at index " ++ ToString.toString i ++ ": " ++
      e.message fv fs
  | .other msg => msg

/-- The memory and the `ptrs` tracker of one top-level call. -/
structure State where
  heap : Heap
  ptrs : List (Addr × Value)

/-- The Go expression `ptrs[addr]`. -/
def State.tracked (st : State) (addr : Addr) : Option Value :=
  (st.ptrs.find? (fun e => e.1 == addr)).map (fun e => e.2)

/-- What a call does: it returns `(v, err)` in a final state, it panics, or it
does not return. -/
inductive Outcome
  | ret (v : Value) (err : Option Err) (st : State)
  | panic (msg : String)
  | diverge

/-- The type `TypeMap`: the override table, keyed by `reflect.Type` (the nil type too). -/
abbrev TypeMap := List (Option Ty × (Value → Value × Option Err))

/-- The Go expression `typeMap[t]`. -/
def TypeMap.lookup (tm : TypeMap) (t : Option Ty) :
    Option (Value → Value × Option Err) :=
  (tm.find? (fun e => e.1 == t)).map (fun e => e.2)

/-- The dispatcher as the strategies call it. -/
abbrev Dispatch := Value → State → TypeMap → Outcome

/-- The Go function `_primitive`. -/
def _primitive (x : Value) (st : State) (_tm : TypeMap) : Outcome :=
  let kind := x.kind
  if kind = .Array ∨ kind = .Chan ∨ kind = .Func ∨ kind = .Interface ∨
      kind = .Map ∨ kind = .Ptr ∨ kind = .Slice ∨ kind = .Struct ∨
      kind = .UnsafePointer then
    .ret .nil (some (.notPrimitive x kind)) st
  else .ret x none st

/-- The loop of `_slice`: `n` iterations remain, the next index is `i`; the
clone's backing array is at `dc`, its slice type is `t`.  `Except.error` is a
`return` (or a panic) from inside the loop. -/
def sliceLoop (self : Dispatch) (tm : TypeMap) (hdr : SliceHdr) (dc : Addr)
    (t : Ty) : Nat → Nat → State → Except Outcome State
  | 0, _, st => .ok st
  | n + 1, i, st =>
    match st.heap.index hdr i with
    | none => .error (.panic "reflect: slice index out of range")
    | some xi =>
      match self xi st tm with
      | .ret _ (some e) st1 => .error (.ret .nil (some (.sliceItem i e)) st1)
      | .ret item none st1 =>
        if item.isValid then
          if assignable item t.elem then
            sliceLoop self tm hdr dc t n (i + 1)
              { st1 with heap := st1.heap.setIndex dc i item }
          else .error (.panic "reflect.Set: value is not assignable")
        else sliceLoop self tm hdr dc t n (i + 1) st1
      | o => .error o

/-- The Go function `_slice`. -/
def _slice (Z : Ty → Value) (self : Dispatch) (x : Value) (st : State)
    (tm : TypeMap) : Outcome :=
  match x with
  | .slice _ none => .ret x none st
  | .slice t (some hdr) =>
    let size := hdr.len
    let dc := st.heap.length
    let st0 : State :=
      { st with heap := st.heap ++
          [.arr t.elem (List.replicate size (zeroValue Z t.elem))] }
    match sliceLoop self tm hdr dc t size 0 st0 with
    | .error o => o
    | .ok st1 => .ret (.slice t (some ⟨dc, 0, size, size⟩)) none st1
  | _ => .ret .nil (some (.wrongKind .Slice x.kind)) st

/-- The loop of `_map` over the entries still to visit; the clone is the map
object at `dc`, of map type `t`. -/
def mapLoop (self : Dispatch) (tm : TypeMap) (dc : Addr) (t : Ty) :
    List (Value × Value) → State → Except Outcome State
  | [], st => .ok st
  | (key, val) :: rest, st =>
    match self val st tm with
    | .ret _ (some e) st1 => .error (.ret .nil (some (.mapItem key e)) st1)
    | .ret item none st1 =>
      match self key st1 tm with
      | .ret k (some e) st2 => .error (.ret .nil (some (.mapKey k e)) st2)
      | .ret k none st2 =>
        if !k.isValid then
          .error (.panic "reflect: call of reflect.Value.SetMapIndex on zero Value")
        else if !assignable k t.key then
          .error (.panic "reflect.Value.SetMapIndex: value is not assignable")
        else if !item.isValid then
          mapLoop self tm dc t rest { st2 with heap := st2.heap.mapDel dc k }
        else if !assignable item t.elem then
          .error (.panic "reflect.Value.SetMapIndex: value is not assignable")
        else
          mapLoop self tm dc t rest { st2 with heap := st2.heap.mapSet dc k item }
      | o => .error o
    | o => .error o

/-- The Go function `_map`.  The iterator walks the entries of the original in
the order the map object lists them. -/
def _map (self : Dispatch) (x : Value) (st : State) (tm : TypeMap) : Outcome :=
  match x with
  | .map _ none => .ret x none st
  | .map t (some a) =>
    match st.heap.entries a with
    | none => .panic "invalid memory address"
    | some es =>
      let dc := st.heap.length
      let st0 : State := { st with heap := st.heap ++ [.map []] }
      match mapLoop self tm dc t es st0 with
      | .error o => o
      | .ok st1 => .ret (.map t (some dc)) none st1
  | _ => .ret .nil (some (.wrongKind .Map x.kind)) st

/-- The pointee of a pointer of element type `t` to the address `a`, when `t` is
a zero-size type and `a` the address of the zero-size variables: the variable at
`a`, or its leading part, of type `t`, if it occupies no memory; and when the
variable at `a` is a zero-size variable of another type, the one value of `t`,
its zero value. -/
def Heap.sizelessAt (h : Heap) (Z : Ty → Value) (a : Addr) (t : Ty) : Option Value :=
  if t.kind = .Interface then none
  else
    match h.get? a with
    | some (.var ty v) =>
      match leading t ty v with
      | some w => if w.sizeless then some w else none
      | none =>
        if v.sizeless && (zeroValue Z t).sizeless then some (zeroValue Z t) else none
    | _ => none

/-- The Go function `_pointer`.  `reflect.New(t.Elem())` allocates a variable, unless the
element type is zero-size: the Go runtime gives every zero-size variable one and
the same address, so the pointer `x` to such a variable holds it already, and
`reflect.New` returns it again; a `Set` on a zero-size variable writes nothing. -/
def _pointer (Z : Ty → Value) (self : Dispatch) (x : Value) (st : State)
    (tm : TypeMap) : Outcome :=
  match x with
  | .ptr t none => .ret (zeroValue Z t) none st
  | .ptr t (some addr) =>
    match st.tracked addr with
    | some dc => .ret dc none st
    | none =>
      match st.heap.sizelessAt Z addr t.elem with
      | some pointee =>
        let dc := Value.ptr (.ptr t.elem) (some addr)
        let st0 : State := { st with ptrs := (addr, dc) :: st.ptrs }
        match self pointee st0 tm with
        | .ret _ (some e) st1 => .ret .nil (some (.pointee x e)) st1
        | .ret item none st1 =>
          if item.isValid then
            if assignable item t.elem then .ret dc none st1
            else .panic "reflect.Set: value is not assignable"
          else .ret dc none st1
        | o => o
      | none =>
        let a := st.heap.length
        let dc := Value.ptr (.ptr t.elem) (some a)
        let st0 : State :=
          { heap := st.heap ++ [.var t.elem (zeroValue Z t.elem)],
            ptrs := (addr, dc) :: st.ptrs }
        match st0.heap.deref addr t.elem with
        | none => .panic "invalid memory address or nil pointer dereference"
        | some pointee =>
          match self pointee st0 tm with
          | .ret _ (some e) st1 => .ret .nil (some (.pointee x e)) st1
          | .ret item none st1 =>
            if item.isValid then
              if assignable item t.elem then
                .ret dc none { st1 with heap := st1.heap.setVar a item }
              else .panic "reflect.Set: value is not assignable"
            else .ret dc none st1
          | o => o
  | _ => .ret .nil (some (.wrongKind .Ptr x.kind)) st

/-- The loop of `_struct` over the fields still to visit, the next being field
`i`; `x` is the struct being cloned, of type `t`, the clone is the variable at
`dc`. -/
def structLoop (self : Dispatch) (tm : TypeMap) (x : Value) (t : Ty) (dc : Addr) :
    List (StructField × Value) → Nat → State → Except Outcome State
  | [], _, st => .ok st
  | (f, fv) :: rest, i, st =>
    if f.PkgPath ≠ "" then
      .error (.ret .nil (some (.unexported t f.Name)) st)
    else
      match self fv st tm with
      | .ret _ (some e) st1 => .error (.ret .nil (some (.field f.Name x e)) st1)
      | .ret item none st1 =>
        if !item.isValid then
          .error (.panic "reflect: call of reflect.Value.Set on zero Value")
        else if !assignable item f.Typ then
          .error (.panic "reflect.Set: value is not assignable")
        else
          structLoop self tm x t dc rest (i + 1)
            { st1 with heap := st1.heap.setField dc i item }
      | o => .error o

/-- The Go function `_struct`.  `reflect.New(t)` is a variable holding the zero
struct of the type of `x`: the fields of `x`, each at its zero value. -/
def _struct (Z : Ty → Value) (self : Dispatch) (x : Value) (st : State)
    (tm : TypeMap) : Outcome :=
  match x with
  | .struct t fields =>
    let dc := st.heap.length
    let zero := Value.struct t (fields.map (fun f => (f.1, zeroValue Z f.1.Typ)))
    let st0 : State := { st with heap := st.heap ++ [.var t zero] }
    match structLoop self tm x t dc fields 0 st0 with
    | .error o => o
    | .ok st1 => .ret (st1.heap.load dc) none st1
  | _ => .ret .nil (some (.wrongKind .Struct x.kind)) st

/-- The loop of `_array`: `n` iterations remain, the next index is `i`; `elems`
are the elements of the original, the clone is the array variable at `dc`. -/
def arrayLoop (self : Dispatch) (tm : TypeMap) (elems : List Value) (t : Ty)
    (dc : Addr) : Nat → Nat → State → Except Outcome State
  | 0, _, st => .ok st
  | n + 1, i, st =>
    match elems.get? i with
    | none => .error (.panic "reflect: array index out of range")
    | some xi =>
      match self xi st tm with
      | .ret _ (some e) st1 => .error (.ret .nil (some (.arrayItem i e)) st1)
      | .ret item none st1 =>
        if !item.isValid then
          .error (.panic "reflect: call of reflect.Value.Set on zero Value")
        else if !assignable item t.elem then
          .error (.panic "reflect.Set: value is not assignable")
        else
          arrayLoop self tm elems t dc n (i + 1)
            { st1 with heap := st1.heap.setElem dc i item }
      | o => .error o

/-- The Go function `_array`.  The clone has the array type
`reflect.ArrayOf(size, t.Elem())`. -/
def _array (Z : Ty → Value) (self : Dispatch) (x : Value) (st : State)
    (tm : TypeMap) : Outcome :=
  match x with
  | .array t elems =>
    let size := t.len
    let nt := Ty.array size t.elem
    let dc := st.heap.length
    let st0 : State :=
      { st with heap := st.heap ++
          [.var nt (.array nt (List.replicate size (zeroValue Z t.elem)))] }
    match arrayLoop self tm elems t dc size 0 st0 with
    | .error o => o
    | .ok st1 => .ret (st1.heap.load dc) none st1
  | _ => .ret .nil (some (.wrongKind .Array x.kind)) st

/-- A strategy of the dispatch table. -/
abbrev copier := Dispatch → Value → State → TypeMap → Outcome

/-- The table `copiers` filled by `init`. -/
def copiers (Z : Ty → Value) : Kind → Option copier
  | .Bool | .Int | .Int8 | .Int16 | .Int32 | .Int64
  | .Uint | .Uint8 | .Uint16 | .Uint32 | .Uint64 | .Uintptr
  | .Float32 | .Float64 | .Complex64 | .Complex128 | .Str =>
    some (fun _ => _primitive)
  | .Array => some (_array Z)
  | .Map => some _map
  | .Ptr => some (_pointer Z)
  | .Slice => some (_slice Z)
  | .Struct => some (_struct Z)
  | _ => none

/-- The Go function `_anything`; the first argument bounds the depth of the
recursion, and the call does not return when the bound is reached. -/
def _anything (Z : Ty → Value) : Nat → Dispatch
  | 0, _, _, _ => .diverge
  | fuel + 1, x, st, tm =>
    let t := x.typeOf
    match (if tm.length > 0 then tm.lookup t else none) with
    | some f => .ret (f x).1 (f x).2 st
    | none =>
      if !x.isValid then .ret x none st
      else
        match copiers Z x.kind with
        | some c => c (_anything Z fuel) x st tm
        | none => .ret .nil (some (.unsupported x t x.kind)) st

/-- The Go function `Anything`, run on the memory `heap`. -/
def Anything (Z : Ty → Value) (fuel : Nat) (x : Value) (heap : Heap) : Outcome :=
  _anything Z fuel x { heap := heap, ptrs := [] } []

/-- The Go function `AnythingWithCustomTypes`, run on the memory `heap`. -/
def AnythingWithCustomTypes (Z : Ty → Value) (fuel : Nat) (x : Value)
    (typeMap : TypeMap) (heap : Heap) : Outcome :=
  _anything Z fuel x { heap := heap, ptrs := [] } typeMap

/-! ## Specification vocabulary -/

/-- The call left the first `L` cells of the memory as they were, released
nothing, and only added entries to the tracker, none for an address it held. -/
def Keep (L : Nat) (st st' : State) : Prop :=
  st'.heap.take L = st.heap.take L ∧ st.heap.length ≤ st'.heap.length ∧
    st.ptrs <:+ st'.ptrs ∧ ∀ a y, st.tracked a = some y → st'.tracked a = some y

/-- The relation `Keep` for the final state of an outcome that returns. -/
def Outcome.Keeps (L : Nat) (st : State) : Outcome → Prop
  | .ret _ _ st' => Keep L st st'
  | _ => True

/-- The relation `Keep` for the state a loop ends in, or returns from. -/
def LoopKeeps (L : Nat) (st : State) : Except Outcome State → Prop
  | .ok st' => Keep L st st'
  | .error o => o.Keeps L st

/-- A dispatcher that writes only into memory it allocates. -/
def Framed (self : Dispatch) : Prop :=
  ∀ x st tm, (self x st tm).Keeps st.heap.length st


/-! ## Concrete inputs -/

/-- The zero values of a program that declares no struct types of its own. -/
def noStructs : Ty → Value := fun t => .struct t []

/-- The type `string`. -/
def tString : Ty := .basic .Str

/-- The type `int`. -/
def tInt : Ty := .basic .Int

/-- The `int` with the given rendering. -/
def int (d : String) : Value := .basic .Int tInt d

/-- The value `struct{ A interface{} }{A: nil}`. -/
def nilFieldRecord : Value :=
  .struct (.struct "struct \x7b A interface \x7b\x7d \x7d") [(⟨"A", "", .iface⟩, .nil)]

/-- The value `struct{ A interface{}; b int }{A: nil, b: 1}`. -/
def hiddenFieldRecord : Value :=
  .struct (.struct "struct \x7b A interface \x7b\x7d; b int \x7d")
    [(⟨"A", "", .iface⟩, .nil), (⟨"b", "main", tInt⟩, int "1")]

/-- The slice `s` after `s := make([]interface{}, 1); s[0] = s`. -/
def selfSlice : Value := .slice (.slice .iface) (some ⟨0, 0, 1, 1⟩)

/-- The memory holding the backing array of `selfSlice`. -/
def selfSliceHeap : Heap := [.arr .iface [selfSlice]]

/-- The map `map[string]interface{}{"a": nil}`. -/
def nilValuedMap : Value := .map (.map tString .iface) (some 0)

/-- The memory holding the map object of `nilValuedMap`. -/
def nilValuedMapHeap : Heap := [.map [(.basic .Str tString "a", .nil)]]

/-- The pointer `p` after `n := 7; p := &n`. -/
def sharedPtr : Value := .ptr (.ptr tInt) (some 0)

/-- The slice `[]interface{}{p, map[*int]interface{}{p: nil}}`: `p` occurs in
its first element and as a key of its second. -/
def sharedKeySlice : Value := .slice (.slice .iface) (some ⟨2, 0, 2, 2⟩)

/-- The memory of `sharedKeySlice`: the variable `n`, the map object, the
backing array. -/
def sharedKeyHeap : Heap :=
  [.var tInt (int "7"),
   .map [(sharedPtr, .nil)],
   .arr .iface [sharedPtr, .map (.map (.ptr tInt) .iface) (some 1)]]

mutual
/-- The addresses a value holds directly: of its non-nil pointers, slices and
maps, at any depth of its arrays and structs (without following them). -/
def Value.addrs : Value → List Addr
  | .nil => []
  | .basic _ _ _ => []
  | .handle _ _ _ => []
  | .array _ es => Value.addrsList es
  | .struct _ fs => Value.addrsFields fs
  | .slice _ (some hdr) => [hdr.arr]
  | .slice _ none => []
  | .map _ (some a) => [a]
  | .map _ none => []
  | .ptr _ (some a) => [a]
  | .ptr _ none => []
/-- The addresses held by the values of a list. -/
def Value.addrsList : List Value → List Addr
  | [] => []
  | x :: xs => Value.addrs x ++ Value.addrsList xs
/-- The addresses held by the fields of a struct. -/
def Value.addrsFields : List (StructField × Value) → List Addr
  | [] => []
  | (_, x) :: xs => Value.addrs x ++ Value.addrsFields xs
end

mutual
/-- The addresses a value holds directly, as `Value.addrs`, apart from those of
its pointers to the zero-size variables of the memory `base`. -/
def Value.held (Z : Ty → Value) (base : Heap) : Value → List Addr
  | .nil => []
  | .basic _ _ _ => []
  | .handle _ _ _ => []
  | .array _ es => Value.heldList Z base es
  | .struct _ fs => Value.heldFields Z base fs
  | .slice _ (some hdr) => [hdr.arr]
  | .slice _ none => []
  | .map _ (some a) => [a]
  | .map _ none => []
  | .ptr t (some a) => if (base.sizelessAt Z a t.elem).isSome then [] else [a]
  | .ptr _ none => []
/-- The addresses held by the values of a list. -/
def Value.heldList (Z : Ty → Value) (base : Heap) : List Value → List Addr
  | [] => []
  | x :: xs => Value.held Z base x ++ Value.heldList Z base xs
/-- The addresses held by the fields of a struct. -/
def Value.heldFields (Z : Ty → Value) (base : Heap) :
    List (StructField × Value) → List Addr
  | [] => []
  | (_, x) :: xs => Value.held Z base x ++ Value.heldFields Z base xs
end

/-- The addresses held by the entries of a map object. -/
def entryHeld (Z : Ty → Value) (base : Heap) : List (Value × Value) → List Addr
  | [] => []
  | (k, v) :: rest => k.held Z base ++ v.held Z base ++ entryHeld Z base rest

/-- The addresses a heap cell holds. -/
def Cell.held (Z : Ty → Value) (base : Heap) : Cell → List Addr
  | .var _ v => v.held Z base
  | .arr _ vs => Value.heldList Z base vs
  | .map es => entryHeld Z base es

/-- All the addresses in the list lie in `[lo, hi)`. -/
def Within (lo hi : Nat) (as : List Addr) : Prop := ∀ a ∈ as, lo ≤ a ∧ a < hi

/-- The memory `h` still holds every cell of `base`, unchanged. -/
def Extends (base h : Heap) : Prop :=
  ∀ a, a < base.length → h.get? a = base.get? a

/-- The invariant of a call that started in the memory `base`: the clones the
tracker holds, and the cells allocated since, refer only to cells allocated
since, apart from their pointers to zero-size variables of `base`; and the cells
of `base` are as they were. -/
def FreshInv (Z : Ty → Value) (base : Heap) (st : State) : Prop :=
  base.length ≤ st.heap.length ∧
  (∀ p ∈ st.ptrs, Within base.length st.heap.length (p.2.held Z base)) ∧
  (∀ i c, base.length ≤ i → st.heap.get? i = some c →
    Within base.length st.heap.length (c.held Z base)) ∧
  Extends base st.heap

/-- The relation `Reach h v w`: the value `w` is found from `v` by entering struct fields, array
elements, slice elements, map keys and values, and pointer targets, in the
memory `h`. -/
inductive Reach (h : Heap) : Value → Value → Prop
  | here (v : Value) : Reach h v v
  | field {v : Value} {t : Ty} {fs : List (StructField × Value)} {f : StructField}
      {w : Value} : Reach h v (.struct t fs) → (f, w) ∈ fs → Reach h v w
  | elem {v : Value} {t : Ty} {es : List Value} {w : Value} :
      Reach h v (.array t es) → w ∈ es → Reach h v w
  | index {v : Value} {t : Ty} {hdr : SliceHdr} {i : Nat} {w : Value} :
      Reach h v (.slice t (some hdr)) → h.index hdr i = some w → Reach h v w
  | key {v : Value} {t : Ty} {a : Addr} {es : List (Value × Value)} {k w : Value} :
      Reach h v (.map t (some a)) → h.entries a = some es → (k, w) ∈ es → Reach h v k
  | val {v : Value} {t : Ty} {a : Addr} {es : List (Value × Value)} {k w : Value} :
      Reach h v (.map t (some a)) → h.entries a = some es → (k, w) ∈ es → Reach h v w
  | deref {v : Value} {t : Ty} {a : Addr} {w : Value} :
      Reach h v (.ptr t (some a)) → h.deref a t.elem = some w → Reach h v w

/-- A dispatcher that, run without overrides, maintains `FreshInv` and returns
only values that refer to cells allocated since the call started, apart from
their pointers to zero-size variables. -/
def FreshD (Z : Ty → Value) (base : Heap) (self : Dispatch) : Prop :=
  ∀ x st v st', FreshInv Z base st → self x st [] = .ret v none st' →
    FreshInv Z base st' ∧ Within base.length st'.heap.length (v.held Z base)

/-- The type `Foo` of the tests: `struct { Foo *Foo; Bar int }`. -/
def tFoo : Ty := .struct "deepcopy.Foo"

/-- The two fields of `Foo`. -/
def fooFields (foo bar : Value) : List (StructField × Value) :=
  [(⟨"Foo", "", .ptr tFoo⟩, foo), (⟨"Bar", "", tInt⟩, bar)]

/-- The pointer `x` after `x := &Foo{Bar: 4}; x.Foo = x`. -/
def selfFoo : Value := .ptr (.ptr tFoo) (some 0)

/-- The memory of `selfFoo`: the one `Foo` variable, which refers to itself. -/
def selfFooHeap : Heap := [.var tFoo (.struct tFoo (fooFields selfFoo (int "4")))]

/-- The predicate `Hits Z fuel x st`: the traversal that `_anything Z fuel x st` performs without
overrides reaches a value of an unsupported kind (a function, a channel or an
unsafe pointer).  Either `x` is such a value, or `x` is a slice, array, map,
struct or pointer and the traversal, having cloned the children that come before
without error, reaches such a value inside one of its children. -/
inductive Hits (Z : Ty → Value) : Nat → Value → State → Prop
  | here (n : Nat) (h : Handle) (t : Ty) (id : Nat) (st : State) :
      Hits Z (n + 1) (.handle h t id) st
  | slice (n : Nat) (t : Ty) (hdr : SliceHdr) (i : Nat) (xi : Value) (st sti : State) :
      i < hdr.len →
      sliceLoop (_anything Z n) [] hdr st.heap.length t i 0
        { st with heap := st.heap ++
            [.arr t.elem (List.replicate hdr.len (zeroValue Z t.elem))] } = .ok sti →
      sti.heap.index hdr i = some xi →
      Hits Z n xi sti →
      Hits Z (n + 1) (.slice t (some hdr)) st
  | array (n : Nat) (t : Ty) (elems : List Value) (i : Nat) (xi : Value)
      (st sti : State) :
      i < t.len →
      arrayLoop (_anything Z n) [] elems t st.heap.length i 0
        { st with heap := st.heap ++ [.var (.array t.len t.elem)
          (.array (.array t.len t.elem) (List.replicate t.len (zeroValue Z t.elem)))] }
        = .ok sti →
      elems.get? i = some xi →
      Hits Z n xi sti →
      Hits Z (n + 1) (.array t elems) st
  | mapValue (n : Nat) (t : Ty) (a : Addr) (pre post : List (Value × Value))
      (key val : Value) (st sti : State) :
      st.heap.entries a = some (pre ++ (key, val) :: post) →
      mapLoop (_anything Z n) [] st.heap.length t pre
        { st with heap := st.heap ++ [.map []] } = .ok sti →
      Hits Z n val sti →
      Hits Z (n + 1) (.map t (some a)) st
  | mapKey (n : Nat) (t : Ty) (a : Addr) (pre post : List (Value × Value))
      (key val item : Value) (st sti st1 : State) :
      st.heap.entries a = some (pre ++ (key, val) :: post) →
      mapLoop (_anything Z n) [] st.heap.length t pre
        { st with heap := st.heap ++ [.map []] } = .ok sti →
      _anything Z n val sti [] = .ret item none st1 →
      Hits Z n key st1 →
      Hits Z (n + 1) (.map t (some a)) st
  | field (n : Nat) (t : Ty) (pre post : List (StructField × Value))
      (f : StructField) (fv : Value) (st sti : State) :
      structLoop (_anything Z n) [] (.struct t (pre ++ (f, fv) :: post)) t
        st.heap.length pre 0
        { st with heap := st.heap ++ [.var t (.struct t
          ((pre ++ (f, fv) :: post).map (fun f => (f.1, zeroValue Z f.1.Typ))))] }
        = .ok sti →
      f.PkgPath = "" →
      Hits Z n fv sti →
      Hits Z (n + 1) (.struct t (pre ++ (f, fv) :: post)) st
  | pointee (n : Nat) (t : Ty) (addr : Addr) (w : Value) (st : State) :
      st.tracked addr = none →
      Heap.deref (st.heap ++ [Cell.var t.elem (zeroValue Z t.elem)]) addr t.elem = some w →
      Hits Z n w
        { heap := st.heap ++ [.var t.elem (zeroValue Z t.elem)],
          ptrs := (addr, Value.ptr (.ptr t.elem) (some st.heap.length)) :: st.ptrs } →
      Hits Z (n + 1) (.ptr t (some addr)) st

/-- A function value `x := func() {}`. -/
def funcValue : Value := .handle .Func (.handle .Func "func()") 1

/-- The slice `[]interface{}{x}` of the tests, with `x` a function. -/
def funcSlice : Value := .slice (.slice .iface) (some ⟨0, 0, 1, 1⟩)

/-- The memory holding the backing array of `funcSlice`. -/
def funcSliceHeap : Heap := [.arr .iface [funcValue]]

/-- The type `struct { Self *T; n int }`, whose second field is unexported. -/
def tHidden : Ty := .struct "main.T"

/-- The pointer `x` after `x := &T{n: 4}; x.Self = x`. -/
def selfHidden : Value := .ptr (.ptr tHidden) (some 0)

/-- The memory of `selfHidden`. -/
def selfHiddenHeap : Heap :=
  [.var tHidden (.struct tHidden
    [(⟨"Self", "", .ptr tHidden⟩, selfHidden), (⟨"n", "main", tInt⟩, int "4")])]

/-- The call released nothing and left every cell that existed, except the one
at `dc`, as it was. -/
def Stable (dc : Addr) (st st' : State) : Prop :=
  st.heap.length ≤ st'.heap.length ∧
    ∀ a, a < st.heap.length → a ≠ dc → st'.heap.get? a = st.heap.get? a

/-- The relation `Cloned self tm base fin x item`: `item` is what the dispatcher returned for
`x`, without error, when called in some state whose memory extends `base`; and
the cells that this call allocated are in the memory `fin` as the call left
them. -/
def Cloned (self : Dispatch) (tm : TypeMap) (base fin : Heap) (x item : Value) : Prop :=
  ∃ sa sb, self x sa tm = .ret item none sb ∧ Extends base sa.heap ∧
    ∀ a, sa.heap.length ≤ a → a < sb.heap.length → fin.get? a = sb.heap.get? a

/-- Absence round-trips: `s2` stands to `s` as the clone of a slice or map must.
An absent slice or map gives the absent value of the same type; a present one
gives a present one of the same type, a slice of the same length, and an empty
map (in the memory `h`) gives an empty map (in the memory `h2`).  Nothing is
asked of other values. -/
def RoundTrip (h h2 : Heap) (s s2 : Value) : Prop :=
  match s with
  | .slice t none => s2 = .slice t none
  | .slice t (some hdr) => ∃ hdr2, s2 = .slice t (some hdr2) ∧ hdr2.len = hdr.len
  | .map t none => s2 = .map t none
  | .map t (some a) =>
    ∃ a2, s2 = .map t (some a2) ∧ (h.entries a = some [] → h2.entries a2 = some [])
  | _ => True

/-- What the record strategy stores for a field `p` of the original: a field `q`
with the same declaration, exported, holding a valid value the field accepts,
which the dispatcher returned for the value of `p`. -/
def FieldCloned (self : Dispatch) (tm : TypeMap) (base fin : Heap)
    (p q : StructField × Value) : Prop :=
  q.1 = p.1 ∧ p.1.PkgPath = "" ∧ q.2.isValid = true ∧ assignable q.2 p.1.Typ = true ∧
    Cloned self tm base fin p.2 q.2

/-- The value `TestNilSliceAndMap{Slice: nil, Map: nil}` of the tests. -/
def nilSliceAndMap : Value :=
  .struct (.struct "deepcopy.TestNilSliceAndMap")
    [(⟨"Slice", "", .slice tInt⟩, .slice (.slice tInt) none),
     (⟨"Map", "", .map tInt tInt⟩, .map (.map tInt tInt) none)]

/-- The stores of the map strategy, replayed on a list of entries: for each pair
`(k, item)` in turn, `m[k] = item` when `item` is valid and `delete(m, k)` when
it is the untyped nil. -/
def replay : List (Value × Value) → List (Value × Value) → List (Value × Value)
  | [], cur => cur
  | (k, item) :: rest, cur =>
    replay rest (if item.isValid then mapAssign k item cur else mapDelete k cur)

/-- The override table `TypeMap{int: func(interface{}) (interface{}, error) {
return nil, nil }}`. -/
def nilOverride : TypeMap := [(some tInt, fun _ => (.nil, none))]

/-- The slice `[]int{1}`. -/
def oneIntSlice : Value := .slice (.slice tInt) (some ⟨0, 0, 1, 1⟩)

/-- The memory holding the backing array of `oneIntSlice`. -/
def oneIntSliceHeap : Heap := [.arr tInt [int "1"]]

/-- The override table `TypeMap{int: func(x interface{}) (interface{}, error) {
return 7, nil }}`. -/
def sevenOverride : TypeMap := [(some tInt, fun _ => (int "7", none))]

/-- The value `time.Date(2021, time.November, 5, 21, 3, 35, 12, time.UTC)`: a
`time.Time`, all of whose fields are unexported. -/
def aTime : Value :=
  .struct (.struct "time.Time")
    [(⟨"wall", "time", .basic .Uint64⟩, .basic .Uint64 (.basic .Uint64) "12"),
     (⟨"ext", "time", .basic .Int64⟩, .basic .Int64 (.basic .Int64) "63771742215"),
     (⟨"loc", "time", .ptr (.struct "time.Location")⟩,
        .ptr (.ptr (.struct "time.Location")) none)]

/-- The slice `[]interface{}{nil}` of `TestInterface`. -/
def nilElemSlice : Value := .slice (.slice .iface) (some ⟨0, 0, 1, 1⟩)

/-- The memory holding the backing array of `nilElemSlice`. -/
def nilElemSliceHeap : Heap := [.arr .iface [.nil]]

/-- The map `x` of `ExampleMap`:
`map[string]*Foo{"foo": &Foo{Bar: 1}, "bar": &Foo{Bar: 2, Foo: &Foo{Bar: 3}}}`. -/
def exampleMap : Value := .map (.map tString (.ptr tFoo)) (some 3)

/-- The memory of `exampleMap`: the three `Foo` variables, then the map object. -/
def exampleMapHeap : Heap :=
  [.var tFoo (.struct tFoo (fooFields (.ptr (.ptr tFoo) none) (int "1"))),
   .var tFoo (.struct tFoo (fooFields (.ptr (.ptr tFoo) none) (int "3"))),
   .var tFoo (.struct tFoo (fooFields (.ptr (.ptr tFoo) (some 1)) (int "2"))),
   .map [(.basic .Str tString "foo", .ptr (.ptr tFoo) (some 0)),
         (.basic .Str tString "bar", .ptr (.ptr tFoo) (some 2))]]

/-- The value `struct{ P *int; A interface{} }{P: nil, A: nil}`: a record with a
null pointer field and a field of interface type that holds nil. -/
def nilPtrAndIfaceRecord : Value :=
  .struct (.struct "struct \x7b P *int; A interface \x7b\x7d \x7d")
    [(⟨"P", "", .ptr tInt⟩, .ptr (.ptr tInt) none), (⟨"A", "", .iface⟩, .nil)]

/-- The override table `TypeMap{nil: func(interface{}) (interface{}, error) {
return 7, nil }}`, whose one entry is registered under the nil `reflect.Type`. -/
def nilTypeOverride : TypeMap := [(none, fun _ => (int "7", none))]

/-- The override table `TypeMap{int: func(interface{}) (interface{}, error) {
return 7, errors.New("boom") }}`. -/
def failingOverride : TypeMap := [(some tInt, fun _ => (int "7", some (.other "boom")))]

/-- The array `[1]interface{}{nil}`. -/
def nilElemArray : Value := .array (.array 1 .iface) [.nil]

/-- The type `K`, declared as `struct { n int }`: its one field is unexported. -/
def tKey : Ty := .struct "main.K"

/-- The key `K{n: 5}`. -/
def hiddenKey : Value := .struct tKey [(⟨"n", "main", tInt⟩, int "5")]

/-- The map `map[K]int{K{n: 5}: 1}`. -/
def hiddenKeyMap : Value := .map (.map tKey tInt) (some 0)

/-- The memory holding the map object of `hiddenKeyMap`. -/
def hiddenKeyMapHeap : Heap := [.map [(hiddenKey, int "1")]]

/-- The type `T`, declared as `struct { A int }`. -/
def tRec : Ty := .struct "main.T"

/-- The memory after `x := &T{A: 1}`: the one variable, at address 0, followed by
the backing array of `[]interface{}{x, &x.A}`. -/
def aliasHeap : Heap :=
  [.var tRec (.struct tRec [(⟨"A", "", tInt⟩, int "1")]),
   .arr .iface [.ptr (.ptr tRec) (some 0), .ptr (.ptr tInt) (some 0)]]

/-- The slice `[]interface{}{x, &x.A}`: both elements hold the address of `x`, the
first as a `*T`, the second as a `*int`. -/
def aliasSlice : Value := .slice (.slice .iface) (some ⟨1, 0, 2, 2⟩)

/-- The relation `reflect.DeepEqual`, between a value in the memory `h1` and a value in the
memory `h2`, as far as a finite comparison establishes it.  Values of distinct
types are never deeply equal; scalars, channels and unsafe pointers are deeply
equal when they are equal by `==`; functions when both are nil; arrays element by
element; structs field by field; slices when both are nil, or both are not, with
the same length and deeply equal elements; pointers when both are nil, or both
are not, with deeply equal targets; maps when both are nil, or both are not,
with as many entries, each key of the one being a key (by `==`) of the other with
a deeply equal value. -/
inductive DeepEqual (h1 h2 : Heap) : Value → Value → Prop
  | nil : DeepEqual h1 h2 .nil .nil
  | basic (b : Basic) (t : Ty) (d1 d2 : String) :
      scalarEq b d1 d2 = true → DeepEqual h1 h2 (.basic b t d1) (.basic b t d2)
  | handle (h : Handle) (t : Ty) (id : Nat) :
      (h = .Func → id = 0) → DeepEqual h1 h2 (.handle h t id) (.handle h t id)
  | array (t : Ty) (es1 es2 : List Value) :
      es1.length = es2.length →
      (∀ i x y, es1.get? i = some x → es2.get? i = some y → DeepEqual h1 h2 x y) →
      DeepEqual h1 h2 (.array t es1) (.array t es2)
  | struct (t : Ty) (fs1 fs2 : List (StructField × Value)) :
      fs1.map Prod.fst = fs2.map Prod.fst →
      (∀ i p q, fs1.get? i = some p → fs2.get? i = some q → DeepEqual h1 h2 p.2 q.2) →
      DeepEqual h1 h2 (.struct t fs1) (.struct t fs2)
  | sliceNil (t : Ty) : DeepEqual h1 h2 (.slice t none) (.slice t none)
  | slice (t : Ty) (hdr1 hdr2 : SliceHdr) :
      hdr1.len = hdr2.len →
      (∀ i, i < hdr1.len →
        (h1.index hdr1 i).isSome = true ∧ (h2.index hdr2 i).isSome = true) →
      (∀ i x y, i < hdr1.len → h1.index hdr1 i = some x → h2.index hdr2 i = some y →
        DeepEqual h1 h2 x y) →
      DeepEqual h1 h2 (.slice t (some hdr1)) (.slice t (some hdr2))
  | mapNil (t : Ty) : DeepEqual h1 h2 (.map t none) (.map t none)
  | map (t : Ty) (a1 a2 : Addr) (es1 es2 : List (Value × Value))
      (g : Value × Value → Value × Value) :
      h1.entries a1 = some es1 → h2.entries a2 = some es2 → es1.length = es2.length →
      (∀ p, p ∈ es1 → g p ∈ es2 ∧ Value.beq (g p).1 p.1 = true) →
      (∀ p, p ∈ es1 → DeepEqual h1 h2 p.2 (g p).2) →
      DeepEqual h1 h2 (.map t (some a1)) (.map t (some a2))
  | ptrNil (t : Ty) : DeepEqual h1 h2 (.ptr t none) (.ptr t none)
  | ptr (t : Ty) (a1 a2 : Addr) (x y : Value) :
      h1.deref a1 t.elem = some x → h2.deref a2 t.elem = some y → DeepEqual h1 h2 x y →
      DeepEqual h1 h2 (.ptr t (some a1)) (.ptr t (some a2))

/-- The slice `[]interface{}{nil, p}`, with `p` the pointer after `n := 7; p := &n`. -/
def nilAndPtrSlice : Value := .slice (.slice .iface) (some ⟨1, 0, 2, 2⟩)

/-- The memory of `nilAndPtrSlice`: the variable `n`, then the backing array. -/
def nilAndPtrHeap : Heap := [.var tInt (int "7"), .arr .iface [.nil, sharedPtr]]

/-- The stores of the map strategy, tied to its run from the state `st0`: `outs`
lists, for the entries `es` of the original in iteration order, the pairs the
strategy passes to `SetMapIndex`; the pair for an entry holds what the dispatcher
returned, without error, first for the value of the entry, in the state the loop
had reached on the entries before it, and then for its key. -/
def MapStores (self : Dispatch) (tm : TypeMap) (dc : Addr) (t : Ty)
    (es : List (Value × Value)) (st0 : State) (outs : List (Value × Value)) : Prop :=
  outs.length = es.length ∧
  ∀ j key val, es.get? j = some (key, val) →
    ∃ stj item st1 k st2, mapLoop self tm dc t (es.take j) st0 = .ok stj ∧
      self val stj tm = .ret item none st1 ∧ self key st1 tm = .ret k none st2 ∧
      outs.get? j = some (k, item)

/-- The map `map[string]int{"a": 1}`. -/
def oneEntryMap : Value := .map (.map tString tInt) (some 0)

/-- The memory holding the map object of `oneEntryMap`. -/
def oneEntryMapHeap : Heap := [.map [(.basic .Str tString "a", int "1")]]

/-- The type `struct { Self *U; F func() }`, whose second field holds a function. -/
def tFn : Ty := .struct "main.U"

/-- The pointer `x` after `x := &U{F: func() {}}; x.Self = x`. -/
def selfFn : Value := .ptr (.ptr tFn) (some 0)

/-- The memory of `selfFn`. -/
def selfFnHeap : Heap :=
  [.var tFn (.struct tFn
    [(⟨"Self", "", .ptr tFn⟩, selfFn), (⟨"F", "", .handle .Func "func()"⟩, funcValue)])]

/-- The type `struct{}`. -/
def tEmpty : Ty := .struct "struct \x7b\x7d"

/-- The pointer `x` after `x := &struct{}{}`. -/
def emptyPtr : Value := .ptr (.ptr tEmpty) (some 0)

/-- The memory of `emptyPtr`: the one zero-size variable. -/
def emptyPtrHeap : Heap := [.var tEmpty (.struct tEmpty [])]

/-- The override table `TypeMap{int: func(interface{}) (interface{}, error) {
return "x", nil }}`, whose entry returns a value of another type. -/
def textOverride : TypeMap := [(some tInt, fun _ => (.basic .Str tString "x", none))]
/-! ## Memory framing -/

theorem keep_refl (L : Nat) (st : State) : Keep L st st :=
  ⟨rfl, le_refl _, List.suffix_refl _, fun _ _ h => h⟩

theorem keep_trans {L : Nat} {a b c : State} (h1 : Keep L a b) (h2 : Keep L b c) :
    Keep L a c :=
  ⟨h2.1.trans h1.1, le_trans h1.2.1 h2.2.1, List.IsSuffix.trans h1.2.2.1 h2.2.2.1,
    fun a y h => h2.2.2.2 a y (h1.2.2.2 a y h)⟩

theorem keep_mono {L L' : Nat} {a b : State} (h : Keep L a b) (hl : L' ≤ L) :
    Keep L' a b := by
  refine ⟨?_, h.2.1, h.2.2⟩
  have := congrArg (List.take L') h.1
  simpa [List.take_take, min_eq_left hl] using this

theorem take_set_of_le {α : Type} (l : List α) (L a : Nat) (x : α) (h : L ≤ a) :
    (l.set a x).take L = l.take L := by
  induction l generalizing L a with
  | nil => simp
  | cons y ys ih =>
    cases L with
    | zero => simp
    | succ L =>
      cases a with
      | zero => omega
      | succ a => simp [List.set, ih L a (by omega)]

theorem keep_heapSet {L : Nat} (st : State) (h' : Heap)
    (hlen : h'.length = st.heap.length) (htake : h'.take L = st.heap.take L) :
    Keep L st { st with heap := h' } :=
  ⟨htake, by simp [hlen], List.suffix_refl _, fun _ _ h => h⟩

theorem setIndex_length (h : Heap) (a i : Nat) (v : Value) :
    (h.setIndex a i v).length = h.length := by
  unfold Heap.setIndex; split <;> simp

theorem setIndex_take (h : Heap) (L a i : Nat) (v : Value) (hl : L ≤ a) :
    (h.setIndex a i v).take L = h.take L := by
  unfold Heap.setIndex; split
  · exact take_set_of_le _ _ _ _ hl
  · rfl

theorem setVar_length (h : Heap) (a : Nat) (v : Value) :
    (h.setVar a v).length = h.length := by
  unfold Heap.setVar; split <;> simp

theorem setVar_take (h : Heap) (L a : Nat) (v : Value) (hl : L ≤ a) :
    (h.setVar a v).take L = h.take L := by
  unfold Heap.setVar; split
  · exact take_set_of_le _ _ _ _ hl
  · rfl

theorem setField_length (h : Heap) (a i : Nat) (v : Value) :
    (h.setField a i v).length = h.length := by
  unfold Heap.setField; split
  · split <;> simp
  · rfl

theorem setField_take (h : Heap) (L a i : Nat) (v : Value) (hl : L ≤ a) :
    (h.setField a i v).take L = h.take L := by
  unfold Heap.setField; split
  · split
    · exact take_set_of_le _ _ _ _ hl
    · rfl
  · rfl

theorem setElem_length (h : Heap) (a i : Nat) (v : Value) :
    (h.setElem a i v).length = h.length := by
  unfold Heap.setElem; split <;> simp

theorem setElem_take (h : Heap) (L a i : Nat) (v : Value) (hl : L ≤ a) :
    (h.setElem a i v).take L = h.take L := by
  unfold Heap.setElem; split
  · exact take_set_of_le _ _ _ _ hl
  · rfl

theorem mapSet_length (h : Heap) (a : Nat) (k v : Value) :
    (h.mapSet a k v).length = h.length := by
  unfold Heap.mapSet; split <;> simp

theorem mapSet_take (h : Heap) (L a : Nat) (k v : Value) (hl : L ≤ a) :
    (h.mapSet a k v).take L = h.take L := by
  unfold Heap.mapSet; split
  · exact take_set_of_le _ _ _ _ hl
  · rfl

theorem mapDel_length (h : Heap) (a : Nat) (k : Value) :
    (h.mapDel a k).length = h.length := by
  unfold Heap.mapDel; split <;> simp

theorem mapDel_take (h : Heap) (L a : Nat) (k : Value) (hl : L ≤ a) :
    (h.mapDel a k).take L = h.take L := by
  unfold Heap.mapDel; split
  · exact take_set_of_le _ _ _ _ hl
  · rfl

/-- Allocation keeps every cell that was there. -/
theorem keep_alloc (st : State) (c : Cell) (L : Nat) (hL : L ≤ st.heap.length) :
    Keep L st { st with heap := st.heap ++ [c] } := by
  refine ⟨?_, by simp, List.suffix_refl _, fun _ _ h => h⟩
  simp [List.take_append_of_le_length hL]

theorem outcome_keeps_mono {L L' : Nat} {st : State} {o : Outcome}
    (h : o.Keeps L st) (hl : L' ≤ L) : o.Keeps L' st := by
  cases o with
  | ret v e st' => exact keep_mono h hl
  | panic m => trivial
  | diverge => trivial

theorem outcome_keeps_trans {L : Nat} {a b : State} {o : Outcome}
    (h1 : Keep L a b) (h2 : o.Keeps L b) : o.Keeps L a := by
  cases o with
  | ret v e st' => exact keep_trans h1 h2
  | panic m => trivial
  | diverge => trivial

theorem loopKeeps_trans {L : Nat} {a b : State} {r : Except Outcome State}
    (h1 : Keep L a b) (h2 : LoopKeeps L b r) : LoopKeeps L a r := by
  cases r with
  | ok st' => exact keep_trans h1 h2
  | error o => exact outcome_keeps_trans h1 h2

theorem sliceLoop_keeps (self : Dispatch) (hs : Framed self) (tm : TypeMap)
    (hdr : SliceHdr) (dc : Addr) (t : Ty) (L : Nat) (hL : L ≤ dc) :
    ∀ (n i : Nat) (st : State), L ≤ st.heap.length →
      LoopKeeps L st (sliceLoop self tm hdr dc t n i st) := by
  intro n
  induction n with
  | zero => intro i st _; exact keep_refl _ _
  | succ n ih =>
    intro i st hst
    unfold sliceLoop
    split
    · trivial
    · rename_i xi _
      have hx := hs xi st tm
      split
      · rename_i v e st1 heq
        rw [heq] at hx
        exact keep_mono hx hst
      · rename_i item st1 heq
        rw [heq] at hx
        have hk : Keep L st st1 := keep_mono hx hst
        split
        · split
          · refine loopKeeps_trans (keep_trans hk ?_) (ih _ _ ?_)
            · exact keep_heapSet st1 _ (setIndex_length _ _ _ _) (setIndex_take _ _ _ _ _ hL)
            · simp [setIndex_length]; exact le_trans hst hk.2.1
          · trivial
        · exact loopKeeps_trans hk (ih _ _ (le_trans hst hk.2.1))
      · exact outcome_keeps_mono hx hst

theorem arrayLoop_keeps (self : Dispatch) (hs : Framed self) (tm : TypeMap)
    (elems : List Value) (t : Ty) (dc : Addr) (L : Nat) (hL : L ≤ dc) :
    ∀ (n i : Nat) (st : State), L ≤ st.heap.length →
      LoopKeeps L st (arrayLoop self tm elems t dc n i st) := by
  intro n
  induction n with
  | zero => intro i st _; exact keep_refl _ _
  | succ n ih =>
    intro i st hst
    unfold arrayLoop
    split
    · trivial
    · rename_i xi _
      have hx := hs xi st tm
      split
      · rename_i v e st1 heq
        rw [heq] at hx
        exact keep_mono hx hst
      · rename_i item st1 heq
        rw [heq] at hx
        have hk : Keep L st st1 := keep_mono hx hst
        split
        · trivial
        · split
          · trivial
          · refine loopKeeps_trans (keep_trans hk ?_) (ih _ _ ?_)
            · exact keep_heapSet st1 _ (setElem_length _ _ _ _) (setElem_take _ _ _ _ _ hL)
            · simp [setElem_length]; exact le_trans hst hk.2.1
      · exact outcome_keeps_mono hx hst

theorem structLoop_keeps (self : Dispatch) (hs : Framed self) (tm : TypeMap)
    (x : Value) (t : Ty) (dc : Addr) (L : Nat) (hL : L ≤ dc) :
    ∀ (fs : List (StructField × Value)) (i : Nat) (st : State), L ≤ st.heap.length →
      LoopKeeps L st (structLoop self tm x t dc fs i st) := by
  intro fs
  induction fs with
  | nil => intro i st _; exact keep_refl _ _
  | cons fd rest ih =>
    intro i st hst
    obtain ⟨f, fv⟩ := fd
    unfold structLoop
    split
    · exact keep_refl _ _
    · have hx := hs fv st tm
      split
      · rename_i v e st1 heq
        rw [heq] at hx
        exact keep_mono hx hst
      · rename_i item st1 heq
        rw [heq] at hx
        have hk : Keep L st st1 := keep_mono hx hst
        split
        · trivial
        · split
          · trivial
          · refine loopKeeps_trans (keep_trans hk ?_) (ih _ _ ?_)
            · exact keep_heapSet st1 _ (setField_length _ _ _ _) (setField_take _ _ _ _ _ hL)
            · simp [setField_length]; exact le_trans hst hk.2.1
      · exact outcome_keeps_mono hx hst

theorem mapLoop_keeps (self : Dispatch) (hs : Framed self) (tm : TypeMap)
    (dc : Addr) (t : Ty) (L : Nat) (hL : L ≤ dc) :
    ∀ (es : List (Value × Value)) (st : State), L ≤ st.heap.length →
      LoopKeeps L st (mapLoop self tm dc t es st) := by
  intro es
  induction es with
  | nil => intro st _; exact keep_refl _ _
  | cons kv rest ih =>
    intro st hst
    obtain ⟨key, val⟩ := kv
    unfold mapLoop
    have hx := hs val st tm
    split
    · rename_i v e st1 heq
      rw [heq] at hx
      exact keep_mono hx hst
    · rename_i item st1 heq
      rw [heq] at hx
      have hk : Keep L st st1 := keep_mono hx hst
      have hst1 : L ≤ st1.heap.length := le_trans hst hk.2.1
      have hy := hs key st1 tm
      split
      · rename_i k e st2 heq2
        rw [heq2] at hy
        exact keep_trans hk (keep_mono hy hst1)
      · rename_i k st2 heq2
        rw [heq2] at hy
        have hk2 : Keep L st st2 := keep_trans hk (keep_mono hy hst1)
        have hst2 : L ≤ st2.heap.length := le_trans hst hk2.2.1
        split
        · trivial
        · split
          · trivial
          · split
            · refine loopKeeps_trans (keep_trans hk2 ?_) (ih _ ?_)
              · exact keep_heapSet st2 _ (mapDel_length _ _ _) (mapDel_take _ _ _ _ hL)
              · simp [mapDel_length]; exact hst2
            · split
              · trivial
              · refine loopKeeps_trans (keep_trans hk2 ?_) (ih _ ?_)
                · exact keep_heapSet st2 _ (mapSet_length _ _ _ _) (mapSet_take _ _ _ _ _ hL)
                · simp [mapSet_length]; exact hst2
      · exact outcome_keeps_trans hk (outcome_keeps_mono hy hst1)
    · exact outcome_keeps_mono hx hst

theorem primitive_keeps (x : Value) (st : State) (tm : TypeMap) :
    (_primitive x st tm).Keeps st.heap.length st := by
  unfold _primitive
  dsimp only
  split <;> exact keep_refl _ _

theorem slice_keeps (Z : Ty → Value) (self : Dispatch) (hs : Framed self)
    (x : Value) (st : State) (tm : TypeMap) :
    (_slice Z self x st tm).Keeps st.heap.length st := by
  unfold _slice
  split
  · exact keep_refl _ _
  · rename_i t hdr
    dsimp only
    have hk := keep_alloc st (.arr t.elem (List.replicate hdr.len (zeroValue Z t.elem)))
      st.heap.length (le_refl _)
    have hl := sliceLoop_keeps self hs tm hdr st.heap.length t st.heap.length (le_refl _)
      hdr.len 0 _ hk.2.1
    have := loopKeeps_trans hk hl
    split
    · rename_i o heq; rw [heq] at this; exact this
    · rename_i st1 heq; rw [heq] at this; exact this
  · exact keep_refl _ _

theorem array_keeps (Z : Ty → Value) (self : Dispatch) (hs : Framed self)
    (x : Value) (st : State) (tm : TypeMap) :
    (_array Z self x st tm).Keeps st.heap.length st := by
  unfold _array
  split
  · rename_i t elems
    dsimp only
    have hk := keep_alloc st (.var (.array t.len t.elem)
      (.array (.array t.len t.elem) (List.replicate t.len (zeroValue Z t.elem))))
      st.heap.length (le_refl _)
    have hl := arrayLoop_keeps self hs tm elems t st.heap.length st.heap.length (le_refl _)
      t.len 0 _ hk.2.1
    have := loopKeeps_trans hk hl
    split
    · rename_i o heq; rw [heq] at this; exact this
    · rename_i st1 heq; rw [heq] at this; exact this
  · exact keep_refl _ _

theorem struct_keeps (Z : Ty → Value) (self : Dispatch) (hs : Framed self)
    (x : Value) (st : State) (tm : TypeMap) :
    (_struct Z self x st tm).Keeps st.heap.length st := by
  unfold _struct
  split
  · rename_i t fields
    dsimp only
    have hk := keep_alloc st
      (.var t (.struct t (fields.map (fun f => (f.1, zeroValue Z f.1.Typ)))))
      st.heap.length (le_refl _)
    have hl := structLoop_keeps self hs tm (.struct t fields) t st.heap.length
      st.heap.length (le_refl _) fields 0 _ hk.2.1
    have := loopKeeps_trans hk hl
    split
    · rename_i o heq; rw [heq] at this; exact this
    · rename_i st1 heq; rw [heq] at this; exact this
  · exact keep_refl _ _

theorem map_keeps (self : Dispatch) (hs : Framed self)
    (x : Value) (st : State) (tm : TypeMap) :
    (_map self x st tm).Keeps st.heap.length st := by
  unfold _map
  split
  · exact keep_refl _ _
  · rename_i t a
    split
    · trivial
    · rename_i es _
      dsimp only
      have hk := keep_alloc st (.map []) st.heap.length (le_refl _)
      have hl := mapLoop_keeps self hs tm st.heap.length t st.heap.length (le_refl _)
        es _ hk.2.1
      have := loopKeeps_trans hk hl
      split
      · rename_i o heq; rw [heq] at this; exact this
      · rename_i st1 heq; rw [heq] at this; exact this
  · exact keep_refl _ _

theorem tracked_cons {st : State} {addr : Addr} (htr : st.tracked addr = none) (dc : Value)
    {heap : Heap} (a : Addr) (y : Value) (h : st.tracked a = some y) :
    State.tracked { heap := heap, ptrs := (addr, dc) :: st.ptrs } a = some y := by
  have hne : addr ≠ a := by
    intro he
    subst he
    rw [htr] at h
    cases h
  unfold State.tracked at h ⊢
  rw [List.find?_cons_of_neg _ (by simpa using hne)]
  exact h

theorem pointer_keeps (Z : Ty → Value) (self : Dispatch) (hs : Framed self)
    (x : Value) (st : State) (tm : TypeMap) :
    (_pointer Z self x st tm).Keeps st.heap.length st := by
  unfold _pointer
  split
  · exact keep_refl _ _
  · rename_i t addr
    split
    · exact keep_refl _ _
    · rename_i htr
      split
      · rename_i pointee _
        dsimp only
        have hk : Keep st.heap.length st
            { st with ptrs := (addr, Value.ptr (.ptr t.elem) (some addr)) :: st.ptrs } :=
          ⟨rfl, le_refl _, List.suffix_cons _ _, tracked_cons htr _⟩
        have hx := hs pointee
          { st with ptrs := (addr, Value.ptr (.ptr t.elem) (some addr)) :: st.ptrs } tm
        have hx2 := outcome_keeps_trans hk hx
        split
        · rename_i v e st1 heq; rw [heq] at hx2; exact hx2
        · rename_i item st1 heq
          rw [heq] at hx2
          split
          · split
            · exact hx2
            · trivial
          · exact hx2
        · exact hx2
      · dsimp only
        have hk : Keep st.heap.length st
            { heap := st.heap ++ [.var t.elem (zeroValue Z t.elem)],
              ptrs := (addr, Value.ptr (.ptr t.elem) (some st.heap.length)) :: st.ptrs } :=
          ⟨by simp, by simp, List.suffix_cons _ _, tracked_cons htr _⟩
        split
        · trivial
        · rename_i pointee _
          have hx := hs pointee
            { heap := st.heap ++ [.var t.elem (zeroValue Z t.elem)],
              ptrs := (addr, Value.ptr (.ptr t.elem) (some st.heap.length)) :: st.ptrs } tm
          have hx2 := outcome_keeps_trans hk (outcome_keeps_mono hx hk.2.1)
          split
          · rename_i v e st1 heq; rw [heq] at hx2; exact hx2
          · rename_i item st1 heq
            rw [heq] at hx2
            split
            · split
              · exact keep_trans hx2 (keep_heapSet st1 _ (setVar_length _ _ _)
                  (setVar_take _ _ _ _ (le_refl _)))
              · trivial
            · exact hx2
          · exact hx2
  · exact keep_refl _ _

/-- Every call of the dispatcher writes only into memory it allocates itself, on
every outcome that returns, with or without overrides. -/
theorem anything_framed (Z : Ty → Value) : ∀ fuel, Framed (_anything Z fuel) := by
  intro fuel
  induction fuel with
  | zero => intro x st tm; trivial
  | succ n ih =>
    intro x st tm
    unfold _anything
    dsimp only
    split
    · exact keep_refl _ _
    · split
      · exact keep_refl _ _
      · split
        · rename_i c hc
          unfold copiers at hc
          split at hc
          all_goals first
            | (injection hc with hc; subst hc; exact primitive_keeps _ _ _)
            | (injection hc with hc; subst hc; exact array_keeps Z _ ih _ _ _)
            | (injection hc with hc; subst hc; exact map_keeps _ ih _ _ _)
            | (injection hc with hc; subst hc; exact pointer_keeps Z _ ih _ _ _)
            | (injection hc with hc; subst hc; exact slice_keeps Z _ ih _ _ _)
            | (injection hc with hc; subst hc; exact struct_keeps Z _ ih _ _ _)
            | cases hc
        · exact keep_refl _ _

/-! ## The dispatcher, case by case -/

theorem anything_override (Z : Ty → Value) (n : Nat) (x : Value) (st : State)
    (tm : TypeMap) (f : Value → Value × Option Err)
    (h : (if tm.length > 0 then tm.lookup x.typeOf else none) = some f) :
    _anything Z (n + 1) x st tm = .ret (f x).1 (f x).2 st := by
  unfold _anything
  dsimp only
  rw [h]

theorem anything_nil (Z : Ty → Value) (n : Nat) (st : State) (tm : TypeMap)
    (h : (if tm.length > 0 then tm.lookup Value.nil.typeOf else none) = none) :
    _anything Z (n + 1) .nil st tm = .ret .nil none st := by
  unfold _anything
  dsimp only
  rw [h]
  rfl

theorem anything_basic (Z : Ty → Value) (n : Nat) (b : Basic) (t : Ty) (d : String)
    (st : State) (tm : TypeMap)
    (h : (if tm.length > 0 then tm.lookup (Value.basic b t d).typeOf else none) = none) :
    _anything Z (n + 1) (.basic b t d) st tm = .ret (.basic b t d) none st := by
  unfold _anything
  dsimp only
  rw [h]
  cases b <;> rfl

theorem anything_handle (Z : Ty → Value) (n : Nat) (hd : Handle) (t : Ty) (id : Nat)
    (st : State) (tm : TypeMap)
    (h : (if tm.length > 0 then tm.lookup (Value.handle hd t id).typeOf else none) = none) :
    _anything Z (n + 1) (.handle hd t id) st tm =
      .ret .nil (some (.unsupported (.handle hd t id) (some t) hd.kind)) st := by
  unfold _anything
  dsimp only
  rw [h]
  cases hd <;> rfl

theorem anything_array (Z : Ty → Value) (n : Nat) (t : Ty) (es : List Value)
    (st : State) (tm : TypeMap)
    (h : (if tm.length > 0 then tm.lookup (Value.array t es).typeOf else none) = none) :
    _anything Z (n + 1) (.array t es) st tm =
      _array Z (_anything Z n) (.array t es) st tm := by
  unfold _anything
  dsimp only
  rw [h]
  rfl

theorem anything_struct (Z : Ty → Value) (n : Nat) (t : Ty)
    (fs : List (StructField × Value)) (st : State) (tm : TypeMap)
    (h : (if tm.length > 0 then tm.lookup (Value.struct t fs).typeOf else none) = none) :
    _anything Z (n + 1) (.struct t fs) st tm =
      _struct Z (_anything Z n) (.struct t fs) st tm := by
  unfold _anything
  dsimp only
  rw [h]
  rfl

theorem anything_slice (Z : Ty → Value) (n : Nat) (t : Ty) (hdr : Option SliceHdr)
    (st : State) (tm : TypeMap)
    (h : (if tm.length > 0 then tm.lookup (Value.slice t hdr).typeOf else none) = none) :
    _anything Z (n + 1) (.slice t hdr) st tm =
      _slice Z (_anything Z n) (.slice t hdr) st tm := by
  unfold _anything
  dsimp only
  rw [h]
  rfl

theorem anything_map (Z : Ty → Value) (n : Nat) (t : Ty) (r : Option Addr)
    (st : State) (tm : TypeMap)
    (h : (if tm.length > 0 then tm.lookup (Value.map t r).typeOf else none) = none) :
    _anything Z (n + 1) (.map t r) st tm = _map (_anything Z n) (.map t r) st tm := by
  unfold _anything
  dsimp only
  rw [h]
  rfl

theorem anything_ptr (Z : Ty → Value) (n : Nat) (t : Ty) (a : Option Addr)
    (st : State) (tm : TypeMap)
    (h : (if tm.length > 0 then tm.lookup (Value.ptr t a).typeOf else none) = none) :
    _anything Z (n + 1) (.ptr t a) st tm =
      _pointer Z (_anything Z n) (.ptr t a) st tm := by
  unfold _anything
  dsimp only
  rw [h]
  rfl

theorem no_override_nil (o : Option Ty) :
    (if ([] : TypeMap).length > 0 then ([] : TypeMap).lookup o else none) = none := rfl

/-! ## Freshness of the clone -/

theorem within_nil (lo hi : Nat) : Within lo hi [] := by
  intro a ha; cases ha

theorem within_append {lo hi : Nat} {xs ys : List Addr} :
    Within lo hi (xs ++ ys) ↔ Within lo hi xs ∧ Within lo hi ys := by
  unfold Within
  constructor
  · intro h
    exact ⟨fun a ha => h a (List.mem_append_left _ ha),
      fun a ha => h a (List.mem_append_right _ ha)⟩
  · rintro ⟨h1, h2⟩ a ha
    rcases List.mem_append.mp ha with h | h
    · exact h1 a h
    · exact h2 a h

theorem within_mono {lo hi hi' : Nat} {xs : List Addr} (h : Within lo hi xs)
    (hh : hi ≤ hi') : Within lo hi' xs :=
  fun a ha => ⟨(h a ha).1, lt_of_lt_of_le (h a ha).2 hh⟩

theorem addrsList_within {Z : Ty → Value} {base : Heap} {lo hi : Nat} {vs : List Value} :
    Within lo hi (Value.heldList Z base vs) ↔ ∀ v ∈ vs, Within lo hi (v.held Z base) := by
  induction vs with
  | nil => simp [Value.heldList, within_nil]
  | cons x xs ih => simp [Value.heldList, within_append, ih]

theorem addrsFields_within {Z : Ty → Value} {base : Heap} {lo hi : Nat} {fs : List (StructField × Value)} :
    Within lo hi (Value.heldFields Z base fs) ↔ ∀ p ∈ fs, Within lo hi (p.2.held Z base) := by
  induction fs with
  | nil => simp [Value.heldFields, within_nil]
  | cons x xs ih =>
    obtain ⟨f, v⟩ := x
    simp [Value.heldFields, within_append, ih]

theorem entryAddrs_within {Z : Ty → Value} {base : Heap} {lo hi : Nat} {es : List (Value × Value)} :
    Within lo hi (entryHeld Z base es) ↔
      ∀ p ∈ es, Within lo hi (p.1.held Z base) ∧ Within lo hi (p.2.held Z base) := by
  induction es with
  | nil => simp [entryHeld, within_nil]
  | cons x xs ih =>
    obtain ⟨k, v⟩ := x
    simp [entryHeld, within_append, ih, and_assoc]

theorem leading_within {Z : Ty → Value} {base : Heap} {lo hi : Nat} (want : Ty) (have_ : Ty) (v : Value) :
    ∀ (w : Value), leading want have_ v = some w →
      Within lo hi (v.held Z base) → Within lo hi (w.held Z base) := by
  induction have_, v using leading.induct want with
  | case1 v =>
    intro w h hv
    unfold leading at h
    simp at h
    subst h
    exact hv
  | case2 have_ hne t f x tail ih =>
    intro w h hv
    unfold leading at h
    simp only [hne, if_false] at h
    refine ih w h ?_
    simp only [Value.held, Value.heldFields, within_append] at hv
    exact hv.1
  | case3 have_ hne t x tail ih =>
    intro w h hv
    unfold leading at h
    simp only [hne, if_false] at h
    refine ih w h ?_
    simp only [Value.held, Value.heldList, within_append] at hv
    exact hv.1
  | case4 have_ v hne h1 h2 =>
    intro w h hv
    unfold leading at h
    simp only [hne, if_false] at h
    cases h

theorem addrsList_replicate (n : Nat) (z : Value) (hz : z.addrs = []) :
    Value.addrsList (List.replicate n z) = [] := by
  induction n with
  | zero => rfl
  | succ n ih => simp [List.replicate, Value.addrsList, hz, ih]

theorem zeroAs_addrs (Z : Ty → Value) (hZ : ∀ t, (Z t).addrs = []) (t u : Ty) :
    (zeroAs Z t u).addrs = [] := by
  induction u generalizing t with
  | basic b => rfl
  | array n e ih => simp [zeroAs, Value.addrs, addrsList_replicate _ _ (ih e)]
  | slice e => rfl
  | map k e => rfl
  | ptr e => rfl
  | struct n => exact hZ t
  | iface => rfl
  | handle h s => rfl
  | named n u ih => exact ih t

theorem zeroValue_addrs (Z : Ty → Value) (hZ : ∀ t, (Z t).addrs = []) (t : Ty) :
    (zeroValue Z t).addrs = [] := zeroAs_addrs Z hZ t t

theorem addrsFields_zero (Z : Ty → Value) (hZ : ∀ t, (Z t).addrs = [])
    (fs : List (StructField × Value)) :
    Value.addrsFields (fs.map (fun f => (f.1, zeroValue Z f.1.Typ))) = [] := by
  induction fs with
  | nil => rfl
  | cons x xs ih =>
    simp [Value.addrsFields, zeroValue_addrs Z hZ, ih]

mutual
theorem held_sub (Z : Ty → Value) (base : Heap) : ∀ (v : Value) (a : Addr), a ∈ v.held Z base → a ∈ v.addrs
  | .nil, a, h => by simp [Value.held] at h
  | .basic _ _ _, a, h => by simp [Value.held] at h
  | .handle _ _ _, a, h => by simp [Value.held] at h
  | .array _ es, a, h => by
    simp only [Value.held] at h
    simp only [Value.addrs]
    exact heldList_sub Z base es a h
  | .struct _ fs, a, h => by
    simp only [Value.held] at h
    simp only [Value.addrs]
    exact heldFields_sub Z base fs a h
  | .slice _ (some hdr), a, h => by simpa [Value.held, Value.addrs] using h
  | .slice _ none, a, h => by simp [Value.held] at h
  | .map _ (some r), a, h => by simpa [Value.held, Value.addrs] using h
  | .map _ none, a, h => by simp [Value.held] at h
  | .ptr t (some r), a, h => by
    simp only [Value.held] at h
    split at h
    · cases h
    · simpa [Value.addrs] using h
  | .ptr _ none, a, h => by simp [Value.held] at h
theorem heldList_sub (Z : Ty → Value) (base : Heap) :
    ∀ (vs : List Value) (a : Addr), a ∈ Value.heldList Z base vs → a ∈ Value.addrsList vs
  | [], a, h => by simp [Value.heldList] at h
  | x :: xs, a, h => by
    simp only [Value.heldList, List.mem_append] at h
    simp only [Value.addrsList, List.mem_append]
    rcases h with h | h
    · exact Or.inl (held_sub Z base x a h)
    · exact Or.inr (heldList_sub Z base xs a h)
theorem heldFields_sub (Z : Ty → Value) (base : Heap) :
    ∀ (fs : List (StructField × Value)) (a : Addr),
      a ∈ Value.heldFields Z base fs → a ∈ Value.addrsFields fs
  | [], a, h => by simp [Value.heldFields] at h
  | (_, x) :: xs, a, h => by
    simp only [Value.heldFields, List.mem_append] at h
    simp only [Value.addrsFields, List.mem_append]
    rcases h with h | h
    · exact Or.inl (held_sub Z base x a h)
    · exact Or.inr (heldFields_sub Z base xs a h)
end

theorem held_nil (Z : Ty → Value) (base : Heap) (v : Value) (h : v.addrs = []) : v.held Z base = [] := by
  rw [List.eq_nil_iff_forall_not_mem]
  intro a ha
  have := held_sub Z base v a ha
  rw [h] at this
  cases this

theorem heldList_nil (Z : Ty → Value) (base : Heap) (vs : List Value) (h : Value.addrsList vs = []) :
    Value.heldList Z base vs = [] := by
  rw [List.eq_nil_iff_forall_not_mem]
  intro a ha
  have := heldList_sub Z base vs a ha
  rw [h] at this
  cases this

theorem heldFields_nil (Z : Ty → Value) (base : Heap) (fs : List (StructField × Value))
    (h : Value.addrsFields fs = []) : Value.heldFields Z base fs = [] := by
  rw [List.eq_nil_iff_forall_not_mem]
  intro a ha
  have := heldFields_sub Z base fs a ha
  rw [h] at this
  cases this

mutual
theorem sizeless_addrs : ∀ (v : Value), v.sizeless = true → v.addrs = []
  | .nil, h => rfl
  | .basic _ _ _, h => rfl
  | .handle _ _ _, h => rfl
  | .array _ es, h => by
    simp only [Value.addrs]
    cases es with
    | nil => rfl
    | cons x xs =>
      simp only [Value.sizeless, List.isEmpty_cons, Bool.false_or, Bool.and_eq_true] at h
      exact sizelessList_addrs (x :: xs) h.2
  | .struct _ fs, h => by
    simp only [Value.sizeless] at h
    simp only [Value.addrs]
    exact sizelessFields_addrs fs h
  | .slice _ _, h => by simp [Value.sizeless] at h
  | .map _ _, h => by simp [Value.sizeless] at h
  | .ptr _ _, h => by simp [Value.sizeless] at h
theorem sizelessList_addrs :
    ∀ (vs : List Value), Value.sizelessList vs = true → Value.addrsList vs = []
  | [], _ => rfl
  | x :: xs, h => by
    simp only [Value.sizelessList, Bool.and_eq_true] at h
    simp only [Value.addrsList, sizeless_addrs x h.1, sizelessList_addrs xs h.2,
      List.append_nil]
theorem sizelessFields_addrs :
    ∀ (fs : List (StructField × Value)), Value.sizelessFields fs = true →
      Value.addrsFields fs = []
  | [], _ => rfl
  | (_, x) :: xs, h => by
    simp only [Value.sizelessFields, Bool.and_eq_true] at h
    simp only [Value.addrsFields, sizeless_addrs x h.1.2, sizelessFields_addrs xs h.2,
      List.append_nil]
end

/-- Replacing a cell allocated since by one that refers only to fresh cells keeps
the invariant. -/
theorem freshInv_set {Z : Ty → Value} {base : Heap} {st : State} (hI : FreshInv Z base st) (a : Addr)
    (c : Cell) (ha : base.length ≤ a)
    (hc : Within base.length st.heap.length (c.held Z base)) :
    FreshInv Z base { st with heap := st.heap.set a c } := by
  obtain ⟨h1, h2, h3, h4⟩ := hI
  refine ⟨by simpa using h1, ?_, ?_, ?_⟩
  · intro p hp
    simpa using h2 p hp
  · intro i c' hi hget
    simp only [List.length_set]
    simp only [List.get?_eq_getElem?] at hget h3
    by_cases hia : a = i
    · subst hia
      rw [List.getElem?_set_self'] at hget
      simp at hget
      obtain ⟨_, rfl⟩ := hget
      exact hc
    · rw [List.getElem?_set_ne hia] at hget
      exact h3 i c' hi hget
  · intro i hi
    have hne : a ≠ i := Nat.ne_of_gt (by omega)
    simp only [List.get?_eq_getElem?, List.getElem?_set_ne hne]
    simpa [List.get?_eq_getElem?] using h4 i hi

/-- Allocating a cell that refers only to fresh cells keeps the invariant. -/
theorem freshInv_alloc {Z : Ty → Value} {base : Heap} {st : State} (hI : FreshInv Z base st) (c : Cell)
    (ps : List (Addr × Value))
    (hc : Within base.length (st.heap.length + 1) (c.held Z base))
    (hps : ∀ p ∈ ps, Within base.length (st.heap.length + 1) (p.2.held Z base)) :
    FreshInv Z base { heap := st.heap ++ [c], ptrs := ps ++ st.ptrs } := by
  obtain ⟨h1, h2, h3, h4⟩ := hI
  refine ⟨by simp; omega, ?_, ?_, ?_⟩
  · intro p hp
    simp only [List.length_append, List.length_singleton]
    rcases List.mem_append.mp hp with h | h
    · exact hps p h
    · exact within_mono (h2 p h) (Nat.le_succ _)
  · intro i c' hi hget
    simp only [List.length_append, List.length_singleton]
    simp only [List.get?_eq_getElem?] at hget h3
    by_cases hlt : i < st.heap.length
    · rw [List.getElem?_append_left hlt] at hget
      exact within_mono (h3 i c' hi hget) (Nat.le_succ _)
    · rw [List.getElem?_append_right (by omega)] at hget
      by_cases h0 : i - st.heap.length = 0
      · rw [h0] at hget
        simp at hget
        subst hget
        exact hc
      · have : ([c] : List Cell)[i - st.heap.length]? = none := by
          apply List.getElem?_eq_none
          simp; omega
        rw [this] at hget
        cases hget
  · intro i hi
    have hlt : i < st.heap.length := by omega
    simp only [List.get?_eq_getElem?, List.getElem?_append_left hlt]
    simpa [List.get?_eq_getElem?] using h4 i hi

/-- Adding tracker entries that refer only to fresh cells keeps the invariant. -/
theorem freshInv_track {Z : Ty → Value} {base : Heap} {st : State} (hI : FreshInv Z base st) (p : Addr × Value)
    (hp : Within base.length st.heap.length (p.2.held Z base)) :
    FreshInv Z base { st with ptrs := p :: st.ptrs } := by
  obtain ⟨h1, h2, h3, h4⟩ := hI
  refine ⟨h1, ?_, h3, h4⟩
  intro q hq
  rcases List.mem_cons.mp hq with h | h
  · subst h; exact hp
  · exact h2 q h

theorem within_set {Z : Ty → Value} {base : Heap} {lo hi : Nat} {vs : List Value} (i : Nat) (x : Value)
    (hvs : Within lo hi (Value.heldList Z base vs)) (hx : Within lo hi (x.held Z base)) :
    Within lo hi (Value.heldList Z base (vs.set i x)) := by
  rw [addrsList_within] at hvs ⊢
  intro v hv
  rcases List.mem_or_eq_of_mem_set hv with h | h
  · exact hvs v h
  · subst h; exact hx

theorem within_setField {Z : Ty → Value} {base : Heap} {lo hi : Nat} {fs : List (StructField × Value)} (i : Nat)
    (f : StructField) (x : Value)
    (hfs : Within lo hi (Value.heldFields Z base fs)) (hx : Within lo hi (x.held Z base)) :
    Within lo hi (Value.heldFields Z base (fs.set i (f, x))) := by
  rw [addrsFields_within] at hfs ⊢
  intro p hp
  rcases List.mem_or_eq_of_mem_set hp with h | h
  · exact hfs p h
  · subst h; exact hx

theorem within_mapAssign {Z : Ty → Value} {base : Heap} {lo hi : Nat} (k v : Value) (es : List (Value × Value))
    (hes : Within lo hi (entryHeld Z base es)) (hk : Within lo hi (k.held Z base))
    (hv : Within lo hi (v.held Z base)) : Within lo hi (entryHeld Z base (mapAssign k v es)) := by
  induction es with
  | nil =>
    simp only [mapAssign, entryHeld, within_append]
    exact ⟨⟨hk, hv⟩, within_nil _ _⟩
  | cons e rest ih =>
    obtain ⟨k2, v2⟩ := e
    simp only [entryHeld, within_append] at hes
    unfold mapAssign
    split
    · simp only [entryHeld, within_append]
      exact ⟨⟨hes.1.1, hv⟩, hes.2⟩
    · simp only [entryHeld, within_append]
      exact ⟨hes.1, ih hes.2⟩

theorem within_mapDelete {Z : Ty → Value} {base : Heap} {lo hi : Nat} (k : Value) (es : List (Value × Value))
    (hes : Within lo hi (entryHeld Z base es)) : Within lo hi (entryHeld Z base (mapDelete k es)) := by
  rw [entryAddrs_within] at hes ⊢
  intro p hp
  exact hes p (List.mem_of_mem_filter hp)

theorem freshInv_setIndex {Z : Ty → Value} {base : Heap} {st : State} (hI : FreshInv Z base st) (a i : Nat)
    (v : Value) (ha : base.length ≤ a) (hv : Within base.length st.heap.length (v.held Z base)) :
    FreshInv Z base { st with heap := st.heap.setIndex a i v } := by
  unfold Heap.setIndex
  split
  · rename_i t vs hget
    exact freshInv_set hI a _ ha (within_set i v (hI.2.2.1 a _ ha hget) hv)
  · exact hI

theorem freshInv_setVar {Z : Ty → Value} {base : Heap} {st : State} (hI : FreshInv Z base st) (a : Nat)
    (v : Value) (ha : base.length ≤ a) (hv : Within base.length st.heap.length (v.held Z base)) :
    FreshInv Z base { st with heap := st.heap.setVar a v } := by
  unfold Heap.setVar
  split
  · exact freshInv_set hI a _ ha hv
  · exact hI

theorem freshInv_setElem {Z : Ty → Value} {base : Heap} {st : State} (hI : FreshInv Z base st) (a i : Nat)
    (v : Value) (ha : base.length ≤ a) (hv : Within base.length st.heap.length (v.held Z base)) :
    FreshInv Z base { st with heap := st.heap.setElem a i v } := by
  unfold Heap.setElem
  split
  · rename_i t at_ vs hget
    exact freshInv_set hI a _ ha (within_set i v (hI.2.2.1 a _ ha hget) hv)
  · exact hI

theorem freshInv_setField {Z : Ty → Value} {base : Heap} {st : State} (hI : FreshInv Z base st) (a i : Nat)
    (v : Value) (ha : base.length ≤ a) (hv : Within base.length st.heap.length (v.held Z base)) :
    FreshInv Z base { st with heap := st.heap.setField a i v } := by
  unfold Heap.setField
  split
  · rename_i t s fs hget
    split
    · exact freshInv_set hI a _ ha (within_setField i _ v (hI.2.2.1 a _ ha hget) hv)
    · exact hI
  · exact hI

theorem freshInv_mapSet {Z : Ty → Value} {base : Heap} {st : State} (hI : FreshInv Z base st) (a : Nat)
    (k v : Value) (ha : base.length ≤ a) (hk : Within base.length st.heap.length (k.held Z base))
    (hv : Within base.length st.heap.length (v.held Z base)) :
    FreshInv Z base { st with heap := st.heap.mapSet a k v } := by
  unfold Heap.mapSet
  split
  · rename_i es hget
    exact freshInv_set hI a _ ha (within_mapAssign k v es (hI.2.2.1 a _ ha hget) hk hv)
  · exact hI

theorem freshInv_mapDel {Z : Ty → Value} {base : Heap} {st : State} (hI : FreshInv Z base st) (a : Nat)
    (k : Value) (ha : base.length ≤ a) :
    FreshInv Z base { st with heap := st.heap.mapDel a k } := by
  unfold Heap.mapDel
  split
  · rename_i es hget
    exact freshInv_set hI a _ ha (within_mapDelete k es (hI.2.2.1 a _ ha hget))
  · exact hI

theorem freshInv_load {Z : Ty → Value} {base : Heap} {st : State} (hI : FreshInv Z base st) (a : Nat)
    (ha : base.length ≤ a) : Within base.length st.heap.length ((st.heap.load a).held Z base) := by
  unfold Heap.load
  split
  · rename_i t v hget
    exact hI.2.2.1 a _ ha hget
  · exact within_nil _ _

theorem sliceLoop_fresh {Z : Ty → Value} {base : Heap} (self : Dispatch) (hs : FreshD Z base self)
    (hdr : SliceHdr) (dc : Addr) (t : Ty) (hdc : base.length ≤ dc) :
    ∀ (n i : Nat) (st st' : State), FreshInv Z base st →
      sliceLoop self [] hdr dc t n i st = .ok st' → FreshInv Z base st' := by
  intro n
  induction n with
  | zero =>
    intro i st st' hI h
    unfold sliceLoop at h
    cases h
    exact hI
  | succ n ih =>
    intro i st st' hI h
    unfold sliceLoop at h
    split at h
    · cases h
    · rename_i xi _
      split at h
      · cases h
      · rename_i item st1 heq
        obtain ⟨hI1, hv⟩ := hs xi st item st1 hI heq
        split at h
        · split at h
          · exact ih _ _ _ (freshInv_setIndex hI1 dc i item hdc hv) h
          · cases h
        · exact ih _ _ _ hI1 h
      · cases h

theorem arrayLoop_fresh {Z : Ty → Value} {base : Heap} (self : Dispatch) (hs : FreshD Z base self)
    (elems : List Value) (t : Ty) (dc : Addr) (hdc : base.length ≤ dc) :
    ∀ (n i : Nat) (st st' : State), FreshInv Z base st →
      arrayLoop self [] elems t dc n i st = .ok st' → FreshInv Z base st' := by
  intro n
  induction n with
  | zero =>
    intro i st st' hI h
    unfold arrayLoop at h
    cases h
    exact hI
  | succ n ih =>
    intro i st st' hI h
    unfold arrayLoop at h
    split at h
    · cases h
    · rename_i xi _
      split at h
      · cases h
      · rename_i item st1 heq
        obtain ⟨hI1, hv⟩ := hs xi st item st1 hI heq
        split at h
        · cases h
        · split at h
          · cases h
          · exact ih _ _ _ (freshInv_setElem hI1 dc i item hdc hv) h
      · cases h

theorem structLoop_fresh {Z : Ty → Value} {base : Heap} (self : Dispatch) (hs : FreshD Z base self)
    (x : Value) (t : Ty) (dc : Addr) (hdc : base.length ≤ dc) :
    ∀ (fs : List (StructField × Value)) (i : Nat) (st st' : State), FreshInv Z base st →
      structLoop self [] x t dc fs i st = .ok st' → FreshInv Z base st' := by
  intro fs
  induction fs with
  | nil =>
    intro i st st' hI h
    unfold structLoop at h
    cases h
    exact hI
  | cons fd rest ih =>
    intro i st st' hI h
    obtain ⟨f, fv⟩ := fd
    unfold structLoop at h
    split at h
    · cases h
    · split at h
      · cases h
      · rename_i item st1 heq
        obtain ⟨hI1, hv⟩ := hs fv st item st1 hI heq
        split at h
        · cases h
        · split at h
          · cases h
          · exact ih _ _ _ (freshInv_setField hI1 dc i item hdc hv) h
      · cases h

theorem mapLoop_fresh {Z : Ty → Value} {base : Heap} (self : Dispatch) (hs : FreshD Z base self)
    (hf : Framed self) (dc : Addr) (t : Ty) (hdc : base.length ≤ dc) :
    ∀ (es : List (Value × Value)) (st st' : State), FreshInv Z base st →
      mapLoop self [] dc t es st = .ok st' → FreshInv Z base st' := by
  intro es
  induction es with
  | nil =>
    intro st st' hI h
    unfold mapLoop at h
    cases h
    exact hI
  | cons kv rest ih =>
    intro st st' hI h
    obtain ⟨key, val⟩ := kv
    unfold mapLoop at h
    split at h
    · cases h
    · rename_i item st1 heq
      obtain ⟨hI1, hv⟩ := hs val st item st1 hI heq
      split at h
      · cases h
      · rename_i k st2 heq2
        obtain ⟨hI2, hk⟩ := hs key st1 k st2 hI1 heq2
        have hlen : st1.heap.length ≤ st2.heap.length := by
          have := hf key st1 []
          rw [heq2] at this
          exact this.2.1
        split at h
        · cases h
        · split at h
          · cases h
          · split at h
            · exact ih _ _ (freshInv_mapDel hI2 dc k hdc) h
            · split at h
              · cases h
              · exact ih _ _
                  (freshInv_mapSet hI2 dc k item hdc hk (within_mono hv hlen)) h
      · cases h
    · cases h

/-! A `return` from inside a loop always carries an error. -/

theorem sliceLoop_error (self : Dispatch) (tm : TypeMap) (hdr : SliceHdr) (dc : Addr)
    (t : Ty) : ∀ (n i : Nat) (st : State) (v : Value) (st' : State),
      sliceLoop self tm hdr dc t n i st ≠ .error (.ret v none st') := by
  intro n
  induction n with
  | zero => intro i st v st' h; unfold sliceLoop at h; cases h
  | succ n ih =>
    intro i st v st' h
    unfold sliceLoop at h
    split at h
    · cases h
    · split at h
      · cases h
      · split at h
        · split at h
          · exact ih _ _ _ _ h
          · cases h
        · exact ih _ _ _ _ h
      · rename_i o h1 h2
        injection h with h
        exact h2 _ _ h

theorem arrayLoop_error (self : Dispatch) (tm : TypeMap) (elems : List Value) (t : Ty)
    (dc : Addr) : ∀ (n i : Nat) (st : State) (v : Value) (st' : State),
      arrayLoop self tm elems t dc n i st ≠ .error (.ret v none st') := by
  intro n
  induction n with
  | zero => intro i st v st' h; unfold arrayLoop at h; cases h
  | succ n ih =>
    intro i st v st' h
    unfold arrayLoop at h
    split at h
    · cases h
    · split at h
      · cases h
      · split at h
        · cases h
        · split at h
          · cases h
          · exact ih _ _ _ _ h
      · rename_i o h1 h2
        injection h with h
        exact h2 _ _ h

theorem structLoop_error (self : Dispatch) (tm : TypeMap) (x : Value) (t : Ty)
    (dc : Addr) : ∀ (fs : List (StructField × Value)) (i : Nat) (st : State) (v : Value)
      (st' : State), structLoop self tm x t dc fs i st ≠ .error (.ret v none st') := by
  intro fs
  induction fs with
  | nil => intro i st v st' h; unfold structLoop at h; cases h
  | cons fd rest ih =>
    intro i st v st' h
    obtain ⟨f, fv⟩ := fd
    unfold structLoop at h
    split at h
    · cases h
    · split at h
      · cases h
      · split at h
        · cases h
        · split at h
          · cases h
          · exact ih _ _ _ _ h
      · rename_i o h1 h2
        injection h with h
        exact h2 _ _ h

theorem mapLoop_error (self : Dispatch) (tm : TypeMap) (dc : Addr) (t : Ty) :
    ∀ (es : List (Value × Value)) (st : State) (v : Value) (st' : State),
      mapLoop self tm dc t es st ≠ .error (.ret v none st') := by
  intro es
  induction es with
  | nil => intro st v st' h; unfold mapLoop at h; cases h
  | cons kv rest ih =>
    intro st v st' h
    obtain ⟨key, val⟩ := kv
    unfold mapLoop at h
    split at h
    · cases h
    · split at h
      · cases h
      · split at h
        · cases h
        · split at h
          · cases h
          · split at h
            · exact ih _ _ _ h
            · split at h
              · cases h
              · exact ih _ _ _ h
      · rename_i o h1 h2
        injection h with h
        exact h2 _ _ h
    · rename_i o h1 h2
      injection h with h
      exact h2 _ _ h

theorem within_single {lo hi a : Nat} (h1 : lo ≤ a) (h2 : a < hi) : Within lo hi [a] := by
  intro b hb
  simp at hb
  subst hb
  exact ⟨h1, h2⟩

theorem slice_fresh {base : Heap} (Z : Ty → Value) (hZ : ∀ t, (Z t).addrs = [])
    (self : Dispatch) (hs : FreshD Z base self) (hf : Framed self)
    (x : Value) (st : State) (v : Value) (st' : State) (hI : FreshInv Z base st)
    (h : _slice Z self x st [] = .ret v none st') :
    FreshInv Z base st' ∧ Within base.length st'.heap.length (v.held Z base) := by
  unfold _slice at h
  split at h
  · cases h
    exact ⟨hI, within_nil _ _⟩
  · rename_i t hdr
    dsimp only at h
    have hI0 : FreshInv Z base
        { st with heap := st.heap ++
            [.arr t.elem (List.replicate hdr.len (zeroValue Z t.elem))] } := by
      have := freshInv_alloc hI
        (.arr t.elem (List.replicate hdr.len (zeroValue Z t.elem))) []
        (by simp [Cell.held, heldList_nil Z base _ (addrsList_replicate _ _ (zeroValue_addrs Z hZ _)), within_nil])
        (by intro p hp; cases hp)
      simpa using this
    have hk := sliceLoop_keeps self hf [] hdr st.heap.length t st.heap.length (le_refl _)
      hdr.len 0 { st with heap := st.heap ++
            [.arr t.elem (List.replicate hdr.len (zeroValue Z t.elem))] } (by simp)
    split at h
    · rename_i o heq
      subst h
      exact absurd heq (sliceLoop_error _ _ _ _ _ _ _ _ _ _)
    · rename_i st1 heq
      cases h
      rw [heq] at hk
      have hlen := hk.2.1
      simp at hlen
      refine ⟨sliceLoop_fresh self hs hdr _ t hI.1 _ _ _ _ hI0 heq, ?_⟩
      exact @within_single _ _ st.heap.length hI.1 (by omega)
  · cases h

theorem array_fresh {base : Heap} (Z : Ty → Value) (hZ : ∀ t, (Z t).addrs = [])
    (self : Dispatch) (hs : FreshD Z base self)
    (x : Value) (st : State) (v : Value) (st' : State) (hI : FreshInv Z base st)
    (h : _array Z self x st [] = .ret v none st') :
    FreshInv Z base st' ∧ Within base.length st'.heap.length (v.held Z base) := by
  unfold _array at h
  split at h
  · rename_i t elems
    dsimp only at h
    have hI0 : FreshInv Z base
        { st with heap := st.heap ++ [.var (.array t.len t.elem)
          (.array (.array t.len t.elem) (List.replicate t.len (zeroValue Z t.elem)))] } := by
      have := freshInv_alloc hI (.var (.array t.len t.elem)
          (.array (.array t.len t.elem) (List.replicate t.len (zeroValue Z t.elem)))) []
        (by simp [Cell.held, Value.held,
              heldList_nil Z base _ (addrsList_replicate _ _ (zeroValue_addrs Z hZ _)),
              within_nil])
        (by intro p hp; cases hp)
      simpa using this
    split at h
    · rename_i o heq
      subst h
      exact absurd heq (arrayLoop_error _ _ _ _ _ _ _ _ _ _)
    · rename_i st1 heq
      cases h
      have hI1 := arrayLoop_fresh self hs elems t _ hI.1 _ _ _ _ hI0 heq
      exact ⟨hI1, freshInv_load hI1 _ hI.1⟩
  · cases h

theorem struct_fresh {base : Heap} (Z : Ty → Value) (hZ : ∀ t, (Z t).addrs = [])
    (self : Dispatch) (hs : FreshD Z base self)
    (x : Value) (st : State) (v : Value) (st' : State) (hI : FreshInv Z base st)
    (h : _struct Z self x st [] = .ret v none st') :
    FreshInv Z base st' ∧ Within base.length st'.heap.length (v.held Z base) := by
  unfold _struct at h
  split at h
  · rename_i t fields
    dsimp only at h
    have hI0 : FreshInv Z base
        { st with heap := st.heap ++
          [.var t (.struct t (fields.map (fun f => (f.1, zeroValue Z f.1.Typ))))] } := by
      have := freshInv_alloc hI
        (.var t (.struct t (fields.map (fun f => (f.1, zeroValue Z f.1.Typ))))) []
        (by simp [Cell.held, Value.held, heldFields_nil Z base _ (addrsFields_zero Z hZ _), within_nil])
        (by intro p hp; cases hp)
      simpa using this
    split at h
    · rename_i o heq
      subst h
      exact absurd heq (structLoop_error _ _ _ _ _ _ _ _ _ _)
    · rename_i st1 heq
      cases h
      have hI1 := structLoop_fresh self hs _ t _ hI.1 _ _ _ _ hI0 heq
      exact ⟨hI1, freshInv_load hI1 _ hI.1⟩
  · cases h

theorem map_fresh {Z : Ty → Value} {base : Heap} (self : Dispatch) (hs : FreshD Z base self) (hf : Framed self)
    (x : Value) (st : State) (v : Value) (st' : State) (hI : FreshInv Z base st)
    (h : _map self x st [] = .ret v none st') :
    FreshInv Z base st' ∧ Within base.length st'.heap.length (v.held Z base) := by
  unfold _map at h
  split at h
  · cases h
    exact ⟨hI, within_nil _ _⟩
  · rename_i t a
    split at h
    · cases h
    · rename_i es _
      dsimp only at h
      have hI0 : FreshInv Z base { st with heap := st.heap ++ [.map []] } := by
        have := freshInv_alloc hI (.map []) []
          (by simp [Cell.held, entryHeld, within_nil])
          (by intro p hp; cases hp)
        simpa using this
      have hk := mapLoop_keeps self hf [] st.heap.length t st.heap.length (le_refl _)
        es { st with heap := st.heap ++ [.map []] } (by simp)
      split at h
      · rename_i o heq
        subst h
        exact absurd heq (mapLoop_error _ _ _ _ _ _ _ _)
      · rename_i st1 heq
        cases h
        rw [heq] at hk
        have hlen := hk.2.1
        simp at hlen
        refine ⟨mapLoop_fresh self hs hf _ t hI.1 _ _ _ hI0 heq, ?_⟩
        exact @within_single _ _ st.heap.length hI.1 (by omega)
  · cases h

theorem tracked_mem {st : State} {addr : Addr} {dc : Value}
    (h : st.tracked addr = some dc) : ∃ p ∈ st.ptrs, p.2 = dc := by
  unfold State.tracked at h
  cases hf : st.ptrs.find? (fun e => e.1 == addr) with
  | none => rw [hf] at h; cases h
  | some p =>
    rw [hf] at h
    simp at h
    exact ⟨p, List.mem_of_find?_eq_some hf, h⟩

theorem sizelessAt_lt {h : Heap} {Z : Ty → Value} {a : Addr} {t : Ty} {w : Value}
    (hs : h.sizelessAt Z a t = some w) : a < h.length := by
  unfold Heap.sizelessAt at hs
  split at hs
  · cases hs
  · cases hg : h.get? a with
    | none => rw [hg] at hs; cases hs
    | some c =>
      rw [List.get?_eq_getElem?] at hg
      exact (List.getElem?_eq_some.mp hg).1

theorem sizelessAt_congr {h h2 : Heap} {a : Addr} (Z : Ty → Value) (t : Ty)
    (hg : h2.get? a = h.get? a) : h2.sizelessAt Z a t = h.sizelessAt Z a t := by
  unfold Heap.sizelessAt
  rw [hg]

/-- The pointee of a pointer to a zero-size variable occupies no memory; it is
what the memory holds there under the type of the pointer, if anything. -/
theorem sizelessAt_some {h : Heap} {Z : Ty → Value} {a : Addr} {t : Ty} {w : Value}
    (hs : h.sizelessAt Z a t = some w) :
    w.sizeless = true ∧ (h.deref a t = some w ∨ h.deref a t = none) := by
  unfold Heap.sizelessAt at hs
  split at hs
  · cases hs
  · unfold Heap.deref
    split at hs
    · rename_i ty v hget
      split at hs
      · rename_i w2 hl
        split at hs
        · rename_i hc
          cases hs
          exact ⟨hc, Or.inl hl⟩
        · cases hs
      · rename_i hl
        split at hs
        · rename_i hc
          cases hs
          simp only [Bool.and_eq_true] at hc
          exact ⟨hc.2, Or.inr hl⟩
        · cases hs
    · cases hs

/-- The pointer that the pointer strategy returns for a pointer to a zero-size
variable holds no address to account for: the variable is one of the memory the
call started in, or it was allocated since. -/
theorem within_sizeless {Z : Ty → Value} {base : Heap} {st : State} (hI : FreshInv Z base st) {addr : Addr}
    {t : Ty} {w : Value} (hs : st.heap.sizelessAt Z addr t.elem = some w) :
    Within base.length st.heap.length ((Value.ptr (.ptr t.elem) (some addr)).held Z base) := by
  simp only [Value.held, Ty.elem]
  split
  · exact within_nil _ _
  · rename_i hex
    refine within_single ?_ (sizelessAt_lt hs)
    by_contra hlt
    have hlt2 : addr < base.length := Nat.lt_of_not_le hlt
    have := sizelessAt_congr Z t.elem (hI.2.2.2 addr hlt2)
    rw [hs] at this
    rw [← this] at hex
    exact hex rfl

theorem pointer_fresh {base : Heap} (Z : Ty → Value) (hZ : ∀ t, (Z t).addrs = [])
    (self : Dispatch) (hs : FreshD Z base self) (hf : Framed self)
    (x : Value) (st : State) (v : Value) (st' : State) (hI : FreshInv Z base st)
    (h : _pointer Z self x st [] = .ret v none st') :
    FreshInv Z base st' ∧ Within base.length st'.heap.length (v.held Z base) := by
  unfold _pointer at h
  split at h
  · rename_i t
    cases h
    refine ⟨hI, ?_⟩
    rw [held_nil Z base _ (zeroValue_addrs Z hZ _)]
    exact within_nil _ _
  · rename_i t addr
    split at h
    · rename_i dc htr
      cases h
      obtain ⟨p, hp, rfl⟩ := tracked_mem htr
      exact ⟨hI, hI.2.1 p hp⟩
    · split at h
      · rename_i pointee hsz
        dsimp only at h
        have hdc := within_sizeless hI hsz
        have hI0 : FreshInv Z base
            { st with ptrs := (addr, Value.ptr (.ptr t.elem) (some addr)) :: st.ptrs } :=
          freshInv_track hI (addr, Value.ptr (.ptr t.elem) (some addr)) hdc
        have hk := hf pointee
          { st with ptrs := (addr, Value.ptr (.ptr t.elem) (some addr)) :: st.ptrs } []
        split at h
        · cases h
        · rename_i item st1 heq
          rw [heq] at hk
          have hlen : st.heap.length ≤ st1.heap.length := hk.2.1
          obtain ⟨hI1, hv⟩ := hs pointee _ item st1 hI0 heq
          split at h
          · split at h
            · cases h
              exact ⟨hI1, within_mono hdc hlen⟩
            · cases h
          · cases h
            exact ⟨hI1, within_mono hdc hlen⟩
        · rename_i o h1 h2
          exact absurd h (h2 _ _)
      · dsimp only at h
        have hI0 : FreshInv Z base
            { heap := st.heap ++ [.var t.elem (zeroValue Z t.elem)],
              ptrs := (addr, Value.ptr (.ptr t.elem) (some st.heap.length)) :: st.ptrs } := by
          have := freshInv_alloc hI (.var t.elem (zeroValue Z t.elem))
            [(addr, Value.ptr (.ptr t.elem) (some st.heap.length))]
            (by simp [Cell.held, held_nil Z base _ (zeroValue_addrs Z hZ _), within_nil])
            (by
              intro p hp
              simp at hp
              subst hp
              simp only [Value.held]
              split
              · exact within_nil _ _
              · exact within_single hI.1 (by omega))
          simpa using this
        have hfresh : ∀ hi, st.heap.length < hi → Within base.length hi
            ((Value.ptr (.ptr t.elem) (some st.heap.length)).held Z base) := by
          intro hi hhi
          simp only [Value.held]
          split
          · exact within_nil _ _
          · exact within_single hI.1 hhi
        split at h
        · cases h
        · rename_i pointee _
          have hk := hf pointee
            { heap := st.heap ++ [.var t.elem (zeroValue Z t.elem)],
              ptrs := (addr, Value.ptr (.ptr t.elem) (some st.heap.length)) :: st.ptrs } []
          split at h
          · cases h
          · rename_i item st1 heq
            rw [heq] at hk
            have hlen := hk.2.1
            simp at hlen
            obtain ⟨hI1, hv⟩ := hs pointee _ item st1 hI0 heq
            split at h
            · split at h
              · cases h
                refine ⟨freshInv_setVar hI1 _ item hI.1 hv, ?_⟩
                simp only [setVar_length]
                exact hfresh _ (by omega)
              · cases h
            · cases h
              exact ⟨hI1, hfresh _ (by omega)⟩
          · rename_i o h1 h2
            exact absurd h (h2 _ _)
  · cases h

theorem primitive_fresh {Z : Ty → Value} {base : Heap} (b : Basic) (t : Ty) (d : String) (st : State)
    (v : Value) (st' : State) (hI : FreshInv Z base st)
    (h : _primitive (.basic b t d) st [] = .ret v none st') :
    FreshInv Z base st' ∧ Within base.length st'.heap.length (v.held Z base) := by
  unfold _primitive at h
  dsimp only at h
  split at h
  · cases h
  · cases h
    exact ⟨hI, within_nil _ _⟩

/-- Without overrides, every call of the dispatcher keeps the freshness
invariant and returns a value that refers only to cells allocated since. -/
theorem anything_fresh (Z : Ty → Value) (hZ : ∀ t, (Z t).addrs = []) (base : Heap) :
    ∀ fuel, FreshD Z base (_anything Z fuel) := by
  intro fuel
  induction fuel with
  | zero => intro x st v st' _ h; cases h
  | succ n ih =>
    intro x st v st' hI h
    have hf := anything_framed Z n
    cases x with
    | nil =>
      rw [anything_nil Z n st [] rfl] at h
      cases h
      exact ⟨hI, within_nil _ _⟩
    | basic b t d =>
      rw [anything_basic Z n b t d st [] rfl] at h
      cases h
      exact ⟨hI, within_nil _ _⟩
    | handle hd t id =>
      rw [anything_handle Z n hd t id st [] rfl] at h
      cases h
    | array t es =>
      rw [anything_array Z n t es st [] rfl] at h
      exact array_fresh Z hZ _ ih _ _ _ _ hI h
    | struct t fs =>
      rw [anything_struct Z n t fs st [] rfl] at h
      exact struct_fresh Z hZ _ ih _ _ _ _ hI h
    | slice t hdr =>
      rw [anything_slice Z n t hdr st [] rfl] at h
      exact slice_fresh Z hZ _ ih hf _ _ _ _ hI h
    | map t r =>
      rw [anything_map Z n t r st [] rfl] at h
      exact map_fresh _ ih hf _ _ _ _ hI h
    | ptr t a =>
      rw [anything_ptr Z n t a st [] rfl] at h
      exact pointer_fresh Z hZ _ ih hf _ _ _ _ hI h

theorem mem_of_get? {α : Type} {l : List α} {i : Nat} {x : α} (h : l.get? i = some x) :
    x ∈ l := by
  exact List.get?_mem h

/-- Under the invariant, whatever is reached from a value that refers only to
fresh cells refers only to fresh cells. -/
theorem reach_within {Z : Ty → Value} {base : Heap} {st : State} (hI : FreshInv Z base st) {v w : Value}
    (hv : Within base.length st.heap.length (v.held Z base)) (hr : Reach st.heap v w) :
    Within base.length st.heap.length (w.held Z base) := by
  induction hr with
  | here => exact hv
  | field _ hmem ih =>
    have := ih
    simp only [Value.held] at this
    exact (addrsFields_within.mp this) _ hmem
  | elem _ hmem ih =>
    have := ih
    simp only [Value.held] at this
    exact (addrsList_within.mp this) _ hmem
  | @index t hdr i w _ hidx ih =>
    have ha := (ih hdr.arr (by simp [Value.held])).1
    unfold Heap.index at hidx
    split at hidx
    · rename_i et vs hget
      have hc := hI.2.2.1 _ _ ha hget
      exact (addrsList_within.mp hc) _ (mem_of_get? hidx)
    · cases hidx
  | @key t a es k w _ hent hmem ih =>
    have ha := (ih a (by simp [Value.held])).1
    unfold Heap.entries at hent
    split at hent
    · rename_i es' hget
      cases hent
      have hc := hI.2.2.1 _ _ ha hget
      exact ((entryAddrs_within.mp hc) _ hmem).1
    · cases hent
  | @val t a es k w _ hent hmem ih =>
    have ha := (ih a (by simp [Value.held])).1
    unfold Heap.entries at hent
    split at hent
    · rename_i es' hget
      cases hent
      have hc := hI.2.2.1 _ _ ha hget
      exact ((entryAddrs_within.mp hc) _ hmem).2
    · cases hent
  | @deref t a w _ hd ih =>
    cases hex : base.sizelessAt Z a t.elem with
    | some z =>
      have hlt := sizelessAt_lt hex
      have hc := sizelessAt_congr Z t.elem (hI.2.2.2 a hlt)
      rw [hex] at hc
      obtain ⟨hz, hd2⟩ := sizelessAt_some hc
      rw [hd] at hd2
      rcases hd2 with hd2 | hd2
      · cases hd2
        rw [held_nil Z base _ (sizeless_addrs _ hz)]
        exact within_nil _ _
      · cases hd2
    | none =>
      have ha := (ih a (by simp [Value.held, hex])).1
      unfold Heap.deref at hd
      split at hd
      · rename_i ty v0 hget
        have hc := hI.2.2.1 _ _ ha hget
        exact leading_within _ _ _ _ hd hc
      · cases hd

theorem freshInv_init (Z : Ty → Value) (heap : Heap) :
    FreshInv Z heap { heap := heap, ptrs := [] } := by
  refine ⟨le_refl _, ?_, ?_, fun _ _ => rfl⟩
  · intro p hp; cases hp
  · intro i c hi hget
    rw [List.get?_eq_getElem?] at hget
    have : heap[i]? = none := List.getElem?_eq_none hi
    rw [this] at hget
    cases hget

/-! ## Splitting a loop after its first iterations -/

theorem sliceLoop_split (self : Dispatch) (tm : TypeMap) (hdr : SliceHdr) (dc : Addr)
    (t : Ty) (m : Nat) : ∀ (i j : Nat) (st : State),
      sliceLoop self tm hdr dc t (i + m) j st =
        match sliceLoop self tm hdr dc t i j st with
        | .ok st' => sliceLoop self tm hdr dc t m (j + i) st'
        | .error o => .error o := by
  intro i
  induction i with
  | zero => intro j st; simp [sliceLoop]
  | succ i ih =>
    intro j st
    rw [Nat.succ_add]
    simp only [sliceLoop]
    split
    · rfl
    · split
      · rfl
      · split
        · split
          · rw [ih, Nat.add_right_comm, Nat.add_assoc]
          · rfl
        · rw [ih, Nat.add_right_comm, Nat.add_assoc]
      · rfl

theorem arrayLoop_split (self : Dispatch) (tm : TypeMap) (elems : List Value) (t : Ty)
    (dc : Addr) (m : Nat) : ∀ (i j : Nat) (st : State),
      arrayLoop self tm elems t dc (i + m) j st =
        match arrayLoop self tm elems t dc i j st with
        | .ok st' => arrayLoop self tm elems t dc m (j + i) st'
        | .error o => .error o := by
  intro i
  induction i with
  | zero => intro j st; simp [arrayLoop]
  | succ i ih =>
    intro j st
    rw [Nat.succ_add]
    simp only [arrayLoop]
    split
    · rfl
    · split
      · rfl
      · split
        · rfl
        · split
          · rfl
          · rw [ih, Nat.add_right_comm, Nat.add_assoc]
      · rfl

theorem structLoop_split (self : Dispatch) (tm : TypeMap) (x : Value) (t : Ty)
    (dc : Addr) (post : List (StructField × Value)) :
    ∀ (pre : List (StructField × Value)) (i : Nat) (st : State),
      structLoop self tm x t dc (pre ++ post) i st =
        match structLoop self tm x t dc pre i st with
        | .ok st' => structLoop self tm x t dc post (i + pre.length) st'
        | .error o => .error o := by
  intro pre
  induction pre with
  | nil => intro i st; simp [structLoop]
  | cons fd rest ih =>
    intro i st
    obtain ⟨f, fv⟩ := fd
    rw [List.cons_append]
    simp only [structLoop]
    split
    · rfl
    · split
      · rfl
      · split
        · rfl
        · split
          · rfl
          · rw [ih, List.length_cons, Nat.add_right_comm, Nat.add_assoc]
      · rfl

theorem mapLoop_split (self : Dispatch) (tm : TypeMap) (dc : Addr) (t : Ty)
    (post : List (Value × Value)) : ∀ (pre : List (Value × Value)) (st : State),
      mapLoop self tm dc t (pre ++ post) st =
        match mapLoop self tm dc t pre st with
        | .ok st' => mapLoop self tm dc t post st'
        | .error o => .error o := by
  intro pre
  induction pre with
  | nil => intro st; simp [mapLoop]
  | cons kv rest ih =>
    intro st
    obtain ⟨key, val⟩ := kv
    rw [List.cons_append]
    simp only [mapLoop]
    split
    · rfl
    · split
      · rfl
      · split
        · rfl
        · split
          · rfl
          · split
            · rw [ih]
            · split
              · rfl
              · rw [ih]
      · rfl
    · rfl

theorem extends_append (h : Heap) (c : Cell) : Extends h (h ++ [c]) := by
  intro a ha
  simp only [List.get?_eq_getElem?]
  exact List.getElem?_append_left ha

theorem deref_congr {h h2 : Heap} {a : Addr} (t : Ty) (hg : h2.get? a = h.get? a) :
    h2.deref a t = h.deref a t := by
  unfold Heap.deref
  rw [hg]

theorem deref_append {h : Heap} {a : Addr} {t : Ty} {x : Value} (c : Cell)
    (hd : h.deref a t = some x) : (h ++ [c]).deref a t = some x := by
  have hlt : a < h.length := by
    unfold Heap.deref at hd
    split at hd
    · rename_i hget
      rw [List.get?_eq_getElem?] at hget
      exact (List.getElem?_eq_some.mp hget).1
    · cases hd
  unfold Heap.deref at hd ⊢
  rw [extends_append h c a hlt]
  exact hd

theorem sizelessList_mem : ∀ (vs : List Value) (x : Value),
    Value.sizelessList vs = true → x ∈ vs → x.sizeless = true
  | [], _, _, hx => by cases hx
  | y :: ys, x, h, hx => by
    simp only [Value.sizelessList, Bool.and_eq_true] at h
    rcases List.mem_cons.mp hx with rfl | hx
    · exact h.1
    · exact sizelessList_mem ys x h.2 hx

theorem sizelessFields_mem : ∀ (fs : List (StructField × Value)) (p : StructField × Value),
    Value.sizelessFields fs = true → p ∈ fs → p.2.sizeless = true
  | [], _, _, hp => by cases hp
  | (f, y) :: ys, p, h, hp => by
    simp only [Value.sizelessFields, Bool.and_eq_true] at h
    rcases List.mem_cons.mp hp with rfl | hp
    · exact h.1.2
    · exact sizelessFields_mem ys p h.2 hp

/-- A value that occupies no memory holds nothing the traversal could reach. -/
theorem sizeless_not_hits (Z : Ty → Value) (fuel : Nat) (x : Value) (st : State)
    (h : Hits Z fuel x st) : x.sizeless = false := by
  induction h with
  | here n hd t id st => rfl
  | slice n t hdr i xi st sti hi hloop hidx _ ih => rfl
  | array n t elems i xi st sti hi hloop hidx _ ih =>
    cases hs : (Value.array t elems).sizeless with
    | false => rfl
    | true =>
      have hmem : xi ∈ elems := List.get?_mem hidx
      cases elems with
      | nil => cases hmem
      | cons y ys =>
        simp only [Value.sizeless, List.isEmpty_cons, Bool.false_or, Bool.and_eq_true] at hs
        rw [sizelessList_mem _ _ hs.2 hmem] at ih
        cases ih
  | mapValue n t a pre post key val st sti hent hloop _ ih => rfl
  | mapKey n t a pre post key val item st sti st1 hent hloop hval _ ih => rfl
  | field n t pre post f fv st sti hloop hexp _ ih =>
    cases hs : (Value.struct t (pre ++ (f, fv) :: post)).sizeless with
    | false => rfl
    | true =>
      simp only [Value.sizeless] at hs
      have := sizelessFields_mem _ (f, fv) hs (by simp)
      simp only at this
      rw [this] at ih
      cases ih
  | pointee n t addr w st htr hd _ ih => rfl

/-- When the traversal reaches a value of an unsupported kind, the dispatcher
returns a nil result and an error. -/
theorem hits_fails (Z : Ty → Value) (fuel : Nat) (x : Value) (st : State)
    (h : Hits Z fuel x st) :
    ∃ e st', _anything Z fuel x st [] = .ret .nil (some e) st' := by
  induction h with
  | here n hd t id st =>
    exact ⟨_, _, anything_handle Z n hd t id st [] rfl⟩
  | slice n t hdr i xi st sti hi hloop hidx _ ih =>
    obtain ⟨e, st', he⟩ := ih
    obtain ⟨k, hk⟩ : ∃ k, hdr.len = i + (k + 1) := ⟨hdr.len - i - 1, by omega⟩
    refine ⟨.sliceItem i e, st', ?_⟩
    rw [anything_slice Z n t (some hdr) st [] rfl]
    simp only [_slice]
    rw [hk, sliceLoop_split, ← hk, hloop]
    simp only [sliceLoop, Nat.zero_add, hidx, he]
  | array n t elems i xi st sti hi hloop hidx _ ih =>
    obtain ⟨e, st', he⟩ := ih
    obtain ⟨k, hk⟩ : ∃ k, t.len = i + (k + 1) := ⟨t.len - i - 1, by omega⟩
    refine ⟨.arrayItem i e, st', ?_⟩
    rw [anything_array Z n t elems st [] rfl]
    simp only [_array]
    rw [hk, arrayLoop_split, ← hk, hloop]
    simp only [arrayLoop, Nat.zero_add, hidx, he]
  | mapValue n t a pre post key val st sti hent hloop _ ih =>
    obtain ⟨e, st', he⟩ := ih
    refine ⟨.mapItem key e, st', ?_⟩
    rw [anything_map Z n t (some a) st [] rfl]
    simp only [_map, hent]
    rw [mapLoop_split, hloop]
    simp only [mapLoop, he]
  | mapKey n t a pre post key val item st sti st1 hent hloop hval _ ih =>
    obtain ⟨e, st', he⟩ := ih
    refine ⟨.mapKey .nil e, st', ?_⟩
    rw [anything_map Z n t (some a) st [] rfl]
    simp only [_map, hent]
    rw [mapLoop_split, hloop]
    simp only [mapLoop, hval, he]
  | field n t pre post f fv st sti hloop hexp _ ih =>
    obtain ⟨e, st', he⟩ := ih
    refine ⟨.field f.Name (.struct t (pre ++ (f, fv) :: post)) e, st', ?_⟩
    rw [anything_struct Z n t _ st [] rfl]
    simp only [_struct]
    rw [structLoop_split, hloop]
    simp only [structLoop, hexp, he]
    simp
  | pointee n t addr w st htr hd hw ih =>
    obtain ⟨e, st', he⟩ := ih
    refine ⟨.pointee (.ptr t (some addr)) e, st', ?_⟩
    rw [anything_ptr Z n t (some addr) st [] rfl]
    have hsz : st.heap.sizelessAt Z addr t.elem = none := by
      cases hex : st.heap.sizelessAt Z addr t.elem with
      | none => rfl
      | some z =>
        obtain ⟨hz, hd2⟩ := sizelessAt_some hex
        rcases hd2 with hd2 | hd2
        · rw [deref_append _ hd2] at hd
          cases hd
          rw [sizeless_not_hits Z _ _ _ hw] at hz
          cases hz
        · rw [deref_congr t.elem (extends_append st.heap _ addr (sizelessAt_lt hex)),
            hd2] at hd
          cases hd
    simp only [_pointer, htr, hsz, hd, he]

/-! ## Lists -/

theorem get?_append_length {α : Type} (done : List α) (x : α) (rest : List α) :
    (done ++ x :: rest).get? done.length = some x := by
  induction done with
  | nil => rfl
  | cons d ds ih => simpa using ih

theorem set_append_length {α : Type} (done : List α) (x y : α) (rest : List α) :
    (done ++ x :: rest).set done.length y = done ++ y :: rest := by
  induction done with
  | nil => rfl
  | cons d ds ih => simp

theorem get?_set_self_of_lt {α : Type} (l : List α) (i : Nat) (x : α) (h : i < l.length) :
    (l.set i x).get? i = some x := by
  rw [List.get?_eq_getElem?, List.getElem?_set_self h]

theorem basic_kind_ne_ptr (b : Basic) : b.kind ≠ Kind.Ptr := by
  cases b <;> simp [Basic.kind]


/-! ## What a loop leaves alone -/

theorem keep_get {L : Nat} {st st' : State} (h : Keep L st st') {a : Nat} (ha : a < L) :
    st'.heap.get? a = st.heap.get? a := by
  have h1 := congrArg (fun l => l.get? a) h.1
  simp only [List.get?_eq_getElem?, List.getElem?_take, ha, if_true] at h1
  simpa [List.get?_eq_getElem?] using h1

theorem stable_of_keep {st st' : State} (h : Keep st.heap.length st st') (dc : Addr) :
    Stable dc st st' :=
  ⟨h.2.1, fun _ ha _ => keep_get h ha⟩

theorem stable_refl (dc : Addr) (st : State) : Stable dc st st :=
  ⟨le_refl _, fun _ _ _ => rfl⟩

theorem stable_trans {dc : Addr} {a b c : State} (h1 : Stable dc a b) (h2 : Stable dc b c) :
    Stable dc a c :=
  ⟨le_trans h1.1 h2.1, fun x hx hne =>
    (h2.2 x (lt_of_lt_of_le hx h1.1) hne).trans (h1.2 x hx hne)⟩

theorem stable_set (dc : Addr) (st : State) (h' : Heap)
    (hlen : h'.length = st.heap.length)
    (hget : ∀ a, a ≠ dc → h'.get? a = st.heap.get? a) :
    Stable dc st { st with heap := h' } :=
  ⟨by simp [hlen], fun a _ hne => hget a hne⟩

theorem get?_set_ne' {α : Type} (l : List α) (dc a : Nat) (x : α) (h : a ≠ dc) :
    (l.set dc x).get? a = l.get? a := by
  simp only [List.get?_eq_getElem?]
  exact List.getElem?_set_ne (Ne.symm h)

theorem setIndex_get_ne (h : Heap) (dc i a : Nat) (v : Value) (hne : a ≠ dc) :
    (h.setIndex dc i v).get? a = h.get? a := by
  unfold Heap.setIndex; split
  · exact get?_set_ne' _ _ _ _ hne
  · rfl

theorem setVar_get_ne (h : Heap) (dc a : Nat) (v : Value) (hne : a ≠ dc) :
    (h.setVar dc v).get? a = h.get? a := by
  unfold Heap.setVar; split
  · exact get?_set_ne' _ _ _ _ hne
  · rfl

theorem setField_get_ne (h : Heap) (dc i a : Nat) (v : Value) (hne : a ≠ dc) :
    (h.setField dc i v).get? a = h.get? a := by
  unfold Heap.setField; split
  · split
    · exact get?_set_ne' _ _ _ _ hne
    · rfl
  · rfl

theorem setElem_get_ne (h : Heap) (dc i a : Nat) (v : Value) (hne : a ≠ dc) :
    (h.setElem dc i v).get? a = h.get? a := by
  unfold Heap.setElem; split
  · exact get?_set_ne' _ _ _ _ hne
  · rfl

theorem mapSet_get_ne (h : Heap) (dc a : Nat) (k v : Value) (hne : a ≠ dc) :
    (h.mapSet dc k v).get? a = h.get? a := by
  unfold Heap.mapSet; split
  · exact get?_set_ne' _ _ _ _ hne
  · rfl

theorem mapDel_get_ne (h : Heap) (dc a : Nat) (k : Value) (hne : a ≠ dc) :
    (h.mapDel dc k).get? a = h.get? a := by
  unfold Heap.mapDel; split
  · exact get?_set_ne' _ _ _ _ hne
  · rfl

theorem framed_stable {self : Dispatch} (hf : Framed self) {x : Value} {st : State}
    {tm : TypeMap} {v : Value} {e : Option Err} {st' : State}
    (h : self x st tm = .ret v e st') (dc : Addr) : Stable dc st st' := by
  have := hf x st tm
  rw [h] at this
  exact stable_of_keep this dc

theorem sliceLoop_stable (self : Dispatch) (hf : Framed self) (tm : TypeMap)
    (hdr : SliceHdr) (dc : Addr) (t : Ty) :
    ∀ (n i : Nat) (st st' : State),
      sliceLoop self tm hdr dc t n i st = .ok st' → Stable dc st st' := by
  intro n
  induction n with
  | zero =>
    intro i st st' h
    unfold sliceLoop at h
    cases h
    exact stable_refl _ _
  | succ n ih =>
    intro i st st' h
    unfold sliceLoop at h
    split at h
    · cases h
    · split at h
      · cases h
      · rename_i item st1 heq
        have h1 := framed_stable hf heq dc
        split at h
        · split at h
          · exact stable_trans (stable_trans h1 (stable_set dc st1 _
              (setIndex_length _ _ _ _) (fun a => setIndex_get_ne _ _ _ _ _)))
              (ih _ _ _ h)
          · cases h
        · exact stable_trans h1 (ih _ _ _ h)
      · cases h

theorem arrayLoop_stable (self : Dispatch) (hf : Framed self) (tm : TypeMap)
    (elems : List Value) (t : Ty) (dc : Addr) :
    ∀ (n i : Nat) (st st' : State),
      arrayLoop self tm elems t dc n i st = .ok st' → Stable dc st st' := by
  intro n
  induction n with
  | zero =>
    intro i st st' h
    unfold arrayLoop at h
    cases h
    exact stable_refl _ _
  | succ n ih =>
    intro i st st' h
    unfold arrayLoop at h
    split at h
    · cases h
    · split at h
      · cases h
      · rename_i item st1 heq
        have h1 := framed_stable hf heq dc
        split at h
        · cases h
        · split at h
          · cases h
          · exact stable_trans (stable_trans h1 (stable_set dc st1 _
              (setElem_length _ _ _ _) (fun a => setElem_get_ne _ _ _ _ _)))
              (ih _ _ _ h)
      · cases h

theorem structLoop_stable (self : Dispatch) (hf : Framed self) (tm : TypeMap)
    (x : Value) (t : Ty) (dc : Addr) :
    ∀ (fs : List (StructField × Value)) (i : Nat) (st st' : State),
      structLoop self tm x t dc fs i st = .ok st' → Stable dc st st' := by
  intro fs
  induction fs with
  | nil =>
    intro i st st' h
    unfold structLoop at h
    cases h
    exact stable_refl _ _
  | cons fd rest ih =>
    intro i st st' h
    obtain ⟨f, fv⟩ := fd
    unfold structLoop at h
    split at h
    · cases h
    · split at h
      · cases h
      · rename_i item st1 heq
        have h1 := framed_stable hf heq dc
        split at h
        · cases h
        · split at h
          · cases h
          · exact stable_trans (stable_trans h1 (stable_set dc st1 _
              (setField_length _ _ _ _) (fun a => setField_get_ne _ _ _ _ _)))
              (ih _ _ _ h)
      · cases h

theorem mapLoop_stable (self : Dispatch) (hf : Framed self) (tm : TypeMap)
    (dc : Addr) (t : Ty) :
    ∀ (es : List (Value × Value)) (st st' : State),
      mapLoop self tm dc t es st = .ok st' → Stable dc st st' := by
  intro es
  induction es with
  | nil =>
    intro st st' h
    unfold mapLoop at h
    cases h
    exact stable_refl _ _
  | cons kv rest ih =>
    intro st st' h
    obtain ⟨key, val⟩ := kv
    unfold mapLoop at h
    split at h
    · cases h
    · rename_i item st1 heq
      have h1 := framed_stable hf heq dc
      split at h
      · cases h
      · rename_i k st2 heq2
        have h2 := stable_trans h1 (framed_stable hf heq2 dc)
        split at h
        · cases h
        · split at h
          · cases h
          · split at h
            · exact stable_trans (stable_trans h2 (stable_set dc st2 _
                (mapDel_length _ _ _) (fun a => mapDel_get_ne _ _ _ _)))
                (ih _ _ h)
            · split at h
              · cases h
              · exact stable_trans (stable_trans h2 (stable_set dc st2 _
                  (mapSet_length _ _ _ _) (fun a => mapSet_get_ne _ _ _ _ _)))
                  (ih _ _ h)
      · cases h
    · cases h

/-! ## What the record strategy stores -/

theorem structLoop_spec (self : Dispatch) (hf : Framed self) (tm : TypeMap) (X : Value)
    (t : Ty) (dc : Addr) (base : Heap) (hb : base.length ≤ dc) :
    ∀ (fs : List (StructField × Value)) (i : Nat) (st st' : State),
      structLoop self tm X t dc fs i st = .ok st' → dc < st.heap.length →
      Extends base st.heap →
      ∀ (ty T : Ty) (done todo : List (StructField × Value)),
        st.heap.get? dc = some (.var ty (.struct T (done ++ todo))) →
        done.length = i → todo.map Prod.fst = fs.map Prod.fst →
        ∃ items, st'.heap.get? dc = some (.var ty (.struct T (done ++ items))) ∧
          List.Forall₂ (FieldCloned self tm base st'.heap) fs items := by
  intro fs
  induction fs with
  | nil =>
    intro i st st' h _ _ ty T done todo hget _ hmap
    unfold structLoop at h
    cases h
    have : todo = [] := by simpa using hmap
    subst this
    exact ⟨[], hget, List.Forall₂.nil⟩
  | cons fd rest ih =>
    intro i st st' h hdc hext ty T done todo hget hlen hmap
    obtain ⟨f, fv⟩ := fd
    cases todo with
    | nil => simp at hmap
    | cons td todo' =>
      obtain ⟨f', z⟩ := td
      simp only [List.map_cons, List.cons.injEq] at hmap
      obtain ⟨hff, hmap'⟩ := hmap
      subst hff
      subst hlen
      unfold structLoop at h
      split at h
      · cases h
      · rename_i hexp
        split at h
        · cases h
        · rename_i item st1 heq
          have hk := hf fv st tm
          rw [heq] at hk
          have hget1 : st1.heap.get? dc =
              some (.var ty (.struct T (done ++ (f', z) :: todo'))) := by
            rw [keep_get hk hdc, hget]
          split at h
          · cases h
          · rename_i hvalid
            split at h
            · cases h
            · rename_i hassign
              have hdc1 : dc < st1.heap.length := lt_of_lt_of_le hdc hk.2.1
              have hget2 : (st1.heap.setField dc done.length item).get? dc =
                  some (.var ty (.struct T ((done ++ [(f', item)]) ++ todo'))) := by
                unfold Heap.setField
                rw [hget1]
                simp only
                rw [get?_append_length]
                simp only
                rw [get?_set_self_of_lt _ _ _ hdc1, set_append_length]
                simp
              have hext2 : Extends base (st1.heap.setField dc done.length item) := by
                intro a ha
                rw [setField_get_ne _ _ _ _ _ (Nat.ne_of_lt (lt_of_lt_of_le ha hb)),
                  keep_get hk (lt_of_lt_of_le ha (le_trans hb (le_of_lt hdc)))]
                exact hext a ha
              obtain ⟨items, hfin, hall⟩ := ih (done.length + 1)
                { st1 with heap := st1.heap.setField dc done.length item } st' h
                (by simp [setField_length]; exact hdc1) hext2 ty T (done ++ [(f', item)])
                todo' hget2 (by simp) hmap'
              have hst := structLoop_stable self hf tm X t dc rest (done.length + 1)
                { st1 with heap := st1.heap.setField dc done.length item } st' h
              refine ⟨(f', item) :: items, by simpa using hfin, List.Forall₂.cons ?_ hall⟩
              refine ⟨rfl, by simpa using hexp, by simpa using hvalid,
                by simpa using hassign, st, st1, heq, hext, ?_⟩
              intro a ha1 ha2
              have hne : a ≠ dc := Nat.ne_of_gt (lt_of_lt_of_le hdc ha1)
              rw [hst.2 a (by simp [setField_length]; exact ha2) hne]
              exact setField_get_ne _ _ _ _ _ hne
        · cases h

/-- On success, the record strategy returns a record of the same type whose
fields are, in declaration order, what the dispatcher returned for the fields
of the original. -/
theorem struct_spec (Z : Ty → Value) (self : Dispatch) (hf : Framed self) (tm : TypeMap)
    (T : Ty) (fields : List (StructField × Value)) (st : State) (v : Value) (st' : State)
    (h : _struct Z self (.struct T fields) st tm = .ret v none st') :
    ∃ items, v = .struct T items ∧
      List.Forall₂ (FieldCloned self tm st.heap st'.heap) fields items := by
  simp only [_struct] at h
  split at h
  · rename_i o heq
    subst h
    exact absurd heq (structLoop_error _ _ _ _ _ _ _ _ _ _)
  · rename_i st1 heq
    cases h
    obtain ⟨items, hfin, hall⟩ := structLoop_spec self hf tm (.struct T fields) T
      st.heap.length st.heap (le_refl _) fields 0 _ st' heq (by simp)
      (extends_append _ _) T T []
      (fields.map (fun (f : StructField × Value) => (f.1, zeroValue Z f.1.Typ)))
      (by exact get?_append_length st.heap _ [])
      rfl (by simp [List.map_map, Function.comp])
    refine ⟨items, ?_, hall⟩
    simp only [Heap.load, hfin, List.nil_append]

theorem entries_lt {h : Heap} {a : Addr} {es : List (Value × Value)}
    (he : h.entries a = some es) : a < h.length := by
  unfold Heap.entries at he
  split at he
  · rename_i hget
    rw [List.get?_eq_getElem?] at hget
    exact (List.getElem?_eq_some.mp hget).1
  · cases he

theorem entries_congr {h h2 : Heap} {a : Addr} (hg : h2.get? a = h.get? a) :
    h2.entries a = h.entries a := by
  unfold Heap.entries
  rw [hg]

/-- What the dispatcher returns, without overrides, for a slice or a map is
absent exactly when the original is. -/
theorem cloned_roundTrip (Z : Ty → Value) (n : Nat) (base fin : Heap) (s s2 : Value)
    (h : Cloned (_anything Z n) [] base fin s s2) : RoundTrip base fin s s2 := by
  obtain ⟨sa, sb, hcall, hext, hfin⟩ := h
  cases n with
  | zero => cases hcall
  | succ n =>
    cases s with
    | slice t hdr =>
      rw [anything_slice Z n t hdr sa [] rfl] at hcall
      cases hdr with
      | none =>
        simp only [_slice] at hcall
        cases hcall
        rfl
      | some hd =>
        simp only [_slice] at hcall
        split at hcall
        · rename_i o heq
          subst hcall
          exact absurd heq (sliceLoop_error _ _ _ _ _ _ _ _ _ _)
        · cases hcall
          exact ⟨_, rfl, rfl⟩
    | map t r =>
      rw [anything_map Z n t r sa [] rfl] at hcall
      cases r with
      | none =>
        simp only [_map] at hcall
        cases hcall
        rfl
      | some a =>
        simp only [_map] at hcall
        split at hcall
        · cases hcall
        · rename_i es hes
          split at hcall
          · rename_i o heq
            subst hcall
            exact absurd heq (mapLoop_error _ _ _ _ _ _ _ _)
          · rename_i st1 heq
            cases hcall
            refine ⟨_, rfl, ?_⟩
            intro hempty
            have hes2 : sa.heap.entries a = some [] := by
              rw [entries_congr (hext a (entries_lt hempty))]
              exact hempty
            rw [hes2] at hes
            cases hes
            simp only [mapLoop] at heq
            cases heq
            rw [entries_congr (hfin sa.heap.length (le_refl _) (by simp))]
            simp [Heap.entries, List.get?_eq_getElem?]
    | nil => trivial
    | basic b t d => trivial
    | handle hd t id => trivial
    | array t es => trivial
    | struct t fs => trivial
    | ptr t a => trivial

/-! ## What the slice and array strategies store -/

theorem index_extends {base h : Heap} (hext : Extends base h) (hdr : SliceHdr)
    (hh : hdr.arr < base.length) (j : Nat) : h.index hdr j = base.index hdr j := by
  unfold Heap.index
  rw [hext _ hh]

theorem get?_set_ne_idx {α : Type} (l : List α) (i j : Nat) (x : α) (h : j ≠ i) :
    (l.set i x).get? j = l.get? j := get?_set_ne' l i j x h

theorem sliceLoop_spec (self : Dispatch) (hf : Framed self) (tm : TypeMap)
    (hdr : SliceHdr) (dc : Addr) (t : Ty) (base : Heap) (hb : base.length ≤ dc)
    (hh : hdr.arr < base.length) :
    ∀ (n i : Nat) (st st' : State),
      sliceLoop self tm hdr dc t n i st = .ok st' → dc < st.heap.length →
      Extends base st.heap →
      ∀ (et : Ty) (vs : List Value), st.heap.get? dc = some (.arr et vs) →
        i + n ≤ vs.length →
        ∃ vs', st'.heap.get? dc = some (.arr et vs') ∧ vs'.length = vs.length ∧
          (∀ j, j < i → vs'.get? j = vs.get? j) ∧
          ∀ j, i ≤ j → j < i + n → ∃ xj item, base.index hdr j = some xj ∧
            Cloned self tm base st'.heap xj item ∧
            (item.isValid = true → assignable item t.elem = true) ∧
            vs'.get? j = if item.isValid = true then some item else vs.get? j := by
  intro n
  induction n with
  | zero =>
    intro i st st' h _ _ et vs hget _
    unfold sliceLoop at h
    cases h
    exact ⟨vs, hget, rfl, fun _ _ => rfl, fun j h1 h2 => absurd h2 (by omega)⟩
  | succ n ih =>
    intro i st st' h hdc hext et vs hget hlen
    unfold sliceLoop at h
    split at h
    · cases h
    · rename_i xi hidx
      split at h
      · cases h
      · rename_i item st1 heq
        have hk := hf xi st tm
        rw [heq] at hk
        have hget1 : st1.heap.get? dc = some (.arr et vs) := by
          rw [keep_get hk hdc, hget]
        have hdc1 : dc < st1.heap.length := lt_of_lt_of_le hdc hk.2.1
        have hext1 : Extends base st1.heap := by
          intro a ha
          rw [keep_get hk (lt_of_lt_of_le ha (le_trans hb (le_of_lt hdc)))]
          exact hext a ha
        have hbase : base.index hdr i = some xi := by
          rw [← index_extends hext hdr hh i]; exact hidx
        split at h
        · rename_i hvalid
          split at h
          · rename_i hassign
            have hget2 : (st1.heap.setIndex dc i item).get? dc =
                some (.arr et (vs.set i item)) := by
              unfold Heap.setIndex
              rw [hget1]
              simp only
              exact get?_set_self_of_lt _ _ _ hdc1
            have hext2 : Extends base (st1.heap.setIndex dc i item) := by
              intro a ha
              rw [setIndex_get_ne _ _ _ _ _ (Nat.ne_of_lt (lt_of_lt_of_le ha hb))]
              exact hext1 a ha
            obtain ⟨vs', hfin, hl, hlow, hhigh⟩ := ih (i + 1)
              { st1 with heap := st1.heap.setIndex dc i item } st' h
              (by simp [setIndex_length]; exact hdc1) hext2 et (vs.set i item) hget2
              (by simp; omega)
            have hst := sliceLoop_stable self hf tm hdr dc t n (i + 1)
              { st1 with heap := st1.heap.setIndex dc i item } st' h
            refine ⟨vs', hfin, by simpa using hl, ?_, ?_⟩
            · intro j hj
              rw [hlow j (by omega), get?_set_ne_idx _ _ _ _ (by omega)]
            · intro j hj1 hj2
              by_cases hji : j = i
              · subst hji
                refine ⟨xi, item, hbase, ⟨st, st1, heq, hext, ?_⟩, fun _ => hassign, ?_⟩
                · intro a ha1 ha2
                  have hne : a ≠ dc := Nat.ne_of_gt (lt_of_lt_of_le hdc ha1)
                  rw [hst.2 a (by simp [setIndex_length]; exact ha2) hne]
                  exact setIndex_get_ne _ _ _ _ _ hne
                · rw [hlow j (by omega), get?_set_self_of_lt _ _ _ (by omega)]
                  simp [hvalid]
              · obtain ⟨xj, itemj, h1, h2, h3, h4⟩ := hhigh j (by omega) (by omega)
                refine ⟨xj, itemj, h1, h2, h3, ?_⟩
                rw [h4, get?_set_ne_idx _ _ _ _ hji]
          · cases h
        · rename_i hvalid
          obtain ⟨vs', hfin, hl, hlow, hhigh⟩ := ih (i + 1) st1 st' h hdc1 hext1 et vs
            hget1 (by omega)
          have hst := sliceLoop_stable self hf tm hdr dc t n (i + 1) st1 st' h
          refine ⟨vs', hfin, hl, fun j hj => hlow j (by omega), ?_⟩
          intro j hj1 hj2
          by_cases hji : j = i
          · subst hji
            refine ⟨xi, item, hbase, ⟨st, st1, heq, hext, ?_⟩,
              fun hv => absurd hv hvalid, ?_⟩
            · intro a ha1 ha2
              exact hst.2 a ha2 (Nat.ne_of_gt (lt_of_lt_of_le hdc ha1))
            · rw [hlow j (by omega)]
              simp [hvalid]
          · exact hhigh j (by omega) (by omega)
      · cases h

theorem index_lt {h : Heap} {hdr : SliceHdr} {i : Nat} {x : Value}
    (hx : h.index hdr i = some x) : hdr.arr < h.length := by
  unfold Heap.index at hx
  split at hx
  · rename_i hget
    rw [List.get?_eq_getElem?] at hget
    exact (List.getElem?_eq_some.mp hget).1
  · cases hx

theorem get?_replicate {α : Type} (n j : Nat) (z : α) (h : j < n) :
    (List.replicate n z).get? j = some z := by
  rw [List.get?_eq_getElem?, List.getElem?_replicate]
  simp [h]

/-- On success, the slice strategy returns a fresh slice of the same type and
length whose element at each index is what the dispatcher returned for the
original's element, or the zero value when that is the untyped nil. -/
theorem slice_spec (Z : Ty → Value) (self : Dispatch) (hf : Framed self) (tm : TypeMap)
    (t : Ty) (hdr : SliceHdr) (st : State) (v : Value) (st' : State)
    (hh : hdr.arr < st.heap.length)
    (h : _slice Z self (.slice t (some hdr)) st tm = .ret v none st') :
    v = .slice t (some ⟨st.heap.length, 0, hdr.len, hdr.len⟩) ∧
    ∀ j, j < hdr.len → ∃ xj item, st.heap.index hdr j = some xj ∧
      Cloned self tm st.heap st'.heap xj item ∧
      (item.isValid = true → assignable item t.elem = true) ∧
      st'.heap.index ⟨st.heap.length, 0, hdr.len, hdr.len⟩ j =
        some (if item.isValid = true then item else zeroValue Z t.elem) := by
  simp only [_slice] at h
  split at h
  · rename_i o heq
    subst h
    exact absurd heq (sliceLoop_error _ _ _ _ _ _ _ _ _ _)
  · rename_i st1 heq
    cases h
    obtain ⟨vs', hfin, _, _, hhigh⟩ := sliceLoop_spec self hf tm hdr st.heap.length t
      st.heap (le_refl _) hh hdr.len 0 _ st' heq (by simp) (extends_append _ _) t.elem
      (List.replicate hdr.len (zeroValue Z t.elem))
      (by exact get?_append_length st.heap _ []) (by simp)
    refine ⟨rfl, ?_⟩
    intro j hj
    obtain ⟨xj, item, h1, h2, h3, h4⟩ := hhigh j (Nat.zero_le _) (by omega)
    refine ⟨xj, item, h1, h2, h3, ?_⟩
    simp only [Heap.index, hfin, Nat.zero_add, h4]
    split
    · rfl
    · exact get?_replicate _ _ _ hj

/-! ### Arrays -/

theorem arrayLoop_spec (self : Dispatch) (hf : Framed self) (tm : TypeMap)
    (elems : List Value) (t : Ty) (dc : Addr) (base : Heap) (hb : base.length ≤ dc) :
    ∀ (n i : Nat) (st st' : State),
      arrayLoop self tm elems t dc n i st = .ok st' → dc < st.heap.length →
      Extends base st.heap →
      ∀ (ty at_ : Ty) (vs : List Value),
        st.heap.get? dc = some (.var ty (.array at_ vs)) → i + n ≤ vs.length →
        ∃ vs', st'.heap.get? dc = some (.var ty (.array at_ vs')) ∧
          vs'.length = vs.length ∧
          (∀ j, j < i → vs'.get? j = vs.get? j) ∧
          ∀ j, i ≤ j → j < i + n → ∃ xj item, elems.get? j = some xj ∧
            Cloned self tm base st'.heap xj item ∧ item.isValid = true ∧
            assignable item t.elem = true ∧ vs'.get? j = some item := by
  intro n
  induction n with
  | zero =>
    intro i st st' h _ _ ty at_ vs hget _
    unfold arrayLoop at h
    cases h
    exact ⟨vs, hget, rfl, fun _ _ => rfl, fun j h1 h2 => absurd h2 (by omega)⟩
  | succ n ih =>
    intro i st st' h hdc hext ty at_ vs hget hlen
    unfold arrayLoop at h
    split at h
    · cases h
    · rename_i xi hidx
      split at h
      · cases h
      · rename_i item st1 heq
        have hk := hf xi st tm
        rw [heq] at hk
        have hget1 : st1.heap.get? dc = some (.var ty (.array at_ vs)) := by
          rw [keep_get hk hdc, hget]
        have hdc1 : dc < st1.heap.length := lt_of_lt_of_le hdc hk.2.1
        have hext1 : Extends base st1.heap := by
          intro a ha
          rw [keep_get hk (lt_of_lt_of_le ha (le_trans hb (le_of_lt hdc)))]
          exact hext a ha
        split at h
        · cases h
        · rename_i hvalid
          split at h
          · cases h
          · rename_i hassign
            have hget2 : (st1.heap.setElem dc i item).get? dc =
                some (.var ty (.array at_ (vs.set i item))) := by
              unfold Heap.setElem
              rw [hget1]
              simp only
              exact get?_set_self_of_lt _ _ _ hdc1
            have hext2 : Extends base (st1.heap.setElem dc i item) := by
              intro a ha
              rw [setElem_get_ne _ _ _ _ _ (Nat.ne_of_lt (lt_of_lt_of_le ha hb))]
              exact hext1 a ha
            obtain ⟨vs', hfin, hl, hlow, hhigh⟩ := ih (i + 1)
              { st1 with heap := st1.heap.setElem dc i item } st' h
              (by simp [setElem_length]; exact hdc1) hext2 ty at_ (vs.set i item) hget2
              (by simp; omega)
            have hst := arrayLoop_stable self hf tm elems t dc n (i + 1)
              { st1 with heap := st1.heap.setElem dc i item } st' h
            refine ⟨vs', hfin, by simpa using hl, ?_, ?_⟩
            · intro j hj
              rw [hlow j (by omega), get?_set_ne_idx _ _ _ _ (by omega)]
            · intro j hj1 hj2
              by_cases hji : j = i
              · subst hji
                refine ⟨xi, item, hidx, ⟨st, st1, heq, hext, ?_⟩, by simpa using hvalid,
                  by simpa using hassign, ?_⟩
                · intro a ha1 ha2
                  have hne : a ≠ dc := Nat.ne_of_gt (lt_of_lt_of_le hdc ha1)
                  rw [hst.2 a (by simp [setElem_length]; exact ha2) hne]
                  exact setElem_get_ne _ _ _ _ _ hne
                · rw [hlow j (by omega), get?_set_self_of_lt _ _ _ (by omega)]
              · exact hhigh j (by omega) (by omega)
      · cases h

/-- On success, the array strategy returns an array of type `[n]E`, for the
length and element type of the original's type, whose element at each index is
what the dispatcher returned for the original's element. -/
theorem array_spec (Z : Ty → Value) (self : Dispatch) (hf : Framed self) (tm : TypeMap)
    (t : Ty) (elems : List Value) (st : State) (v : Value) (st' : State)
    (h : _array Z self (.array t elems) st tm = .ret v none st') :
    ∃ vs', v = .array (.array t.len t.elem) vs' ∧ vs'.length = t.len ∧
      ∀ j, j < t.len → ∃ xj item, elems.get? j = some xj ∧
        Cloned self tm st.heap st'.heap xj item ∧ item.isValid = true ∧
        assignable item t.elem = true ∧ vs'.get? j = some item := by
  simp only [_array] at h
  split at h
  · rename_i o heq
    subst h
    exact absurd heq (arrayLoop_error _ _ _ _ _ _ _ _ _ _)
  · rename_i st1 heq
    cases h
    obtain ⟨vs', hfin, hl, _, hhigh⟩ := arrayLoop_spec self hf tm elems t st.heap.length
      st.heap (le_refl _) t.len 0 _ st' heq (by simp) (extends_append _ _)
      (.array t.len t.elem) (.array t.len t.elem)
      (List.replicate t.len (zeroValue Z t.elem))
      (by exact get?_append_length st.heap _ []) (by simp)
    refine ⟨vs', ?_, by simpa using hl, ?_⟩
    · simp only [Heap.load, hfin]
    · intro j hj
      exact hhigh j (Nat.zero_le _) (by omega)

/-! ## The runs of the loops

What a loop stores, call by call: each clone is what the dispatcher returned in
the state the loop had reached. -/

theorem sliceLoop_run (self : Dispatch) (hf : Framed self) (tm : TypeMap)
    (hdr : SliceHdr) (dc : Addr) (t : Ty) :
    ∀ (n i : Nat) (st st' : State),
      sliceLoop self tm hdr dc t n i st = .ok st' → dc < st.heap.length →
      ∀ (et : Ty) (vs : List Value), st.heap.get? dc = some (.arr et vs) →
        i + n ≤ vs.length →
        ∃ vs', st'.heap.get? dc = some (.arr et vs') ∧ vs'.length = vs.length ∧
          (∀ j, j < i → vs'.get? j = vs.get? j) ∧
          ∀ j, j < n → ∃ stj xj item st1,
            sliceLoop self tm hdr dc t j i st = .ok stj ∧
            stj.heap.index hdr (i + j) = some xj ∧
            self xj stj tm = .ret item none st1 ∧
            (item.isValid = true → assignable item t.elem = true) ∧
            vs'.get? (i + j) =
              if item.isValid = true then some item else vs.get? (i + j) := by
  intro n
  induction n with
  | zero =>
    intro i st st' h _ et vs hget _
    unfold sliceLoop at h
    cases h
    exact ⟨vs, hget, rfl, fun _ _ => rfl, fun j hj => absurd hj (by omega)⟩
  | succ n ih =>
    intro i st st' h hdc et vs hget hlen
    have h0 := h
    unfold sliceLoop at h
    split at h
    · cases h
    · rename_i xi hidx
      split at h
      · cases h
      · rename_i item st1 heq
        have hk := hf xi st tm
        rw [heq] at hk
        have hget1 : st1.heap.get? dc = some (.arr et vs) := by
          rw [keep_get hk hdc, hget]
        have hdc1 : dc < st1.heap.length := lt_of_lt_of_le hdc hk.2.1
        split at h
        · rename_i hvalid
          split at h
          · rename_i hassign
            have hget2 : (st1.heap.setIndex dc i item).get? dc =
                some (.arr et (vs.set i item)) := by
              unfold Heap.setIndex
              rw [hget1]
              simp only
              exact get?_set_self_of_lt _ _ _ hdc1
            obtain ⟨vs', hfin, hl, hlow, hhigh⟩ := ih (i + 1)
              { st1 with heap := st1.heap.setIndex dc i item } st' h
              (by simp [setIndex_length]; exact hdc1) et (vs.set i item) hget2
              (by simp; omega)
            refine ⟨vs', hfin, by simpa using hl, ?_, ?_⟩
            · intro j hj
              rw [hlow j (by omega), get?_set_ne_idx _ _ _ _ (by omega)]
            · intro j hj
              cases j with
              | zero =>
                refine ⟨st, xi, item, st1, rfl, hidx, heq, fun _ => hassign, ?_⟩
                rw [Nat.add_zero, hlow i (by omega), get?_set_self_of_lt _ _ _ (by omega)]
                simp [hvalid]
              | succ j =>
                obtain ⟨stj, xj, itemj, stj1, h1, h2, h3, h4, h5⟩ := hhigh j (by omega)
                have hidx2 : i + 1 + j = i + (j + 1) := by omega
                rw [hidx2] at h2 h5
                refine ⟨stj, xj, itemj, stj1, ?_, h2, h3, h4, ?_⟩
                · simp only [sliceLoop, hidx, heq, hvalid, hassign, if_true]
                  exact h1
                · rw [h5, get?_set_ne_idx _ _ _ _ (by omega)]
          · cases h
        · rename_i hvalid
          obtain ⟨vs', hfin, hl, hlow, hhigh⟩ := ih (i + 1) st1 st' h hdc1 et vs
            hget1 (by omega)
          refine ⟨vs', hfin, hl, fun j hj => hlow j (by omega), ?_⟩
          intro j hj
          cases j with
          | zero =>
            refine ⟨st, xi, item, st1, rfl, hidx, heq, fun hv => absurd hv hvalid, ?_⟩
            rw [Nat.add_zero, hlow i (by omega)]
            simp [hvalid]
          | succ j =>
            obtain ⟨stj, xj, itemj, stj1, h1, h2, h3, h4, h5⟩ := hhigh j (by omega)
            have hidx2 : i + 1 + j = i + (j + 1) := by omega
            rw [hidx2] at h2 h5
            refine ⟨stj, xj, itemj, stj1, ?_, h2, h3, h4, h5⟩
            simp only [sliceLoop, hidx, heq, hvalid, if_false]
            exact h1
      · cases h

/-- The loop of the slice strategy completes when, each time it has cloned the
elements before an index, the dispatcher clones the element at that index
without error, to the untyped nil or to a value the element type accepts. -/
theorem sliceLoop_total (self : Dispatch) (tm : TypeMap) (hdr : SliceHdr) (dc : Addr)
    (t : Ty) (st0 : State) (len : Nat)
    (hok : ∀ j stj, j < len → sliceLoop self tm hdr dc t j 0 st0 = .ok stj →
      ∃ xj item st1, stj.heap.index hdr j = some xj ∧
        self xj stj tm = .ret item none st1 ∧
        (item.isValid = true → assignable item t.elem = true)) :
    ∀ k, k ≤ len → ∃ stk, sliceLoop self tm hdr dc t k 0 st0 = .ok stk := by
  intro k
  induction k with
  | zero => intro _; exact ⟨st0, rfl⟩
  | succ k ih =>
    intro hk
    obtain ⟨stk, hstk⟩ := ih (by omega)
    obtain ⟨xj, item, st1, hidx, hcall, hacc⟩ := hok k stk (by omega) hstk
    rw [sliceLoop_split, hstk]
    simp only [Nat.zero_add, sliceLoop, hidx, hcall]
    by_cases hv : item.isValid = true
    · simp only [hv, hacc hv, if_true]
      exact ⟨_, rfl⟩
    · simp only [hv, if_false]
      exact ⟨_, rfl⟩

theorem mapLoop_run (self : Dispatch) (hf : Framed self) (tm : TypeMap) (dc : Addr)
    (t : Ty) :
    ∀ (es : List (Value × Value)) (st st' : State),
      mapLoop self tm dc t es st = .ok st' → dc < st.heap.length →
      ∀ (cur : List (Value × Value)), st.heap.get? dc = some (.map cur) →
        ∃ outs, MapStores self tm dc t es st outs ∧
          st'.heap.get? dc = some (.map (replay outs cur)) := by
  intro es
  induction es with
  | nil =>
    intro st st' h _ cur hget
    unfold mapLoop at h
    cases h
    exact ⟨[], ⟨rfl, fun j key val hj => by simp at hj⟩, hget⟩
  | cons kv rest ih =>
    intro st st' h hdc cur hget
    obtain ⟨key, val⟩ := kv
    unfold mapLoop at h
    split at h
    · cases h
    · rename_i item st1 heq
      have hk := hf val st tm
      rw [heq] at hk
      have hdc1 : dc < st1.heap.length := lt_of_lt_of_le hdc hk.2.1
      split at h
      · cases h
      · rename_i k st2 heq2
        have hk2 := hf key st1 tm
        rw [heq2] at hk2
        have hdc2 : dc < st2.heap.length := lt_of_lt_of_le hdc1 hk2.2.1
        have hget2 : st2.heap.get? dc = some (.map cur) := by
          rw [keep_get hk2 hdc1, keep_get hk hdc, hget]
        split at h
        · cases h
        · rename_i hkvalid
          split at h
          · cases h
          · rename_i hkassign
            split at h
            · rename_i hinvalid
              have hget3 : (st2.heap.mapDel dc k).get? dc =
                  some (.map (mapDelete k cur)) := by
                unfold Heap.mapDel
                rw [hget2]
                simp only
                exact get?_set_self_of_lt _ _ _ hdc2
              obtain ⟨outs, ⟨hlen, hall⟩, hfin⟩ := ih
                { st2 with heap := st2.heap.mapDel dc k } st' h
                (by simp [mapDel_length]; exact hdc2) _ hget3
              refine ⟨(k, item) :: outs, ⟨by simp [hlen], ?_⟩, ?_⟩
              · intro j key2 val2 hj
                cases j with
                | zero =>
                  simp only [List.get?_cons_zero, Option.some.injEq, Prod.mk.injEq] at hj
                  obtain ⟨rfl, rfl⟩ := hj
                  exact ⟨st, item, st1, k, st2, rfl, heq, heq2, rfl⟩
                | succ j =>
                  simp only [List.get?_cons_succ] at hj
                  obtain ⟨stj, itemj, sj1, kj, sj2, h1, h2, h3, h4⟩ := hall j key2 val2 hj
                  refine ⟨stj, itemj, sj1, kj, sj2, ?_, h2, h3, by simpa using h4⟩
                  simp only [List.take_succ_cons, mapLoop, heq, heq2, hkvalid, hkassign,
                    hinvalid, ↓reduceIte]
                  exact h1
              · have hv : item.isValid = false := by simpa using hinvalid
                simp only [replay, hv, Bool.false_eq_true, if_false]
                exact hfin
            · rename_i hvalid
              split at h
              · cases h
              · rename_i hassign
                have hget3 : (st2.heap.mapSet dc k item).get? dc =
                    some (.map (mapAssign k item cur)) := by
                  unfold Heap.mapSet
                  rw [hget2]
                  simp only
                  exact get?_set_self_of_lt _ _ _ hdc2
                obtain ⟨outs, ⟨hlen, hall⟩, hfin⟩ := ih
                  { st2 with heap := st2.heap.mapSet dc k item } st' h
                  (by simp [mapSet_length]; exact hdc2) _ hget3
                refine ⟨(k, item) :: outs, ⟨by simp [hlen], ?_⟩, ?_⟩
                · intro j key2 val2 hj
                  cases j with
                  | zero =>
                    simp only [List.get?_cons_zero, Option.some.injEq, Prod.mk.injEq] at hj
                    obtain ⟨rfl, rfl⟩ := hj
                    exact ⟨st, item, st1, k, st2, rfl, heq, heq2, rfl⟩
                  | succ j =>
                    simp only [List.get?_cons_succ] at hj
                    obtain ⟨stj, itemj, sj1, kj, sj2, h1, h2, h3, h4⟩ :=
                      hall j key2 val2 hj
                    refine ⟨stj, itemj, sj1, kj, sj2, ?_, h2, h3, by simpa using h4⟩
                    simp only [List.take_succ_cons, mapLoop, heq, heq2, hkvalid, hkassign,
                      hvalid, hassign, ↓reduceIte]
                    exact h1
                · have hv : item.isValid = true := by simpa using hvalid
                  simp only [replay, hv, if_true]
                  exact hfin
      · cases h
    · cases h

/-- On success, the map strategy returns a fresh map of the same type, whose
entries are the replay, on the empty map, of the stores of its run. -/
theorem map_run (self : Dispatch) (hf : Framed self) (tm : TypeMap)
    (t : Ty) (a : Addr) (st : State) (v : Value) (st' : State)
    (es : List (Value × Value)) (hes : st.heap.entries a = some es)
    (h : _map self (.map t (some a)) st tm = .ret v none st') :
    v = .map t (some st.heap.length) ∧
    ∃ outs, MapStores self tm st.heap.length t es
        { st with heap := st.heap ++ [.map []] } outs ∧
      st'.heap.entries st.heap.length = some (replay outs []) := by
  simp only [_map, hes] at h
  split at h
  · rename_i o heq
    subst h
    exact absurd heq (mapLoop_error _ _ _ _ _ _ _ _)
  · rename_i st1 heq
    cases h
    obtain ⟨outs, hall, hfin⟩ := mapLoop_run self hf tm st.heap.length t es _ st' heq
      (by simp) [] (by exact get?_append_length st.heap _ [])
    refine ⟨rfl, outs, hall, ?_⟩
    simp only [Heap.entries, hfin]

theorem get?_split {α : Type} : ∀ (l : List α) (i : Nat) (x : α), l.get? i = some x →
    l = l.take i ++ x :: l.drop (i + 1)
  | [], i, x, h => by simp at h
  | y :: ys, 0, x, h => by
    simp only [List.get?_cons_zero, Option.some.injEq] at h
    subst h
    rfl
  | y :: ys, i + 1, x, h => by
    simp only [List.get?_cons_succ] at h
    have := get?_split ys i x h
    simp only [List.take_succ_cons, List.drop_succ_cons, List.cons_append]
    rw [← this]

theorem structLoop_run (self : Dispatch) (hf : Framed self) (tm : TypeMap) (X : Value)
    (t : Ty) (dc : Addr) :
    ∀ (fs : List (StructField × Value)) (i : Nat) (st st' : State),
      structLoop self tm X t dc fs i st = .ok st' → dc < st.heap.length →
      ∀ (ty T : Ty) (done todo : List (StructField × Value)),
        st.heap.get? dc = some (.var ty (.struct T (done ++ todo))) →
        done.length = i → todo.map Prod.fst = fs.map Prod.fst →
        ∃ items, st'.heap.get? dc = some (.var ty (.struct T (done ++ items))) ∧
          items.map Prod.fst = fs.map Prod.fst ∧
          ∀ j f v, fs.get? j = some (f, v) → ∃ stj item st1,
            structLoop self tm X t dc (fs.take j) i st = .ok stj ∧
            f.PkgPath = "" ∧
            self v stj tm = .ret item none st1 ∧ item.isValid = true ∧
            assignable item f.Typ = true ∧ items.get? j = some (f, item) := by
  intro fs
  induction fs with
  | nil =>
    intro i st st' h _ ty T done todo hget _ hmap
    unfold structLoop at h
    cases h
    have : todo = [] := by simpa using hmap
    subst this
    exact ⟨[], hget, rfl, fun j f v hj => by simp at hj⟩
  | cons fd rest ih =>
    intro i st st' h hdc ty T done todo hget hlen hmap
    obtain ⟨f, fv⟩ := fd
    cases todo with
    | nil => simp at hmap
    | cons td todo' =>
      obtain ⟨f', z⟩ := td
      simp only [List.map_cons, List.cons.injEq] at hmap
      obtain ⟨hff, hmap'⟩ := hmap
      subst hff
      subst hlen
      unfold structLoop at h
      split at h
      · cases h
      · rename_i hexp
        split at h
        · cases h
        · rename_i item st1 heq
          have hk := hf fv st tm
          rw [heq] at hk
          have hget1 : st1.heap.get? dc =
              some (.var ty (.struct T (done ++ (f', z) :: todo'))) := by
            rw [keep_get hk hdc, hget]
          split at h
          · cases h
          · rename_i hvalid
            split at h
            · cases h
            · rename_i hassign
              have hdc1 : dc < st1.heap.length := lt_of_lt_of_le hdc hk.2.1
              have hget2 : (st1.heap.setField dc done.length item).get? dc =
                  some (.var ty (.struct T ((done ++ [(f', item)]) ++ todo'))) := by
                unfold Heap.setField
                rw [hget1]
                simp only
                rw [get?_append_length]
                simp only
                rw [get?_set_self_of_lt _ _ _ hdc1, set_append_length]
                simp
              obtain ⟨items, hfin, hdecl, hall⟩ := ih (done.length + 1)
                { st1 with heap := st1.heap.setField dc done.length item } st' h
                (by simp [setField_length]; exact hdc1) ty T (done ++ [(f', item)])
                todo' hget2 (by simp) hmap'
              refine ⟨(f', item) :: items, by simpa using hfin, by simp [hdecl], ?_⟩
              intro j g v hj
              cases j with
              | zero =>
                simp only [List.get?_cons_zero, Option.some.injEq, Prod.mk.injEq] at hj
                obtain ⟨rfl, rfl⟩ := hj
                exact ⟨st, item, st1, rfl, by simpa using hexp, heq, by simpa using hvalid,
                  by simpa using hassign, rfl⟩
              | succ j =>
                simp only [List.get?_cons_succ] at hj
                obtain ⟨stj, itemj, sj1, h1, h2, h3, h4, h5, h6⟩ := hall j g v hj
                refine ⟨stj, itemj, sj1, ?_, h2, h3, h4, h5, by simpa using h6⟩
                simp only [List.take_succ_cons, structLoop, hexp, heq, hvalid, hassign,
                  ↓reduceIte]
                exact h1
        · cases h

theorem take_succ_get? {α : Type} : ∀ (l : List α) (k : Nat) (x : α), l.get? k = some x →
    l.take (k + 1) = l.take k ++ [x]
  | [], k, x, h => by simp at h
  | y :: ys, 0, x, h => by
    simp only [List.get?_cons_zero, Option.some.injEq] at h
    subst h
    rfl
  | y :: ys, k + 1, x, h => by
    simp only [List.get?_cons_succ] at h
    simp only [List.take_succ_cons, List.cons_append, take_succ_get? ys k x h]

/-- The loop of the record strategy completes when, each time it has cloned the
fields before a field, that field is exported and the dispatcher clones its value
without error, to a valid value that the field accepts. -/
theorem structLoop_total (self : Dispatch) (tm : TypeMap) (X : Value) (t : Ty)
    (dc : Addr) (fs : List (StructField × Value)) (st0 : State)
    (hok : ∀ j stj f v, structLoop self tm X t dc (fs.take j) 0 st0 = .ok stj →
      fs.get? j = some (f, v) →
      f.PkgPath = "" ∧ ∃ item st1, self v stj tm = .ret item none st1 ∧
        item.isValid = true ∧ assignable item f.Typ = true) :
    ∀ k, k ≤ fs.length → ∃ stk, structLoop self tm X t dc (fs.take k) 0 st0 = .ok stk := by
  intro k
  induction k with
  | zero => intro _; exact ⟨st0, rfl⟩
  | succ k ih =>
    intro hk
    obtain ⟨stk, hstk⟩ := ih (by omega)
    have hlt : k < fs.length := by omega
    obtain ⟨p, hp⟩ : ∃ p, fs.get? k = some p :=
      ⟨fs.get ⟨k, hlt⟩, List.get?_eq_get hlt⟩
    obtain ⟨f, v⟩ := p
    obtain ⟨hexp, item, st1, hcall, hvalid, hacc⟩ := hok k stk f v hstk hp
    rw [take_succ_get? fs k _ hp, structLoop_split, hstk]
    simp only [structLoop, hexp, hcall, hvalid, hacc, ne_eq, not_true_eq_false,
      Bool.not_true, Bool.false_eq_true, ↓reduceIte]
    exact ⟨_, rfl⟩

/-! ## Failure paths -/

theorem sliceLoop_error_nil (self : Dispatch) (tm : TypeMap) (hdr : SliceHdr) (dc : Addr)
    (t : Ty) : ∀ (n i : Nat) (st : State) (v : Value) (e : Option Err) (st' : State),
      sliceLoop self tm hdr dc t n i st = .error (.ret v e st') → v = .nil := by
  intro n
  induction n with
  | zero => intro i st v e st' h; unfold sliceLoop at h; cases h
  | succ n ih =>
    intro i st v e st' h
    unfold sliceLoop at h
    split at h
    · cases h
    · split at h
      · cases h; rfl
      · split at h
        · split at h
          · exact ih _ _ _ _ _ h
          · cases h
        · exact ih _ _ _ _ _ h
      · rename_i o h1 h2
        injection h with h
        cases e with
        | none => exact absurd h (h2 _ _)
        | some e => exact absurd h (h1 _ _ _)

theorem arrayLoop_error_nil (self : Dispatch) (tm : TypeMap) (elems : List Value)
    (t : Ty) (dc : Addr) :
    ∀ (n i : Nat) (st : State) (v : Value) (e : Option Err) (st' : State),
      arrayLoop self tm elems t dc n i st = .error (.ret v e st') → v = .nil := by
  intro n
  induction n with
  | zero => intro i st v e st' h; unfold arrayLoop at h; cases h
  | succ n ih =>
    intro i st v e st' h
    unfold arrayLoop at h
    split at h
    · cases h
    · split at h
      · cases h; rfl
      · split at h
        · cases h
        · split at h
          · cases h
          · exact ih _ _ _ _ _ h
      · rename_i o h1 h2
        injection h with h
        cases e with
        | none => exact absurd h (h2 _ _)
        | some e => exact absurd h (h1 _ _ _)

theorem structLoop_error_nil (self : Dispatch) (tm : TypeMap) (x : Value) (t : Ty)
    (dc : Addr) : ∀ (fs : List (StructField × Value)) (i : Nat) (st : State) (v : Value)
      (e : Option Err) (st' : State),
      structLoop self tm x t dc fs i st = .error (.ret v e st') → v = .nil := by
  intro fs
  induction fs with
  | nil => intro i st v e st' h; unfold structLoop at h; cases h
  | cons fd rest ih =>
    intro i st v e st' h
    obtain ⟨f, fv⟩ := fd
    unfold structLoop at h
    split at h
    · cases h; rfl
    · split at h
      · cases h; rfl
      · split at h
        · cases h
        · split at h
          · cases h
          · exact ih _ _ _ _ _ h
      · rename_i o h1 h2
        injection h with h
        cases e with
        | none => exact absurd h (h2 _ _)
        | some e => exact absurd h (h1 _ _ _)

theorem mapLoop_error_nil (self : Dispatch) (tm : TypeMap) (dc : Addr) (t : Ty) :
    ∀ (es : List (Value × Value)) (st : State) (v : Value) (e : Option Err)
      (st' : State), mapLoop self tm dc t es st = .error (.ret v e st') → v = .nil := by
  intro es
  induction es with
  | nil => intro st v e st' h; unfold mapLoop at h; cases h
  | cons kv rest ih =>
    intro st v e st' h
    obtain ⟨key, val⟩ := kv
    unfold mapLoop at h
    split at h
    · cases h; rfl
    · split at h
      · cases h; rfl
      · split at h
        · cases h
        · split at h
          · cases h
          · split at h
            · exact ih _ _ _ _ h
            · split at h
              · cases h
              · exact ih _ _ _ _ h
      · rename_i o h1 h2
        injection h with h
        cases e with
        | none => exact absurd h (h2 _ _)
        | some e => exact absurd h (h1 _ _ _)
    · rename_i o h1 h2
      injection h with h
      cases e with
      | none => exact absurd h (h2 _ _)
      | some e => exact absurd h (h1 _ _ _)

theorem primitive_error_nil (x : Value) (st : State) (tm : TypeMap) (v : Value)
    (e : Err) (st' : State) (h : _primitive x st tm = .ret v (some e) st') : v = .nil := by
  unfold _primitive at h
  dsimp only at h
  split at h
  · cases h; rfl
  · cases h

theorem slice_error_nil (Z : Ty → Value) (self : Dispatch) (x : Value) (st : State)
    (tm : TypeMap) (v : Value) (e : Err) (st' : State)
    (h : _slice Z self x st tm = .ret v (some e) st') : v = .nil := by
  unfold _slice at h
  split at h
  · cases h
  · dsimp only at h
    split at h
    · rename_i o heq
      subst h
      exact sliceLoop_error_nil _ _ _ _ _ _ _ _ _ _ _ heq
    · cases h
  · cases h; rfl

theorem array_error_nil (Z : Ty → Value) (self : Dispatch) (x : Value) (st : State)
    (tm : TypeMap) (v : Value) (e : Err) (st' : State)
    (h : _array Z self x st tm = .ret v (some e) st') : v = .nil := by
  unfold _array at h
  split at h
  · dsimp only at h
    split at h
    · rename_i o heq
      subst h
      exact arrayLoop_error_nil _ _ _ _ _ _ _ _ _ _ _ heq
    · cases h
  · cases h; rfl

theorem struct_error_nil (Z : Ty → Value) (self : Dispatch) (x : Value) (st : State)
    (tm : TypeMap) (v : Value) (e : Err) (st' : State)
    (h : _struct Z self x st tm = .ret v (some e) st') : v = .nil := by
  unfold _struct at h
  split at h
  · dsimp only at h
    split at h
    · rename_i o heq
      subst h
      exact structLoop_error_nil _ _ _ _ _ _ _ _ _ _ _ heq
    · cases h
  · cases h; rfl

theorem map_error_nil (self : Dispatch) (x : Value) (st : State)
    (tm : TypeMap) (v : Value) (e : Err) (st' : State)
    (h : _map self x st tm = .ret v (some e) st') : v = .nil := by
  unfold _map at h
  split at h
  · cases h
  · split at h
    · cases h
    · dsimp only at h
      split at h
      · rename_i o heq
        subst h
        exact mapLoop_error_nil _ _ _ _ _ _ _ _ _ heq
      · cases h
  · cases h; rfl

theorem pointer_error_nil (Z : Ty → Value) (self : Dispatch) (x : Value) (st : State)
    (tm : TypeMap) (v : Value) (e : Err) (st' : State)
    (h : _pointer Z self x st tm = .ret v (some e) st') : v = .nil := by
  unfold _pointer at h
  split at h
  · cases h
  · split at h
    · cases h
    · split at h
      · dsimp only at h
        split at h
        · cases h; rfl
        · split at h
          · split at h
            · cases h
            · cases h
          · cases h
        · rename_i o h1 h2
          exact absurd h (h1 _ _ _)
      · dsimp only at h
        split at h
        · cases h
        · split at h
          · cases h; rfl
          · split at h
            · split at h
              · cases h
              · cases h
            · cases h
          · rename_i o h1 h2
            exact absurd h (h1 _ _ _)
  · cases h; rfl

/-- A call of the dispatcher that returns an error returns the nil result, unless
the value it is called on has an override: then it returns what the override
returned, result and error. -/
theorem anything_error_nil (Z : Ty → Value) (fuel : Nat) (x : Value) (st : State)
    (tm : TypeMap) (v : Value) (e : Err) (st' : State)
    (h : _anything Z fuel x st tm = .ret v (some e) st') :
    v = .nil ∨ ∃ f, (if tm.length > 0 then tm.lookup x.typeOf else none) = some f ∧
      v = (f x).1 ∧ (f x).2 = some e := by
  cases fuel with
  | zero => cases h
  | succ n =>
    cases hov : (if tm.length > 0 then tm.lookup x.typeOf else none) with
    | some f =>
      rw [anything_override Z n x st tm f hov] at h
      injection h with h1 h2 _
      exact Or.inr ⟨f, rfl, h1.symm, h2⟩
    | none =>
      left
      cases x with
      | nil =>
        rw [anything_nil Z n st tm hov] at h
        cases h
      | basic b t d =>
        rw [anything_basic Z n b t d st tm hov] at h
        cases h
      | handle hd t id =>
        rw [anything_handle Z n hd t id st tm hov] at h
        cases h; rfl
      | array t es =>
        rw [anything_array Z n t es st tm hov] at h
        exact array_error_nil Z _ _ _ _ _ _ _ h
      | struct t fs =>
        rw [anything_struct Z n t fs st tm hov] at h
        exact struct_error_nil Z _ _ _ _ _ _ _ h
      | slice t hdr =>
        rw [anything_slice Z n t hdr st tm hov] at h
        exact slice_error_nil Z _ _ _ _ _ _ _ h
      | map t r =>
        rw [anything_map Z n t r st tm hov] at h
        exact map_error_nil _ _ _ _ _ _ _ h
      | ptr t a =>
        rw [anything_ptr Z n t a st tm hov] at h
        exact pointer_error_nil Z _ _ _ _ _ _ _ h

theorem basic_kind_ne_composite (b : Basic) :
    b.kind ≠ .Map ∧ b.kind ≠ .Slice ∧ b.kind ≠ .Array ∧ b.kind ≠ .Ptr ∧
      b.kind ≠ .Struct := by
  cases b <;> simp [Basic.kind]

theorem handle_kind_ne_composite (h : Handle) :
    h.kind ≠ .Map ∧ h.kind ≠ .Slice ∧ h.kind ≠ .Array ∧ h.kind ≠ .Ptr ∧
      h.kind ≠ .Struct := by
  cases h <;> simp [Handle.kind]

/-! ## Null pointers and the untouched input -/

theorem zeroAs_ptr (Z : Ty → Value) (t : Ty) :
    ∀ u : Ty, u.kind = .Ptr → zeroAs Z t u = .ptr t none := by
  intro u
  induction u with
  | basic b => intro h; exact absurd h (basic_kind_ne_ptr b)
  | array n e _ => intro h; cases h
  | slice e _ => intro h; cases h
  | map k e _ _ => intro h; cases h
  | ptr e _ => intro _; rfl
  | struct n => intro h; cases h
  | iface => intro h; cases h
  | handle hd s => intro h; cases hd <;> cases h
  | named n u ih => intro h; exact ih h

/-- The zero value of a pointer type is its null pointer. -/
theorem zeroValue_ptr (Z : Ty → Value) (t : Ty) (h : t.kind = .Ptr) :
    zeroValue Z t = .ptr t none := zeroAs_ptr Z t t h

theorem deref_lt {h : Heap} {a : Addr} {t : Ty} {x : Value}
    (hd : h.deref a t = some x) : a < h.length := by
  unfold Heap.deref at hd
  split at hd
  · rename_i hget
    rw [List.get?_eq_getElem?] at hget
    exact (List.getElem?_eq_some.mp hget).1
  · cases hd

/-- What is reached from a value in a memory is reached from it in every memory
that extends it. -/
theorem reach_extends {base h : Heap} (hext : Extends base h) {x w : Value}
    (hr : Reach base x w) : Reach h x w := by
  induction hr with
  | here => exact Reach.here _
  | field _ hmem ih => exact Reach.field ih hmem
  | elem _ hmem ih => exact Reach.elem ih hmem
  | @index t hdr i w _ hidx ih =>
    refine @Reach.index h _ t hdr i w ih ?_
    rw [index_extends hext hdr (index_lt hidx) i]
    exact hidx
  | @key t a es k w _ hent hmem ih =>
    refine Reach.key ih ?_ hmem
    rw [entries_congr (hext a (entries_lt hent))]
    exact hent
  | @val t a es k w _ hent hmem ih =>
    refine Reach.val ih ?_ hmem
    rw [entries_congr (hext a (entries_lt hent))]
    exact hent
  | @deref t a w _ hd ih =>
    refine Reach.deref ih ?_
    rw [deref_congr _ (hext a (deref_lt hd))]
    exact hd

/-! ## The slice strategy returns -/

theorem basic_kind_ne_iface (b : Basic) : b.kind ≠ Kind.Interface := by
  cases b <;> simp [Basic.kind]

theorem zeroAs_iface (Z : Ty → Value) (t : Ty) :
    ∀ u : Ty, u.kind = .Interface → zeroAs Z t u = .nil := by
  intro u
  induction u with
  | basic b => intro h; exact absurd h (basic_kind_ne_iface b)
  | array n e _ => intro h; cases h
  | slice e _ => intro h; cases h
  | map k e _ _ => intro h; cases h
  | ptr e _ => intro h; cases h
  | struct n => intro h; cases h
  | iface => intro _; rfl
  | handle hd s => intro h; cases hd <;> cases h
  | named n u ih => intro h; exact ih h

/-- The zero value of an interface type is the untyped nil. -/
theorem zeroValue_iface (Z : Ty → Value) (t : Ty) (h : t.kind = .Interface) :
    zeroValue Z t = .nil := zeroAs_iface Z t t h


/-! ## Overrides -/

theorem lookup_some_length {tm : TypeMap} {o : Option Ty}
    {f : Value → Value × Option Err} (h : tm.lookup o = some f) : tm.length > 0 := by
  cases tm with
  | nil => cases h
  | cons e rest => simp

theorem override_eq {tm : TypeMap} {x : Value} {T : Ty}
    {f : Value → Value × Option Err} (hT : x.typeOf = some T)
    (hf : tm.lookup (some T) = some f) :
    (if tm.length > 0 then tm.lookup x.typeOf else none) = some f := by
  rw [if_pos (lookup_some_length hf), hT, hf]

theorem no_override_eq {tm : TypeMap} {o : Option Ty} (h : tm.lookup o = none) :
    (if tm.length > 0 then tm.lookup o else none) = none := by
  split
  · exact h
  · rfl

/-- What the dispatcher returned, without error, for a value that has an
override is the result of the override. -/
theorem cloned_override (Z : Ty → Value) (n : Nat) (tm : TypeMap) (base fin : Heap)
    (x item : Value) (T : Ty) (f : Value → Value × Option Err)
    (hT : x.typeOf = some T) (hf : tm.lookup (some T) = some f)
    (h : Cloned (_anything Z n) tm base fin x item) : item = (f x).1 := by
  obtain ⟨sa, sb, hcall, _, _⟩ := h
  cases n with
  | zero => cases hcall
  | succ n =>
    rw [anything_override Z n x sa tm f (override_eq hT hf)] at hcall
    injection hcall with h1 _ _
    exact h1.symm

theorem forall₂_get? {α β : Type} {R : α → β → Prop} :
    ∀ (l : List α) (outs : List β) (i : Nat) (x : α), List.Forall₂ R l outs →
      l.get? i = some x → ∃ y, outs.get? i = some y ∧ R x y := by
  intro l
  induction l with
  | nil => intro outs i x _ hx; cases hx
  | cons p l ih =>
    intro outs i x h hx
    cases h with
    | cons hq hrest =>
      cases i with
      | zero =>
        simp only [List.get?] at hx
        cases hx
        exact ⟨_, rfl, hq⟩
      | succ i => exact ih _ i x hrest hx

theorem mapAssign_stores (k v : Value) (cur : List (Value × Value)) :
    ∃ k2, (k2, v) ∈ mapAssign k v cur ∧ (k2 = k ∨ Value.beq k2 k = true) := by
  induction cur with
  | nil => exact ⟨k, by simp [mapAssign], Or.inl rfl⟩
  | cons e rest ih =>
    obtain ⟨k0, v0⟩ := e
    unfold mapAssign
    split
    · rename_i hb
      exact ⟨k0, by simp, Or.inr hb⟩
    · obtain ⟨k2, hm, hk⟩ := ih
      exact ⟨k2, List.mem_cons_of_mem _ hm, hk⟩

theorem mapAssign_keeps (k v k2 v2 : Value) (cur : List (Value × Value))
    (hm : (k2, v2) ∈ cur) (hne : Value.beq k2 k = false) :
    (k2, v2) ∈ mapAssign k v cur := by
  induction cur with
  | nil => cases hm
  | cons e rest ih =>
    obtain ⟨k0, v0⟩ := e
    unfold mapAssign
    rcases List.mem_cons.mp hm with h | h
    · injection h with h1 h2
      subst h1; subst h2
      simp [hne]
    · split
      · exact List.mem_cons_of_mem _ h
      · exact List.mem_cons_of_mem _ (ih h)

theorem mapDelete_keeps (k k2 v2 : Value) (cur : List (Value × Value))
    (hm : (k2, v2) ∈ cur) (hne : Value.beq k2 k = false) :
    (k2, v2) ∈ mapDelete k cur := by
  unfold mapDelete
  exact List.mem_filter.mpr ⟨hm, by simp [hne]⟩

theorem replay_keeps (k2 v2 : Value) :
    ∀ (outs cur : List (Value × Value)), (k2, v2) ∈ cur →
      (∀ q ∈ outs, Value.beq k2 q.1 = false) → (k2, v2) ∈ replay outs cur := by
  intro outs
  induction outs with
  | nil => intro cur hm _; exact hm
  | cons q rest ih =>
    intro cur hm hall
    obtain ⟨k, item⟩ := q
    have hq := hall (k, item) (List.mem_cons_self _ _)
    simp only [replay]
    refine ih _ ?_ (fun q hq => hall q (List.mem_cons_of_mem _ hq))
    split
    · exact mapAssign_keeps _ _ _ _ _ hm hq
    · exact mapDelete_keeps _ _ _ _ hm hq

theorem replay_append :
    ∀ (a b cur : List (Value × Value)), replay (a ++ b) cur = replay b (replay a cur) := by
  intro a
  induction a with
  | nil => intro b cur; rfl
  | cons q rest ih =>
    intro b cur
    obtain ⟨k, item⟩ := q
    simp only [List.cons_append, replay]
    exact ih _ _

/-- The entry stored for a valid item is in the final map, under its key or a key
equal to it, unless a later store has an equal key. -/
theorem replay_stores (opre opost : List (Value × Value)) (k item : Value)
    (hv : item.isValid = true) :
    ∃ k2, (k2 = k ∨ Value.beq k2 k = true) ∧
      ((∀ q ∈ opost, Value.beq k2 q.1 = false) →
        (k2, item) ∈ replay (opre ++ (k, item) :: opost) []) := by
  obtain ⟨k2, hm, hk⟩ := mapAssign_stores k item (replay opre [])
  refine ⟨k2, hk, fun hall => ?_⟩
  rw [replay_append]
  simp only [replay, hv, if_true]
  exact replay_keeps k2 item opost _ hm hall

theorem leading_self (t : Ty) (v : Value) : leading t t v = some v := by
  unfold leading
  simp

/-- The pointer strategy on a pointer, not yet tracked, whose target has a size
and an override: on success the fresh target holds the override's result. -/
theorem pointer_override (Z : Ty → Value) (n : Nat) (tm : TypeMap) (T : Ty)
    (f : Value → Value × Option Err) (x : Value) (hT : x.typeOf = some T)
    (hf : tm.lookup (some T) = some f) (hvalid : (f x).1.isValid = true)
    (t : Ty) (a : Addr) (st : State) (v : Value) (st' : State)
    (htr : st.tracked a = none) (hd : st.heap.deref a t.elem = some x)
    (hsz : st.heap.sizelessAt Z a t.elem = none)
    (h : _pointer Z (_anything Z n) (.ptr t (some a)) st tm = .ret v none st') :
    v = .ptr (.ptr t.elem) (some st.heap.length) ∧
      st'.heap.deref st.heap.length t.elem = some (f x).1 := by
  simp only [_pointer, htr, hsz, deref_append _ hd] at h
  cases n with
  | zero => simp [_anything] at h
  | succ n =>
    rw [anything_override Z n x _ tm f (override_eq hT hf)] at h
    cases hfe : (f x).2 with
    | some e => simp [hfe] at h
    | none =>
      simp only [hfe, hvalid, if_true] at h
      split at h
      · cases h
        refine ⟨rfl, ?_⟩
        simp only [Heap.setVar, Heap.deref, get?_append_length st.heap _ []]
        rw [get?_set_self_of_lt _ _ _ (by simp)]
        exact leading_self _ _
      · cases h

/-- The pointer strategy on a pointer, not yet tracked, to a zero-size variable
that has an override: on success the clone is the pointer to the zero-size
variables, and the override's result is a value the target type accepts. -/
theorem pointer_override_sizeless (Z : Ty → Value) (n : Nat) (tm : TypeMap) (T : Ty)
    (f : Value → Value × Option Err) (x : Value) (hT : x.typeOf = some T)
    (hf : tm.lookup (some T) = some f) (hvalid : (f x).1.isValid = true)
    (t : Ty) (a : Addr) (st : State) (v : Value) (st' : State)
    (htr : st.tracked a = none) (hd : st.heap.deref a t.elem = some x)
    (hsz : st.heap.sizelessAt Z a t.elem ≠ none)
    (h : _pointer Z (_anything Z n) (.ptr t (some a)) st tm = .ret v none st') :
    v = .ptr (.ptr t.elem) (some a) ∧ assignable (f x).1 t.elem = true := by
  cases hs : st.heap.sizelessAt Z a t.elem with
  | none => exact absurd hs hsz
  | some w =>
    have hw := (sizelessAt_some hs).2
    rw [hd] at hw
    have hwx : x = w := by
      rcases hw with hw | hw
      · injection hw
      · cases hw
    subst hwx
    simp only [_pointer, htr, hs] at h
    cases n with
    | zero => simp [_anything] at h
    | succ n =>
      rw [anything_override Z n x _ tm f (override_eq hT hf)] at h
      cases hfe : (f x).2 with
      | some e => simp [hfe] at h
      | none =>
        simp only [hfe, hvalid, if_true] at h
        split at h
        · rename_i hacc
          cases h
          exact ⟨rfl, hacc⟩
        · cases h

/-! ## The tests of the repository, replayed on the model -/

/-- The test `TestErrorFieldNotCopyable`: cloning a `time.Time` returns the nil
result and the error whose message is the one the test expects. -/
theorem test_error_field_not_copyable (Z : Ty → Value) (fuel : Nat)
    (fv fs : Value → String) :
    Anything Z (fuel + 1) aTime [] =
      .ret .nil (some (.unexported (.struct "time.Time") "wall"))
        ⟨[.var (.struct "time.Time") (.struct (.struct "time.Time")
            [(⟨"wall", "time", .basic .Uint64⟩, zeroValue Z (.basic .Uint64)),
             (⟨"ext", "time", .basic .Int64⟩, zeroValue Z (.basic .Int64)),
             (⟨"loc", "time", .ptr (.struct "time.Location")⟩,
                zeroValue Z (.ptr (.struct "time.Location")))])], []⟩ ∧
    (Err.unexported (.struct "time.Time") "wall").message fv fs =
      "can\x27t copy type time.Time cause of field wall" :=
  ⟨rfl, by simp [Err.message, Ty.toString]⟩

/-- The test `TestInterface`: the clone of `[]interface{}{nil}` is a fresh slice of
length 1 whose element is nil. -/
theorem test_interface (Z : Ty → Value) (fuel : Nat) :
    Anything Z (fuel + 2) nilElemSlice nilElemSliceHeap =
      .ret (.slice (.slice .iface) (some ⟨1, 0, 1, 1⟩)) none
        ⟨[.arr .iface [.nil], .arr .iface [.nil]], []⟩ := rfl

set_option maxHeartbeats 4000000 in
/-- The example `ExampleMap`: the clone of the map has the two keys, each with a
pointer to a fresh `Foo` (at 5 and 7) whose `Bar` is the original's, the nested
pointer of `"bar"` being fresh too (at 9). -/
theorem example_map :
    ∃ st, Anything noStructs 6 exampleMap exampleMapHeap =
        .ret (.map (.map tString (.ptr tFoo)) (some 4)) none st ∧
      st.heap.entries 4 = some
        [(.basic .Str tString "foo", .ptr (.ptr tFoo) (some 5)),
         (.basic .Str tString "bar", .ptr (.ptr tFoo) (some 7))] ∧
      st.heap.deref 5 tFoo =
        some (.struct tFoo (fooFields (.ptr (.ptr tFoo) none) (int "1"))) ∧
      st.heap.deref 7 tFoo =
        some (.struct tFoo (fooFields (.ptr (.ptr tFoo) (some 9)) (int "2"))) ∧
      st.heap.deref 9 tFoo =
        some (.struct tFoo (fooFields (.ptr (.ptr tFoo) none) (int "3"))) :=
  ⟨_, rfl, rfl, rfl, rfl, rfl⟩

/-- The clone of `[]interface{}{nil, p}`, with `p` a pointer to the `int` 7, is
deep-equal to the original: a fresh slice whose first element is nil and whose
second element is a pointer to a fresh `int` 7. -/
theorem nilAndPtr_deepEqual :
    ∃ st, Anything noStructs 3 nilAndPtrSlice nilAndPtrHeap =
        .ret (.slice (.slice .iface) (some ⟨2, 0, 2, 2⟩)) none st ∧
      DeepEqual nilAndPtrHeap st.heap nilAndPtrSlice
        (.slice (.slice .iface) (some ⟨2, 0, 2, 2⟩)) := by
  refine ⟨_, rfl, ?_⟩
  refine DeepEqual.slice _ _ _ rfl ?_ ?_
  · intro i hi
    have hi1 : i < 2 := hi
    have hi2 : i = 0 ∨ i = 1 := by omega
    rcases hi2 with rfl | rfl
    · exact ⟨rfl, rfl⟩
    · exact ⟨rfl, rfl⟩
  · intro i x y hi hx hy
    have hi1 : i < 2 := hi
    have hi2 : i = 0 ∨ i = 1 := by omega
    rcases hi2 with rfl | rfl
    · have e1 : Heap.index nilAndPtrHeap ⟨1, 0, 2, 2⟩ 0 = some .nil := rfl
      rw [e1] at hx
      cases hx
      injection hy with hy
      rw [← hy]
      exact DeepEqual.nil
    · have e1 : Heap.index nilAndPtrHeap ⟨1, 0, 2, 2⟩ 1 = some sharedPtr := rfl
      rw [e1] at hx
      cases hx
      injection hy with hy
      rw [← hy]
      exact DeepEqual.ptr (.ptr tInt) 0 3 (int "7") (int "7") rfl rfl
        (DeepEqual.basic .Int tInt "7" "7" rfl)

/-! ## The claims -/

/-- C1: `Anything` does not return a deep-equal clone for every supported value:
on the record `struct{ A interface{} }{A: nil}`, whose only field is exported and
of dynamic type, the call aborts with the panic of `reflect.Value.Set` on the zero
`reflect.Value`, whatever the recursion bound and the declared zero values. -/
theorem c1_nil_interface_field_panics (Z : Ty → Value) (fuel : Nat) :
    Anything Z (fuel + 2) nilFieldRecord [] =
      .panic "reflect: call of reflect.Value.Set on zero Value" := rfl

/-- C3: a shared reference is lost on `[]interface{}{p, map[*int]interface{}{p: nil}}`,
where `p` is held by element 0 and by the key of the map's one entry: the call
succeeds, element 0 of the clone is the clone of `p` (address 4), but the cloned
map (address 5) has no entry at all, so no slot of the clone corresponds to the
key slot that held `p`. -/
theorem c3_shared_key_dropped (Z : Ty → Value) (fuel : Nat) :
    ∃ st, Anything Z (fuel + 3) sharedKeySlice sharedKeyHeap =
        .ret (.slice (.slice .iface) (some ⟨3, 0, 2, 2⟩)) none st ∧
      st.heap.index ⟨3, 0, 2, 2⟩ 0 = some (.ptr (.ptr tInt) (some 4)) ∧
      st.heap.index ⟨3, 0, 2, 2⟩ 1 = some (.map (.map (.ptr tInt) .iface) (some 5)) ∧
      st.heap.entries 5 = some [] ∧
      sharedKeyHeap.index ⟨2, 0, 2, 2⟩ 0 = some sharedPtr ∧
      sharedKeyHeap.entries 1 = some [(sharedPtr, .nil)] :=
  ⟨_, rfl, rfl, rfl, rfl, rfl, rfl⟩

/-- The dispatcher never returns on the self-containing slice, in any state whose
memory holds the slice's backing array at address 0. -/
theorem selfSlice_diverges (Z : Ty → Value) (fuel : Nat) (rest : Heap)
    (ptrs : List (Addr × Value)) :
    _anything Z fuel selfSlice ⟨.arr .iface [selfSlice] :: rest, ptrs⟩ [] = .diverge := by
  induction fuel generalizing rest ptrs with
  | zero => rfl
  | succ n ih =>
    have step := ih (rest ++ [Cell.arr Ty.iface [zeroValue Z Ty.iface]]) ptrs
    simp only [_anything, selfSlice, Value.typeOf, Value.isValid, Value.kind, copiers,
      _slice, sliceLoop, Heap.index, Ty.elem, List.replicate, List.cons_append] at step ⊢
    simp [step]

/-- C5: `Anything` does not terminate on every finite value graph: on the slice
`s` with `s[0] = s` (a cycle through a slice, with no pointer in it) the recursion
exceeds every bound, so the call returns neither a result nor an error. -/
theorem c5_cyclic_slice_never_returns (Z : Ty → Value) (fuel : Nat) :
    Anything Z fuel selfSlice selfSliceHeap = .diverge :=
  selfSlice_diverges Z fuel [] []

/-- C7: cloning a record that has an unexported field does not always return an
error: on `struct{ A interface{}; b int }{A: nil, b: 1}` the exported field `A`
clones to the untyped nil without error, and storing it panics before the
unexported field `b` is reached. -/
theorem c7_hidden_field_panics (Z : Ty → Value) (fuel : Nat) :
    Anything Z (fuel + 2) hiddenFieldRecord [] =
      .panic "reflect: call of reflect.Value.Set on zero Value" := rfl

/-- C9: the map strategy loses entries: the clone of
`map[string]interface{}{"a": nil}` is returned without error and is a present map
of the same type, at the fresh address 1, that has no entry. -/
theorem c9_nil_valued_entry_dropped (Z : Ty → Value) (fuel : Nat) :
    Anything Z (fuel + 2) nilValuedMap nilValuedMapHeap =
      .ret (.map (.map tString .iface) (some 1)) none
        ⟨[.map [(.basic .Str tString "a", .nil)], .map []], []⟩ := rfl

/-- C6: unsupported shapes fail cleanly.  Whenever the traversal of `x` reaches a
function, a channel or an unsafe pointer (`x` itself, or a value held at any
depth by a slice, array, map, struct or pointer, once the children before it are
cloned), `Anything` returns the nil result together with an error: it neither
succeeds nor panics nor runs on. -/
theorem c6_unsupported_fails_cleanly (Z : Ty → Value) (fuel : Nat) (x : Value)
    (heap : Heap) (h : Hits Z fuel x { heap := heap, ptrs := [] }) :
    ∃ e st, Anything Z fuel x heap = .ret .nil (some e) st :=
  hits_fails Z fuel x _ h

/-- C6 at `[]interface{}{func() {}}`, the slice of `TestUnsupportedKind`. -/
theorem c6_unsupported_fails_cleanly_witness :
    Hits noStructs 2 funcSlice { heap := funcSliceHeap, ptrs := [] } ∧
    ∃ e st, Anything noStructs 2 funcSlice funcSliceHeap = .ret .nil (some e) st :=
  ⟨Hits.slice 1 (.slice .iface) ⟨0, 0, 1, 1⟩ 0 funcValue _ _ (by decide) rfl rfl
      (Hits.here 0 _ _ _ _),
    c6_unsupported_fails_cleanly noStructs 2 funcSlice funcSliceHeap
      (Hits.slice 1 (.slice .iface) ⟨0, 0, 1, 1⟩ 0 funcValue _ _ (by decide) rfl rfl
        (Hits.here 0 _ _ _ _))⟩

/-- C10: absence round-trips as absence.  For every memory and recursion bound:
an absent slice and an absent map are returned as they are, without error; an
empty-but-present slice or map is returned as a fresh empty-but-present one of
the same type; whenever `Anything` returns a clone `v` of a value `s` without
error, `v` stands to `s` in `RoundTrip` (for a slice or map `s`: `v` is the absent
value of the type of `s` if `s` is absent, and a present one of that type, of the
same length, and empty if `s` is an empty map, if `s` is present); and whenever
it returns a clone of a record, the clone is a record of the same type whose
fields, in order, have the declarations of the original's and stand to the
original's values in `RoundTrip`. -/
theorem c10_absence_round_trips (Z : Ty → Value) (fuel : Nat) (heap : Heap) :
    (∀ t, Anything Z (fuel + 1) (.slice t none) heap =
      .ret (.slice t none) none ⟨heap, []⟩) ∧
    (∀ t, Anything Z (fuel + 1) (.map t none) heap =
      .ret (.map t none) none ⟨heap, []⟩) ∧
    (∀ t hdr, hdr.len = 0 → Anything Z (fuel + 1) (.slice t (some hdr)) heap =
      .ret (.slice t (some ⟨heap.length, 0, 0, 0⟩)) none
        ⟨heap ++ [.arr t.elem []], []⟩) ∧
    (∀ t a, heap.entries a = some [] → Anything Z (fuel + 1) (.map t (some a)) heap =
      .ret (.map t (some heap.length)) none ⟨heap ++ [.map []], []⟩) ∧
    (∀ s v st, Anything Z fuel s heap = .ret v none st → RoundTrip heap st.heap s v) ∧
    (∀ T fields v st, Anything Z fuel (.struct T fields) heap = .ret v none st →
      ∃ items, v = .struct T items ∧
        List.Forall₂ (fun p q => q.1 = p.1 ∧ RoundTrip heap st.heap p.2 q.2)
          fields items) := by
  refine ⟨fun t => rfl, fun t => rfl, ?_, ?_, ?_, ?_⟩
  · intro t hdr hlen
    unfold Anything
    rw [anything_slice Z fuel t (some hdr) _ [] rfl]
    simp only [_slice, hlen, sliceLoop, List.replicate]
  · intro t a hes
    unfold Anything
    rw [anything_map Z fuel t (some a) _ [] rfl]
    simp only [_map, hes, mapLoop]
  · intro s v st h
    exact cloned_roundTrip Z fuel heap st.heap s v
      ⟨⟨heap, []⟩, st, h, fun _ _ => rfl, fun _ _ _ => rfl⟩
  · intro T fields v st h
    cases fuel with
    | zero => cases h
    | succ n =>
      unfold Anything at h
      rw [anything_struct Z n T fields _ [] rfl] at h
      obtain ⟨items, hv, hall⟩ := struct_spec Z _ (anything_framed Z n) [] T fields _ v st h
      refine ⟨items, hv, hall.imp ?_⟩
      intro p q hpq
      exact ⟨hpq.1, cloned_roundTrip Z n heap st.heap p.2 q.2 hpq.2.2.2.2⟩

/-- C10 at the record of `TestStructWithNilSliceAndMAp`, whose slice and map
fields are absent: so are the fields of its clone. -/
theorem c10_absence_round_trips_witness :
    Anything noStructs 2 nilSliceAndMap [] =
      .ret nilSliceAndMap none ⟨[.var (.struct "deepcopy.TestNilSliceAndMap") nilSliceAndMap], []⟩ ∧
    ∃ items, nilSliceAndMap = .struct (.struct "deepcopy.TestNilSliceAndMap") items ∧
      List.Forall₂ (fun p q => q.1 = p.1 ∧
        RoundTrip [] [.var (.struct "deepcopy.TestNilSliceAndMap") nilSliceAndMap] p.2 q.2)
        [(⟨"Slice", "", .slice tInt⟩, .slice (.slice tInt) none),
         (⟨"Map", "", .map tInt tInt⟩, .map (.map tInt tInt) none)] items :=
  ⟨rfl, (c10_absence_round_trips noStructs 2 []).2.2.2.2.2
    (.struct "deepcopy.TestNilSliceAndMap")
    [(⟨"Slice", "", .slice tInt⟩, .slice (.slice tInt) none),
     (⟨"Map", "", .map tInt tInt⟩, .map (.map tInt tInt) none)]
    nilSliceAndMap ⟨[.var (.struct "deepcopy.TestNilSliceAndMap") nilSliceAndMap], []⟩ rfl⟩

/-- C11: the record strategy does not clone every record of exported fields: on
`struct{ P *int; A interface{} }{P: nil, A: nil}`, in any state and with any
deeper recursion bound, it stores the null pointer for `P` and then panics on
the field `A`, whose clone is the untyped nil. -/
theorem c11_record_nil_interface_field_panics (Z : Ty → Value) (fuel : Nat)
    (st : State) :
    _struct Z (_anything Z (fuel + 1)) nilPtrAndIfaceRecord st [] =
      .panic "reflect: call of reflect.Value.Set on zero Value" := rfl

/-- C18: the array strategy is not the slice strategy on elements that hold the
untyped nil: `Anything` panics on `[1]interface{}{nil}` and returns the clone of
`[]interface{}{nil}`. -/
theorem c18_array_panics_where_slice_succeeds (Z : Ty → Value) (fuel : Nat) :
    Anything Z (fuel + 2) nilElemArray [] =
      .panic "reflect: call of reflect.Value.Set on zero Value" ∧
    Anything Z (fuel + 2) nilElemSlice nilElemSliceHeap =
      .ret (.slice (.slice .iface) (some ⟨1, 0, 1, 1⟩)) none
        ⟨[.arr .iface [.nil], .arr .iface [.nil]], []⟩ :=
  ⟨rfl, rfl⟩

/-- C19: the error for a key that fails to clone does not name the key: on
`map[K]int{K{n: 5}: 1}` the map strategy annotates the key's error with the
failed clone, which is the untyped nil, where the error for a value that fails
to clone carries the entry's original key. -/
theorem c19_key_error_names_nil (Z : Ty → Value) (fuel : Nat) (fv fs : Value → String) :
    (∃ st, Anything Z (fuel + 2) hiddenKeyMap hiddenKeyMapHeap =
      .ret .nil (some (.mapKey .nil (.unexported tKey "n"))) st) ∧
    (Err.mapKey .nil (.unexported tKey "n")).message fv fs =
      "failed to clone the map key " ++ fv .nil ++ ": " ++
        "can\x27t copy type main.K cause of field n" :=
  ⟨⟨_, rfl⟩, by simp [Err.message, Ty.toString, tKey]⟩

/-- C20: the pointer strategy does not preserve the pointer type when the tracker
holds the address under another type: called on the `*int` pointer `&x.A` in a
state whose tracker maps the address of `x` to the clone of the `*T` pointer `x`,
it returns that `*T` clone; and through `Anything`, the clone of
`[]interface{}{x, &x.A}` holds the same `*T` pointer in both elements. -/
theorem c20_pointer_type_not_preserved (Z : Ty → Value) (fuel : Nat) (self : Dispatch)
    (heap : Heap) :
    _pointer Z self (.ptr (.ptr tInt) (some 0))
        ⟨heap, [(0, .ptr (.ptr tRec) (some 3))]⟩ [] =
      .ret (.ptr (.ptr tRec) (some 3)) none ⟨heap, [(0, .ptr (.ptr tRec) (some 3))]⟩ ∧
    ∃ st, Anything Z (fuel + 4) aliasSlice aliasHeap =
        .ret (.slice (.slice .iface) (some ⟨2, 0, 2, 2⟩)) none st ∧
      st.heap.index ⟨2, 0, 2, 2⟩ 0 = some (.ptr (.ptr tRec) (some 3)) ∧
      st.heap.index ⟨2, 0, 2, 2⟩ 1 = some (.ptr (.ptr tRec) (some 3)) ∧
      aliasHeap.index ⟨1, 0, 2, 2⟩ 1 = some (.ptr (.ptr tInt) (some 0)) :=
  ⟨rfl, _, rfl, rfl, rfl, rfl⟩

/-- C12, as stated, fails for a table with an entry under the nil type: with
`TypeMap{nil: func(...) { return 7, nil }}` cloning the untyped nil invokes the
override and returns `7`. -/
theorem c12_counterexample :
    AnythingWithCustomTypes noStructs 1 .nil nilTypeOverride [] =
      .ret (int "7") none ⟨[], []⟩ ∧ int "7" ≠ Value.nil :=
  ⟨rfl, fun h => by cases h⟩

/-- C12, amended: the absent sentinel is returned unchanged.  `Anything` returns
the untyped nil for the untyped nil, without error and in an unchanged state; so
does `AnythingWithCustomTypes` for every override table that has no entry under
the nil type, whatever its entries do; a table that has an entry `f` under the
nil type gets it invoked, and the call returns what `f` returns. -/
theorem c12_untyped_nil_unchanged (Z : Ty → Value) (fuel : Nat) (heap : Heap) :
    Anything Z (fuel + 1) .nil heap = .ret .nil none ⟨heap, []⟩ ∧
    (∀ tm : TypeMap, tm.lookup none = none →
      AnythingWithCustomTypes Z (fuel + 1) .nil tm heap = .ret .nil none ⟨heap, []⟩) ∧
    (∀ (tm : TypeMap) (f : Value → Value × Option Err), tm.lookup none = some f →
      AnythingWithCustomTypes Z (fuel + 1) .nil tm heap =
        .ret (f .nil).1 (f .nil).2 ⟨heap, []⟩) := by
  refine ⟨rfl, ?_, ?_⟩
  · intro tm hno
    exact anything_nil Z fuel _ tm (no_override_eq hno)
  · intro tm f hf
    exact anything_override Z fuel .nil _ tm f
      (by rw [if_pos (lookup_some_length hf)]; exact hf)

/-- C12 at the table `{int: func(...) { return 7, nil }}`, which has no entry
under the nil type. -/
theorem c12_untyped_nil_unchanged_witness :
    sevenOverride.lookup none = none ∧
    AnythingWithCustomTypes noStructs 1 .nil sevenOverride [] =
      .ret .nil none ⟨[], []⟩ :=
  ⟨rfl, (c12_untyped_nil_unchanged noStructs 0 []).2.1 sevenOverride rfl⟩

/-- C14, as stated, fails when the input itself has an override that returns a
result together with an error: with `{int: func(...) { return 7, errors.New("boom") }}`
the call on `1` returns the error and the non-nil result `7`. -/
theorem c14_counterexample :
    AnythingWithCustomTypes noStructs 1 (int "1") failingOverride [] =
      .ret (int "7") (some (.other "boom")) ⟨[], []⟩ ∧ int "7" ≠ Value.nil :=
  ⟨rfl, fun h => by cases h⟩

/-- C14, amended: no partial success.  Whenever `Anything` returns an error, the
result it returns is nil; whenever `AnythingWithCustomTypes` returns an error,
the result it returns is nil, unless the table has an override for the type of
the input value itself: then result and error are what that override
returned. -/
theorem c14_no_partial_result (Z : Ty → Value) (fuel : Nat) (x : Value) (heap : Heap)
    (v : Value) (e : Err) (st : State) :
    (Anything Z fuel x heap = .ret v (some e) st → v = .nil) ∧
    (∀ tm : TypeMap, AnythingWithCustomTypes Z fuel x tm heap = .ret v (some e) st →
      v = .nil ∨ ∃ f, tm.lookup x.typeOf = some f ∧ v = (f x).1 ∧ (f x).2 = some e) := by
  constructor
  · intro h
    rcases anything_error_nil Z fuel x _ [] v e st h with h1 | ⟨f, hf, _, _⟩
    · exact h1
    · cases hf
  · intro tm h
    rcases anything_error_nil Z fuel x _ tm v e st h with h1 | ⟨f, hf, h2, h3⟩
    · exact Or.inl h1
    · refine Or.inr ⟨f, ?_, h2, h3⟩
      split at hf
      · exact hf
      · cases hf

/-- C14 at the function value of `TestUnsupportedKind`: the call returns an error,
and the nil result. -/
theorem c14_no_partial_result_witness :
    Anything noStructs 1 funcValue [] =
      .ret .nil (some (.unsupported funcValue (some (.handle .Func "func()")) .Func))
        ⟨[], []⟩ ∧ Value.nil = Value.nil :=
  ⟨rfl, (c14_no_partial_result noStructs 1 funcValue [] .nil
    (.unsupported funcValue (some (.handle .Func "func()")) .Func) ⟨[], []⟩).1 rfl⟩

/-- C15: shape mismatch is rejected.  Every strategy `c` that the dispatch table
registers under a kind `K`, called directly on a map, slice, array, pointer or
struct `v` whose kind is not `K`, returns the nil result and an error, in an
unchanged state, whatever dispatcher, tracker and override table it is given;
for the kinds of the leaf strategy this says that it never returns a composite
value. -/
theorem c15_shape_mismatch_rejected (Z : Ty → Value) (K : Kind) (c : copier)
    (self : Dispatch) (v : Value) (st : State) (tm : TypeMap)
    (hc : copiers Z K = some c)
    (hv : v.kind = .Map ∨ v.kind = .Slice ∨ v.kind = .Array ∨ v.kind = .Ptr ∨
      v.kind = .Struct)
    (hne : v.kind ≠ K) :
    ∃ e, c self v st tm = .ret .nil (some e) st := by
  cases v <;> simp [Value.kind, basic_kind_ne_composite, handle_kind_ne_composite] at hv <;>
    cases K <;> simp [Value.kind] at hne <;> simp [copiers] at hc <;> subst hc <;>
    exact ⟨_, rfl⟩

/-- C15 at the first case of `TestMismatchedTypesFail`: the slice strategy called
on a map. -/
theorem c15_shape_mismatch_rejected_witness :
    copiers noStructs .Slice = some (_slice noStructs) ∧
    (Value.map (.map tInt tInt) (some 0)).kind ≠ .Slice ∧
    ∃ e, _slice noStructs (_anything noStructs 0) (.map (.map tInt tInt) (some 0))
      ⟨[], []⟩ [] = .ret .nil (some e) ⟨[], []⟩ :=
  ⟨rfl, by decide,
    c15_shape_mismatch_rejected noStructs .Slice (_slice noStructs)
      (_anything noStructs 0) (.map (.map tInt tInt) (some 0)) ⟨[], []⟩ [] rfl
      (Or.inl rfl) (by decide)⟩

/-- C16: null indirection round-trips as null.  For every pointer type `t`: the
dispatcher, in any state and with any table that has no override for `t`,
returns for the null pointer of type `t` the null pointer of type `t`, without
error and in an unchanged state, so with no new entry in the tracker; so does
`Anything` at top level; and whenever `Anything` returns the clone of a record
one of whose fields holds the null pointer of type `t`, that field of the clone
holds the null pointer of type `t`. -/
theorem c16_null_pointer_round_trips (Z : Ty → Value) (t : Ty) (ht : t.kind = .Ptr) :
    (∀ fuel (tm : TypeMap) st, tm.lookup (some t) = none →
      _anything Z (fuel + 1) (.ptr t none) st tm = .ret (.ptr t none) none st) ∧
    (∀ fuel heap,
      Anything Z (fuel + 1) (.ptr t none) heap = .ret (.ptr t none) none ⟨heap, []⟩) ∧
    (∀ fuel heap T fields i f v st, fields.get? i = some (f, .ptr t none) →
      Anything Z fuel (.struct T fields) heap = .ret v none st →
      ∃ items, v = .struct T items ∧ items.get? i = some (f, .ptr t none)) := by
  have hcall : ∀ fuel (tm : TypeMap) st, tm.lookup (some t) = none →
      _anything Z (fuel + 1) (.ptr t none) st tm = .ret (.ptr t none) none st := by
    intro fuel tm st hno
    rw [anything_ptr Z fuel t none st tm (no_override_eq hno)]
    simp only [_pointer, zeroValue_ptr Z t ht]
  refine ⟨hcall, fun fuel heap => hcall fuel [] _ rfl, ?_⟩
  intro fuel heap T fields i f v st hget h
  cases fuel with
  | zero => cases h
  | succ n =>
    unfold Anything at h
    rw [anything_struct Z n T fields _ [] rfl] at h
    obtain ⟨items, hv, hall⟩ := struct_spec Z _ (anything_framed Z n) [] T fields _ v st h
    refine ⟨items, hv, ?_⟩
    obtain ⟨q, hq, hr⟩ := forall₂_get? fields items i _ hall hget
    obtain ⟨qf, qv⟩ := q
    obtain ⟨h1, _, _, _, sa, sb, hc, _, _⟩ := hr
    simp only at h1 hc
    cases n with
    | zero => cases hc
    | succ m =>
      rw [hcall m [] sa rfl] at hc
      injection hc with h2 _ _
      subst h1
      subst h2
      exact hq

/-- C16 at a record of two null pointer fields, as in `TestTwoNils`. -/
theorem c16_null_pointer_round_trips_witness :
    (Ty.ptr tFoo).kind = .Ptr ∧
    Anything noStructs 2 (.struct tFoo (fooFields (.ptr (.ptr tFoo) none) (int "4"))) [] =
      .ret (.struct tFoo (fooFields (.ptr (.ptr tFoo) none) (int "4"))) none
        ⟨[.var tFoo (.struct tFoo (fooFields (.ptr (.ptr tFoo) none) (int "4")))], []⟩ ∧
    ∃ items, Value.struct tFoo (fooFields (.ptr (.ptr tFoo) none) (int "4")) =
        .struct tFoo items ∧
      items.get? 0 = some (⟨"Foo", "", .ptr tFoo⟩, .ptr (.ptr tFoo) none) :=
  ⟨rfl, rfl,
    (c16_null_pointer_round_trips noStructs (.ptr tFoo) rfl).2.2 2 [] tFoo
      (fooFields (.ptr (.ptr tFoo) none) (int "4")) 0 ⟨"Foo", "", .ptr tFoo⟩
      (.struct tFoo (fooFields (.ptr (.ptr tFoo) none) (int "4")))
      ⟨[.var tFoo (.struct tFoo (fooFields (.ptr (.ptr tFoo) none) (int "4")))], []⟩
      rfl rfl⟩

/-- C17: the clone operation does not modify its input.  Whenever `Anything`
returns, with a clone or with an error, every cell of the memory it was called
in is in the final memory as it was, no cell was released, and every value
reached from the input before the call is reached from it, the same way, after
the call: all the writes of the call went to cells it allocated. -/
theorem c17_input_not_modified (Z : Ty → Value) (fuel : Nat) (x : Value) (heap : Heap)
    (v : Value) (e : Option Err) (st : State)
    (h : Anything Z fuel x heap = .ret v e st) :
    (∀ a, a < heap.length → st.heap.get? a = heap.get? a) ∧
    heap.length ≤ st.heap.length ∧
    (∀ w, Reach heap x w → Reach st.heap x w) := by
  have hk := anything_framed Z fuel x ⟨heap, []⟩ []
  unfold Anything at h
  rw [h] at hk
  have hext : Extends heap st.heap := fun a ha => keep_get hk ha
  exact ⟨hext, hk.2.1, fun w hw => reach_extends hext hw⟩

/-- C17 at the slice `[]interface{}{func() {}}`, whose clone fails: the backing
array of the input is as it was. -/
theorem c17_input_not_modified_witness :
    Anything noStructs 2 funcSlice funcSliceHeap =
      .ret .nil (some (.sliceItem 0
          (.unsupported funcValue (some (.handle .Func "func()")) .Func)))
        ⟨[.arr .iface [funcValue], .arr .iface [.nil]], []⟩ ∧
    ((∀ a, a < funcSliceHeap.length →
        List.get? [Cell.arr .iface [funcValue], .arr .iface [.nil]] a =
          funcSliceHeap.get? a) ∧
      funcSliceHeap.length ≤ 2 ∧
      (∀ w, Reach funcSliceHeap funcSlice w →
        Reach [Cell.arr .iface [funcValue], .arr .iface [.nil]] funcSlice w)) :=
  ⟨rfl, c17_input_not_modified noStructs 2 funcSlice funcSliceHeap .nil
    (some (.sliceItem 0 (.unsupported funcValue (some (.handle .Func "func()")) .Func)))
    ⟨[.arr .iface [funcValue], .arr .iface [.nil]], []⟩ rfl⟩

/-- C2, as stated, fails for a pointer to a zero-size variable: the Go runtime
gives all zero-size variables one address, so the clone of `x := &struct{}{}` is
the pointer `x` itself; it refers to no slot allocated during the call and is not
distinct from the original pointer. -/
theorem c2_counterexample :
    (∃ st, Anything noStructs 3 emptyPtr emptyPtrHeap =
      .ret (.ptr (.ptr tEmpty) (some 0)) none st) ∧
    emptyPtr = .ptr (.ptr tEmpty) (some 0) ∧
    ¬ (emptyPtrHeap.length ≤ 0) :=
  ⟨⟨_, rfl⟩, rfl, by decide⟩

/-- C2, amended: when `Anything` (no override table) returns a clone `v` without
error, every non-null pointer reached from `v` in the final memory, at any depth
(through records, arrays, slices, maps and pointers), that does not point to a
zero-size variable of the original memory, refers to a cell allocated during the
call: its address is at least the size of the memory the call started with and
below the size of the final memory, hence distinct from every address `b` of the
original memory.  The declared zero values `Z` of struct types hold no
address. -/
theorem c2_clone_pointers_fresh (Z : Ty → Value)
    (hZ : ∀ t, (Z t).addrs = []) (fuel : Nat) (x : Value) (heap : Heap) (v : Value)
    (st : State) (h : Anything Z fuel x heap = .ret v none st)
    (t : Ty) (a : Addr) (hw : Reach st.heap v (.ptr t (some a)))
    (hsz : heap.sizelessAt Z a t.elem = none) :
    heap.length ≤ a ∧ a < st.heap.length ∧ ∀ b, b < heap.length → a ≠ b := by
  obtain ⟨hI, hv⟩ := anything_fresh Z hZ heap fuel x _ v st (freshInv_init Z heap) h
  have := reach_within hI hv hw a (by simp [Value.held, hsz])
  exact ⟨this.1, this.2, fun b hb => Nat.ne_of_gt (lt_of_lt_of_le hb this.1)⟩

/-- C2 at the self-referential `Foo` of the tests: the clone, which is also the
pointer stored in its field `Foo`, refers to cell 1, allocated by the call. -/
theorem c2_clone_pointers_fresh_witness :
    (∀ t, (noStructs t).addrs = []) ∧
    (∃ st, Anything noStructs 5 selfFoo selfFooHeap = .ret (.ptr (.ptr tFoo) (some 1)) none st ∧
      Reach st.heap (.ptr (.ptr tFoo) (some 1)) (.ptr (.ptr tFoo) (some 1))) ∧
    selfFooHeap.sizelessAt noStructs 1 (Ty.ptr tFoo).elem = none ∧
    (selfFooHeap.length ≤ 1 ∧ 1 < 3 ∧ ∀ b, b < selfFooHeap.length → 1 ≠ b) :=
  ⟨fun _ => rfl, ⟨_, rfl, Reach.here _⟩, rfl,
    c2_clone_pointers_fresh noStructs (fun _ => rfl) 5 selfFoo selfFooHeap
      (.ptr (.ptr tFoo) (some 1))
      ⟨[.var tFoo (.struct tFoo (fooFields selfFoo (int "4"))),
        .var tFoo (.struct tFoo (fooFields (.ptr (.ptr tFoo) (some 1)) (int "4"))),
        .var tFoo (.struct tFoo (fooFields (.ptr (.ptr tFoo) (some 1)) (int "4")))],
       [(0, .ptr (.ptr tFoo) (some 1))]⟩
      rfl (.ptr tFoo) 1 (Reach.here _) rfl⟩

/-- C4, as stated, fails on a self-referential record that has a field the clone
operation does not support.  For `x := &T{n: 4}; x.Self = x` with
`type T struct { Self *T; n int }`, whose field `n` is unexported, the call
returns the nil result and an error instead of a clone; and so it does for
`x := &U{F: func() {}}; x.Self = x` with `type U struct { Self *U; F func() }`,
whose field `F` holds a function. -/
theorem c4_counterexample :
    Anything noStructs 5 selfHidden selfHiddenHeap =
      .ret .nil (some (.pointee selfHidden (.unexported tHidden "n")))
        ⟨[.var tHidden (.struct tHidden
            [(⟨"Self", "", .ptr tHidden⟩, selfHidden), (⟨"n", "main", tInt⟩, int "4")]),
          .var tHidden (noStructs tHidden),
          .var tHidden (.struct tHidden
            [(⟨"Self", "", .ptr tHidden⟩, .ptr (.ptr tHidden) (some 1)),
             (⟨"n", "main", tInt⟩, int "0")])],
         [(0, .ptr (.ptr tHidden) (some 1))]⟩ ∧
    ∃ st, Anything noStructs 5 selfFn selfFnHeap =
      .ret .nil (some (.pointee selfFn (.field "F"
        (.struct tFn [(⟨"Self", "", .ptr tFn⟩, selfFn),
          (⟨"F", "", .handle .Func "func()"⟩, funcValue)])
        (.unsupported funcValue (some (.handle .Func "func()")) .Func)))) st :=
  ⟨rfl, _, rfl⟩

/-- C4, amended: cycle safety.  Let `x` be a pointer (to the address `a`) to a
record one of whose fields holds `x` itself, all of whose fields are exported,
the fields that hold `x` being of a type that accepts a pointer to the record,
and whose other fields all clone without error: each time the loop of the record
strategy has cloned and stored the fields before such a field, the dispatcher,
called on its value in the state the loop has reached, returns without error a
valid value that the field accepts.  Then `Anything(x)` returns without error the
pointer `y` to a cell allocated by the call, so `y != x`; the record `y` points
to has the fields of the original, in order; a field that held `x` holds `y` (the
self-reference of the clone points at the clone); every other field holds the
clone the dispatcher returned for its value in the state the loop had reached,
which for a scalar is the scalar itself; the original memory is as it was. -/
theorem c4_self_reference_points_at_clone (Z : Ty → Value) (fuel : Nat) (heap : Heap)
    (a : Addr) (T t : Ty) (fields : List (StructField × Value))
    (hT : T.elem = t)
    (hcell : heap.get? a = some (.var t (.struct t fields)))
    (hself : ∃ i f, fields.get? i = some (f, .ptr T (some a)))
    (hexp : ∀ p ∈ fields, p.1.PkgPath = "")
    (hacc : ∀ p ∈ fields, p.2 = .ptr T (some a) →
      assignable (.ptr (.ptr t) (some heap.length)) p.1.Typ = true)
    (hok : ∀ j stj f v,
      structLoop (_anything Z (fuel + 1)) [] (.struct t fields) t (heap.length + 1)
        (fields.take j) 0
        ⟨heap ++ [.var t (zeroValue Z t)] ++
            [.var t (.struct t (fields.map (fun p => (p.1, zeroValue Z p.1.Typ))))],
          [(a, .ptr (.ptr t) (some heap.length))]⟩ = .ok stj →
      fields.get? j = some (f, v) → v ≠ .ptr T (some a) →
      ∃ item st1, _anything Z (fuel + 1) v stj [] = .ret item none st1 ∧
        item.isValid = true ∧ assignable item f.Typ = true) :
    ∃ st items, Anything Z (fuel + 3) (.ptr T (some a)) heap =
        .ret (.ptr (.ptr t) (some heap.length)) none st ∧
      heap.length ≠ a ∧
      st.heap.deref heap.length t = some (.struct t items) ∧
      items.map Prod.fst = fields.map Prod.fst ∧
      (∀ j f, fields.get? j = some (f, .ptr T (some a)) →
        items.get? j = some (f, .ptr (.ptr t) (some heap.length))) ∧
      (∀ j f v, fields.get? j = some (f, v) → v ≠ .ptr T (some a) →
        ∃ stj item st1,
          structLoop (_anything Z (fuel + 1)) [] (.struct t fields) t (heap.length + 1)
            (fields.take j) 0
            ⟨heap ++ [.var t (zeroValue Z t)] ++
                [.var t (.struct t (fields.map (fun p => (p.1, zeroValue Z p.1.Typ))))],
              [(a, .ptr (.ptr t) (some heap.length))]⟩ = .ok stj ∧
          _anything Z (fuel + 1) v stj [] = .ret item none st1 ∧
          items.get? j = some (f, item)) ∧
      (∀ j f b ty d, fields.get? j = some (f, .basic b ty d) →
        items.get? j = some (f, .basic b ty d)) ∧
      ∀ i, i < heap.length → st.heap.get? i = heap.get? i := by
  subst hT
  have hfr := anything_framed Z (fuel + 1)
  have ha : a < heap.length := by
    rw [List.get?_eq_getElem?] at hcell
    exact (List.getElem?_eq_some.mp hcell).1
  have hd0 : heap.deref a T.elem = some (.struct T.elem fields) := by
    unfold Heap.deref
    rw [hcell]
    exact leading_self _ _
  have hd : Heap.deref (heap ++ [Cell.var T.elem (zeroValue Z T.elem)]) a T.elem =
      some (.struct T.elem fields) := deref_append _ hd0
  have hsz : heap.sizelessAt Z a T.elem = none := by
    cases hs : heap.sizelessAt Z a T.elem with
    | none => rfl
    | some w =>
      obtain ⟨hz, hw⟩ := sizelessAt_some hs
      rw [hd0] at hw
      rcases hw with hw | hw
      · cases hw
        obtain ⟨i, f, hi⟩ := hself
        simp only [Value.sizeless] at hz
        have := sizelessFields_mem _ _ hz (List.get?_mem hi)
        simp [Value.sizeless] at this
      · cases hw
  -- the tracker maps `a` to `y` throughout the loop
  have htrack : ∀ j stj,
      structLoop (_anything Z (fuel + 1)) [] (.struct T.elem fields) T.elem
        (heap.length + 1) (fields.take j) 0
        ⟨heap ++ [.var T.elem (zeroValue Z T.elem)] ++
            [.var T.elem (.struct T.elem
              (fields.map (fun p => (p.1, zeroValue Z p.1.Typ))))],
          [(a, .ptr (.ptr T.elem) (some heap.length))]⟩ = .ok stj →
      _anything Z (fuel + 1) (.ptr T (some a)) stj [] =
        .ret (.ptr (.ptr T.elem) (some heap.length)) none stj := by
    intro j stj hl
    have hk := structLoop_keeps (_anything Z (fuel + 1)) hfr [] (.struct T.elem fields)
      T.elem (heap.length + 1) 0 (Nat.zero_le _) (fields.take j) 0
      ⟨heap ++ [.var T.elem (zeroValue Z T.elem)] ++
          [.var T.elem (.struct T.elem
            (fields.map (fun p => (p.1, zeroValue Z p.1.Typ))))],
        [(a, .ptr (.ptr T.elem) (some heap.length))]⟩ (Nat.zero_le _)
    rw [hl] at hk
    have htr : stj.tracked a = some (.ptr (.ptr T.elem) (some heap.length)) :=
      hk.2.2.2 a _ (by simp [State.tracked])
    rw [anything_ptr Z fuel T (some a) stj [] rfl]
    simp only [_pointer, htr]
  have hok2 : ∀ j stj f v,
      structLoop (_anything Z (fuel + 1)) [] (.struct T.elem fields) T.elem
        (heap.length + 1) (fields.take j) 0
        ⟨heap ++ [.var T.elem (zeroValue Z T.elem)] ++
            [.var T.elem (.struct T.elem
              (fields.map (fun p => (p.1, zeroValue Z p.1.Typ))))],
          [(a, .ptr (.ptr T.elem) (some heap.length))]⟩ = .ok stj →
      fields.get? j = some (f, v) →
      f.PkgPath = "" ∧ ∃ item st1, _anything Z (fuel + 1) v stj [] = .ret item none st1 ∧
        item.isValid = true ∧ assignable item f.Typ = true := by
    intro j stj f v hl hj
    have hmem : (f, v) ∈ fields := List.get?_mem hj
    refine ⟨hexp _ hmem, ?_⟩
    by_cases hv : v = .ptr T (some a)
    · subst hv
      exact ⟨_, _, htrack j stj hl, rfl, hacc _ hmem rfl⟩
    · exact hok j stj f v hl hj hv
  obtain ⟨st1, hloop⟩ := structLoop_total (_anything Z (fuel + 1)) [] (.struct T.elem fields)
    T.elem (heap.length + 1) fields _ hok2 fields.length (le_refl _)
  rw [List.take_length] at hloop
  obtain ⟨items, hfin, hdecl, hrun⟩ := structLoop_run (_anything Z (fuel + 1)) hfr []
    (.struct T.elem fields) T.elem (heap.length + 1) fields 0 _ st1 hloop (by simp)
    T.elem T.elem [] (fields.map (fun p => (p.1, zeroValue Z p.1.Typ)))
    (by
      simp only [List.nil_append]
      rw [List.append_assoc]
      have := get?_append_length (heap ++ [Cell.var T.elem (zeroValue Z T.elem)])
        (Cell.var T.elem (.struct T.elem
          (fields.map (fun p => (p.1, zeroValue Z p.1.Typ))))) []
      simpa using this)
    rfl (by simp [List.map_map, Function.comp])
  simp only [List.nil_append] at hfin
  have hk1 := structLoop_keeps (_anything Z (fuel + 1)) hfr [] (.struct T.elem fields)
    T.elem (heap.length + 1) (heap.length + 1) (le_refl _) fields 0
    ⟨heap ++ [.var T.elem (zeroValue Z T.elem)] ++
        [.var T.elem (.struct T.elem
          (fields.map (fun p => (p.1, zeroValue Z p.1.Typ))))],
      [(a, .ptr (.ptr T.elem) (some heap.length))]⟩ (by simp)
  rw [hloop] at hk1
  have hcell1 : st1.heap.get? heap.length = some (.var T.elem (zeroValue Z T.elem)) := by
    rw [keep_get hk1 (Nat.lt_succ_self _)]
    simp only [List.append_assoc]
    exact get?_append_length heap _ _
  have hlen1 : heap.length < st1.heap.length := by
    have := hk1.2.1
    simp at this
    omega
  have hcall : Anything Z (fuel + 3) (.ptr T (some a)) heap =
      .ret (.ptr (.ptr T.elem) (some heap.length)) none
        { st1 with heap := st1.heap.setVar heap.length (.struct T.elem items) } := by
    unfold Anything
    rw [anything_ptr Z (fuel + 2) T (some a) _ [] rfl]
    simp only [_pointer, State.tracked, List.find?_nil, Option.map_none', hsz, hd]
    rw [anything_struct Z (fuel + 1) T.elem fields _ [] rfl]
    simp only [_struct, List.length_append, List.length_singleton]
    rw [hloop]
    simp only [Heap.load, hfin, Value.isValid, assignable, Value.typeOf, beq_self_eq_true,
      Bool.true_or, Bool.or_true, if_true]
  have hkall := anything_framed Z (fuel + 3) (.ptr T (some a)) ⟨heap, []⟩ []
  unfold Anything at hcall
  rw [hcall] at hkall
  refine ⟨_, items, hcall, Nat.ne_of_gt ha, ?_, hdecl, ?_, ?_, ?_,
    fun i hi => keep_get hkall hi⟩
  · simp only [Heap.deref, Heap.setVar, hcell1]
    rw [get?_set_self_of_lt _ _ _ hlen1]
    exact leading_self _ _
  · intro j f hj
    obtain ⟨stj, item, sj1, h1, _, h3, _, _, h6⟩ := hrun j f _ hj
    rw [htrack j stj h1] at h3
    injection h3 with h7 _ _
    rw [← h7] at h6
    exact h6
  · intro j f v hj _
    obtain ⟨stj, item, sj1, h1, _, h3, _, _, h6⟩ := hrun j f v hj
    exact ⟨stj, item, sj1, h1, h3, h6⟩
  · intro j f b ty d hj
    obtain ⟨stj, item, sj1, h1, _, h3, _, _, h6⟩ := hrun j f _ hj
    rw [anything_basic Z fuel b ty d stj [] rfl] at h3
    injection h3 with h7 _ _
    rw [← h7] at h6
    exact h6

theorem selfFoo_exported : ∀ p ∈ fooFields selfFoo (int "4"), p.1.PkgPath = "" := by
  intro p hp
  simp only [fooFields, List.mem_cons, List.mem_singleton, List.mem_nil_iff, or_false] at hp
  rcases hp with rfl | rfl <;> rfl

theorem selfFoo_accepts : ∀ p ∈ fooFields selfFoo (int "4"), p.2 = .ptr (.ptr tFoo) (some 0) →
    assignable (.ptr (.ptr tFoo) (some selfFooHeap.length)) p.1.Typ = true := by
  intro p hp hx
  simp only [fooFields, List.mem_cons, List.mem_singleton, List.mem_nil_iff, or_false] at hp
  rcases hp with rfl | rfl
  · rfl
  · simp [int] at hx

theorem selfFoo_others (j : Nat) (stj : State) (f : StructField) (v : Value)
    (_hl : structLoop (_anything noStructs (0 + 1)) []
      (.struct tFoo (fooFields selfFoo (int "4"))) tFoo (selfFooHeap.length + 1)
      ((fooFields selfFoo (int "4")).take j) 0
      ⟨selfFooHeap ++ [.var tFoo (zeroValue noStructs tFoo)] ++
          [.var tFoo (.struct tFoo ((fooFields selfFoo (int "4")).map
            (fun p => (p.1, zeroValue noStructs p.1.Typ))))],
        [(0, .ptr (.ptr tFoo) (some selfFooHeap.length))]⟩ = .ok stj)
    (hj : (fooFields selfFoo (int "4")).get? j = some (f, v))
    (hv : v ≠ .ptr (.ptr tFoo) (some 0)) :
    ∃ item st1, _anything noStructs (0 + 1) v stj [] = .ret item none st1 ∧
      item.isValid = true ∧ assignable item f.Typ = true := by
  cases j with
  | zero =>
    simp only [fooFields, List.get?_cons_zero, Option.some.injEq, Prod.mk.injEq] at hj
    exact absurd hj.2.symm hv
  | succ j =>
    cases j with
    | zero =>
      simp only [fooFields, List.get?_cons_succ, List.get?_cons_zero, Option.some.injEq,
        Prod.mk.injEq] at hj
      obtain ⟨rfl, rfl⟩ := hj
      exact ⟨int "4", stj, rfl, rfl, rfl⟩
    | succ j => simp [fooFields] at hj

/-- C4 at the `x` of `ExampleAvoidInfiniteLoops`: `x := &Foo{Bar: 4}; x.Foo = x`. -/
theorem c4_self_reference_points_at_clone_witness :
    (Ty.ptr tFoo).elem = tFoo ∧
    selfFooHeap.get? 0 = some (.var tFoo (.struct tFoo (fooFields selfFoo (int "4")))) ∧
    (∃ i f, (fooFields selfFoo (int "4")).get? i = some (f, .ptr (.ptr tFoo) (some 0))) ∧
    (∀ p ∈ fooFields selfFoo (int "4"), p.1.PkgPath = "") ∧
    (∀ p ∈ fooFields selfFoo (int "4"), p.2 = .ptr (.ptr tFoo) (some 0) →
      assignable (.ptr (.ptr tFoo) (some selfFooHeap.length)) p.1.Typ = true) ∧
    (∀ j stj f v,
      structLoop (_anything noStructs 1) [] (.struct tFoo (fooFields selfFoo (int "4")))
        tFoo 2 ((fooFields selfFoo (int "4")).take j) 0
        ⟨selfFooHeap ++ [.var tFoo (zeroValue noStructs tFoo)] ++
            [.var tFoo (.struct tFoo ((fooFields selfFoo (int "4")).map
              (fun p => (p.1, zeroValue noStructs p.1.Typ))))],
          [(0, .ptr (.ptr tFoo) (some 1))]⟩ = .ok stj →
      (fooFields selfFoo (int "4")).get? j = some (f, v) →
      v ≠ .ptr (.ptr tFoo) (some 0) →
      ∃ item st1, _anything noStructs 1 v stj [] = .ret item none st1 ∧
        item.isValid = true ∧ assignable item f.Typ = true) ∧
    ∃ st items, Anything noStructs 3 selfFoo selfFooHeap =
        .ret (.ptr (.ptr tFoo) (some 1)) none st ∧
      1 ≠ 0 ∧
      st.heap.deref 1 tFoo = some (.struct tFoo items) ∧
      items.map Prod.fst = (fooFields selfFoo (int "4")).map Prod.fst ∧
      (∀ j f, (fooFields selfFoo (int "4")).get? j = some (f, .ptr (.ptr tFoo) (some 0)) →
        items.get? j = some (f, .ptr (.ptr tFoo) (some 1))) ∧
      (∀ j f v, (fooFields selfFoo (int "4")).get? j = some (f, v) →
        v ≠ .ptr (.ptr tFoo) (some 0) →
        ∃ stj item st1,
          structLoop (_anything noStructs 1) [] (.struct tFoo (fooFields selfFoo (int "4")))
            tFoo 2 ((fooFields selfFoo (int "4")).take j) 0
            ⟨selfFooHeap ++ [.var tFoo (zeroValue noStructs tFoo)] ++
                [.var tFoo (.struct tFoo ((fooFields selfFoo (int "4")).map
                  (fun p => (p.1, zeroValue noStructs p.1.Typ))))],
              [(0, .ptr (.ptr tFoo) (some 1))]⟩ = .ok stj ∧
          _anything noStructs 1 v stj [] = .ret item none st1 ∧
          items.get? j = some (f, item)) ∧
      (∀ j f b ty d, (fooFields selfFoo (int "4")).get? j = some (f, .basic b ty d) →
        items.get? j = some (f, .basic b ty d)) ∧
      ∀ i, i < 1 → st.heap.get? i = selfFooHeap.get? i :=
  ⟨rfl, rfl, ⟨0, _, rfl⟩, selfFoo_exported, selfFoo_accepts, selfFoo_others,
    c4_self_reference_points_at_clone noStructs 0 selfFooHeap 0 (.ptr tFoo) tFoo
      (fooFields selfFoo (int "4")) rfl rfl ⟨0, _, rfl⟩ selfFoo_exported selfFoo_accepts
      selfFoo_others⟩

/-- C8, as stated, fails when the override returns the untyped nil: with the
table `{int: func(...) { return nil, nil }}` the clone of `[]int{1}` succeeds and
its slot 0 holds the zero value `0` of the element type, not the result `nil` of
the override. -/
theorem c8_counterexample :
    AnythingWithCustomTypes noStructs 2 oneIntSlice nilOverride oneIntSliceHeap =
      .ret (.slice (.slice tInt) (some ⟨1, 0, 1, 1⟩)) none
        ⟨[.arr tInt [int "1"], .arr tInt [int "0"]], []⟩ ∧
    Heap.index [.arr tInt [int "1"], .arr tInt [int "0"]] ⟨1, 0, 1, 1⟩ 0 =
      some (int "0") ∧
    nilOverride.lookup (some tInt) = some (fun _ => (.nil, none)) ∧
    int "0" ≠ Value.nil :=
  ⟨rfl, rfl, rfl, fun h => by cases h⟩

/-- C8, amended: override precedence.  Let the table `tm` have the entry `f` for
the exact type `T` of `x`.  The dispatcher applied to `x` returns exactly `f(x)`,
result and error, in an unchanged state, whatever the kind of `x`.  And when
`AnythingWithCustomTypes` returns without error the clone of a container that
has no override of its own: the clone of a slice holds `f(x)`, if that is a valid
(non-nil) value, at the index of `x`; the clone of a pointer to `x` has `f(x)`, if
valid, as its target, and when `x` is a zero-size variable, which holds no
content, the clone is the pointer to the zero-size variables and `f(x)` is a value
its target type accepts; the clone of an array or record holds `f(x)` at the
index, resp. in the field, of `x`; the entries of the clone of a map are the
replay, in iteration order, of the stores of the strategy, one for each entry of
the original, made of what the dispatcher returned for the value and for the key
of that entry in the state the strategy had reached; the store for the entry of
`x` carries `f(x)` as its value, resp. as its key, and that entry is in the clone,
under an equal key, unless the key of a later store equals it. -/
theorem c8_override_precedence (Z : Ty → Value) (tm : TypeMap) (T : Ty)
    (f : Value → Value × Option Err) (x : Value) (hT : x.typeOf = some T)
    (hf : tm.lookup (some T) = some f) :
    (∀ n st, _anything Z (n + 1) x st tm = .ret (f x).1 (f x).2 st) ∧
    (∀ fuel heap t hdr i v st, tm.lookup (some t) = none →
      heap.index hdr i = some x → i < hdr.len → (f x).1.isValid = true →
      AnythingWithCustomTypes Z fuel (.slice t (some hdr)) tm heap = .ret v none st →
      v = .slice t (some ⟨heap.length, 0, hdr.len, hdr.len⟩) ∧
        st.heap.index ⟨heap.length, 0, hdr.len, hdr.len⟩ i = some (f x).1) ∧
    (∀ fuel heap t es i v st, tm.lookup (some t) = none →
      es.get? i = some x → i < t.len →
      AnythingWithCustomTypes Z fuel (.array t es) tm heap = .ret v none st →
      ∃ vs, v = .array (.array t.len t.elem) vs ∧ vs.get? i = some (f x).1) ∧
    (∀ fuel heap t fs i fd v st, tm.lookup (some t) = none →
      fs.get? i = some (fd, x) →
      AnythingWithCustomTypes Z fuel (.struct t fs) tm heap = .ret v none st →
      ∃ items, v = .struct t items ∧ items.get? i = some (fd, (f x).1)) ∧
    (∀ fuel heap t a v st, tm.lookup (some t) = none →
      heap.deref a t.elem = some x → (f x).1.isValid = true →
      AnythingWithCustomTypes Z fuel (.ptr t (some a)) tm heap = .ret v none st →
      (heap.sizelessAt Z a t.elem = none →
        v = .ptr (.ptr t.elem) (some heap.length) ∧
          st.heap.deref heap.length t.elem = some (f x).1) ∧
      (heap.sizelessAt Z a t.elem ≠ none →
        v = .ptr (.ptr t.elem) (some a) ∧ assignable (f x).1 t.elem = true)) ∧
    (∀ fuel heap t a pre k post v st, tm.lookup (some t) = none →
      heap.entries a = some (pre ++ (k, x) :: post) → (f x).1.isValid = true →
      AnythingWithCustomTypes Z (fuel + 1) (.map t (some a)) tm heap = .ret v none st →
      v = .map t (some heap.length) ∧
        ∃ outs, MapStores (_anything Z fuel) tm heap.length t (pre ++ (k, x) :: post)
            ⟨heap ++ [.map []], []⟩ outs ∧
          st.heap.entries heap.length = some (replay outs []) ∧
          ∃ k1, outs.get? pre.length = some (k1, (f x).1) ∧
            ∃ k2, (k2 = k1 ∨ Value.beq k2 k1 = true) ∧
              ((∀ q ∈ outs.drop (pre.length + 1), Value.beq k2 q.1 = false) →
                (k2, (f x).1) ∈ replay outs [])) ∧
    (∀ fuel heap t a pre w post v st, tm.lookup (some t) = none →
      heap.entries a = some (pre ++ (x, w) :: post) →
      AnythingWithCustomTypes Z (fuel + 1) (.map t (some a)) tm heap = .ret v none st →
      v = .map t (some heap.length) ∧
        ∃ outs, MapStores (_anything Z fuel) tm heap.length t (pre ++ (x, w) :: post)
            ⟨heap ++ [.map []], []⟩ outs ∧
          st.heap.entries heap.length = some (replay outs []) ∧
          ∃ item, outs.get? pre.length = some ((f x).1, item) ∧
            (item.isValid = true →
              ∃ k2, (k2 = (f x).1 ∨ Value.beq k2 (f x).1 = true) ∧
                ((∀ q ∈ outs.drop (pre.length + 1), Value.beq k2 q.1 = false) →
                  (k2, item) ∈ replay outs []))) := by
  refine ⟨fun n st => anything_override Z n x st tm f (override_eq hT hf),
    ?_, ?_, ?_, ?_, ?_, ?_⟩
  · intro fuel heap t hdr i v st hno hx hi hvalid h
    cases fuel with
    | zero => cases h
    | succ n =>
      unfold AnythingWithCustomTypes at h
      rw [anything_slice Z n t (some hdr) _ tm (no_override_eq hno)] at h
      obtain ⟨hv, hall⟩ := slice_spec Z _ (anything_framed Z n) tm t hdr _ v st
        (index_lt hx) h
      refine ⟨hv, ?_⟩
      obtain ⟨xj, item, h1, h2, _, h4⟩ := hall i hi
      rw [hx] at h1
      cases h1
      have := cloned_override Z n tm _ _ x item T f hT hf h2
      subst this
      simpa [hvalid] using h4
  · intro fuel heap t es i v st hno hx hi h
    cases fuel with
    | zero => cases h
    | succ n =>
      unfold AnythingWithCustomTypes at h
      rw [anything_array Z n t es _ tm (no_override_eq hno)] at h
      obtain ⟨vs, hv, _, hall⟩ := array_spec Z _ (anything_framed Z n) tm t es _ v st h
      refine ⟨vs, hv, ?_⟩
      obtain ⟨xj, item, h1, h2, _, _, h5⟩ := hall i hi
      rw [hx] at h1
      cases h1
      have := cloned_override Z n tm _ _ x item T f hT hf h2
      subst this
      exact h5
  · intro fuel heap t fs i fd v st hno hx h
    cases fuel with
    | zero => cases h
    | succ n =>
      unfold AnythingWithCustomTypes at h
      rw [anything_struct Z n t fs _ tm (no_override_eq hno)] at h
      obtain ⟨items, hv, hall⟩ := struct_spec Z _ (anything_framed Z n) tm t fs _ v st h
      refine ⟨items, hv, ?_⟩
      obtain ⟨q, hq, hr⟩ := forall₂_get? fs items i (fd, x) hall hx
      obtain ⟨qf, qv⟩ := q
      obtain ⟨h1, _, _, _, h5⟩ := hr
      simp only at h1 h5
      have := cloned_override Z n tm _ _ x qv T f hT hf h5
      subst this
      subst h1
      exact hq
  · intro fuel heap t a v st hno hd hvalid h
    cases fuel with
    | zero => cases h
    | succ n =>
      unfold AnythingWithCustomTypes at h
      rw [anything_ptr Z n t (some a) _ tm (no_override_eq hno)] at h
      exact ⟨fun hsz =>
          pointer_override Z n tm T f x hT hf hvalid t a ⟨heap, []⟩ v st rfl hd hsz h,
        fun hsz =>
          pointer_override_sizeless Z n tm T f x hT hf hvalid t a ⟨heap, []⟩ v st rfl hd
            hsz h⟩
  · intro fuel heap t a pre k post v st hno hes hvalid h
    unfold AnythingWithCustomTypes at h
    rw [anything_map Z fuel t (some a) _ tm (no_override_eq hno)] at h
    obtain ⟨hv, outs, hst, hfin⟩ :=
      map_run _ (anything_framed Z fuel) tm t a _ v st _ hes h
    refine ⟨hv, outs, hst, hfin, ?_⟩
    obtain ⟨stj, item, st1, k1, st2, _, h2, _, h4⟩ := hst.2 pre.length k x (get?_append_length _ _ _)
    have hitem : item = (f x).1 := by
      cases fuel with
      | zero => cases h2
      | succ n =>
        rw [anything_override Z n x stj tm f (override_eq hT hf)] at h2
        injection h2 with h5 _ _
        exact h5.symm
    subst hitem
    refine ⟨k1, h4, ?_⟩
    obtain ⟨k2, hk2, hin⟩ := replay_stores (outs.take pre.length)
      (outs.drop (pre.length + 1)) k1 _ hvalid
    rw [← get?_split outs pre.length _ h4] at hin
    exact ⟨k2, hk2, hin⟩
  · intro fuel heap t a pre w post v st hno hes h
    unfold AnythingWithCustomTypes at h
    rw [anything_map Z fuel t (some a) _ tm (no_override_eq hno)] at h
    obtain ⟨hv, outs, hst, hfin⟩ :=
      map_run _ (anything_framed Z fuel) tm t a _ v st _ hes h
    refine ⟨hv, outs, hst, hfin, ?_⟩
    obtain ⟨stj, item, st1, k1, st2, _, _, h3, h4⟩ := hst.2 pre.length x w (get?_append_length _ _ _)
    have hkey : k1 = (f x).1 := by
      cases fuel with
      | zero => cases h3
      | succ n =>
        rw [anything_override Z n x st1 tm f (override_eq hT hf)] at h3
        injection h3 with h5 _ _
        exact h5.symm
    subst hkey
    refine ⟨item, h4, fun hiv => ?_⟩
    obtain ⟨k2, hk2, hin⟩ := replay_stores (outs.take pre.length)
      (outs.drop (pre.length + 1)) _ item hiv
    rw [← get?_split outs pre.length _ h4] at hin
    exact ⟨k2, hk2, hin⟩

/-- C8 at `[]int{1}` and at `map[string]int{"a": 1}` with the table
`{int: func(...) { return 7, nil }}`: the dispatcher returns `7` for `1`, slot 0 of
the cloned slice holds `7`, and the cloned map has the entry `"a": 7`. -/
theorem c8_override_precedence_witness :
    (int "1").typeOf = some tInt ∧
    sevenOverride.lookup (some tInt) = some (fun _ => (int "7", none)) ∧
    sevenOverride.lookup (some (.slice tInt)) = none ∧
    oneIntSliceHeap.index ⟨0, 0, 1, 1⟩ 0 = some (int "1") ∧
    AnythingWithCustomTypes noStructs 2 oneIntSlice sevenOverride oneIntSliceHeap =
      .ret (.slice (.slice tInt) (some ⟨1, 0, 1, 1⟩)) none
        ⟨[.arr tInt [int "1"], .arr tInt [int "7"]], []⟩ ∧
    _anything noStructs 1 (int "1") ⟨[], []⟩ sevenOverride =
      .ret (int "7") none ⟨[], []⟩ ∧
    (Value.slice (.slice tInt) (some ⟨1, 0, 1, 1⟩) =
        .slice (.slice tInt) (some ⟨1, 0, 1, 1⟩) ∧
      Heap.index [.arr tInt [int "1"], .arr tInt [int "7"]] ⟨1, 0, 1, 1⟩ 0 =
        some (int "7")) ∧
    sevenOverride.lookup (some (.map tString tInt)) = none ∧
    oneEntryMapHeap.entries 0 = some ([] ++ (.basic .Str tString "a", int "1") :: []) ∧
    AnythingWithCustomTypes noStructs 2 oneEntryMap sevenOverride oneEntryMapHeap =
      .ret (.map (.map tString tInt) (some 1)) none
        ⟨[.map [(.basic .Str tString "a", int "1")],
          .map [(.basic .Str tString "a", int "7")]], []⟩ ∧
    (Value.map (.map tString tInt) (some 1) = .map (.map tString tInt) (some 1) ∧
      ∃ outs, MapStores (_anything noStructs 1) sevenOverride 1 (.map tString tInt)
          ([] ++ (.basic .Str tString "a", int "1") :: []) ⟨oneEntryMapHeap ++ [.map []], []⟩
          outs ∧
        Heap.entries [.map [(.basic .Str tString "a", int "1")],
          .map [(.basic .Str tString "a", int "7")]] 1 = some (replay outs []) ∧
        ∃ k1, outs.get? 0 = some (k1, int "7") ∧
          ∃ k2, (k2 = k1 ∨ Value.beq k2 k1 = true) ∧
            ((∀ q ∈ outs.drop 1, Value.beq k2 q.1 = false) →
              (k2, int "7") ∈ replay outs [])) :=
  ⟨rfl, rfl, rfl, rfl, rfl,
    (c8_override_precedence noStructs sevenOverride tInt (fun _ => (int "7", none))
      (int "1") rfl rfl).1 0 ⟨[], []⟩,
    (c8_override_precedence noStructs sevenOverride tInt (fun _ => (int "7", none))
      (int "1") rfl rfl).2.1 2 oneIntSliceHeap (.slice tInt) ⟨0, 0, 1, 1⟩ 0
      (.slice (.slice tInt) (some ⟨1, 0, 1, 1⟩))
      ⟨[.arr tInt [int "1"], .arr tInt [int "7"]], []⟩ rfl rfl (by decide) rfl rfl,
    rfl, rfl, rfl,
    (c8_override_precedence noStructs sevenOverride tInt (fun _ => (int "7", none))
      (int "1") rfl rfl).2.2.2.2.2.1 1 oneEntryMapHeap (.map tString tInt) 0 []
      (.basic .Str tString "a") [] (.map (.map tString tInt) (some 1))
      ⟨[.map [(.basic .Str tString "a", int "1")],
        .map [(.basic .Str tString "a", int "7")]], []⟩ rfl rfl rfl rfl⟩

/-- C13, as stated, fails when an element clones, without error, to the untyped
nil in a slice whose element type is not an interface type: with the table
`{int: func(...) { return nil, nil }}` the slice strategy returns for `[]int{1}` a
slice whose element 0 is `0`, while the clone of `1` is nil.  It fails too when an
element clones, without error, to a value the element type does not accept: with
the table `{int: func(...) { return "x", nil }}` the strategy panics on
`[]int{1}`. -/
theorem c13_counterexample :
    _anything noStructs 1 (int "1") ⟨oneIntSliceHeap ++ [.arr tInt [int "0"]], []⟩
        nilOverride =
      .ret .nil none ⟨oneIntSliceHeap ++ [.arr tInt [int "0"]], []⟩ ∧
    _slice noStructs (_anything noStructs 1) oneIntSlice ⟨oneIntSliceHeap, []⟩
        nilOverride =
      .ret (.slice (.slice tInt) (some ⟨1, 0, 1, 1⟩)) none
        ⟨[.arr tInt [int "1"], .arr tInt [int "0"]], []⟩ ∧
    Heap.index [.arr tInt [int "1"], .arr tInt [int "0"]] ⟨1, 0, 1, 1⟩ 0 =
      some (int "0") ∧
    int "0" ≠ Value.nil ∧
    _anything noStructs 1 (int "1") ⟨oneIntSliceHeap ++ [.arr tInt [int "0"]], []⟩
        textOverride =
      .ret (.basic .Str tString "x") none ⟨oneIntSliceHeap ++ [.arr tInt [int "0"]], []⟩ ∧
    _slice noStructs (_anything noStructs 1) oneIntSlice ⟨oneIntSliceHeap, []⟩
        textOverride = .panic "reflect.Set: value is not assignable" :=
  ⟨rfl, rfl, rfl, (fun h => by cases h), rfl, rfl⟩

/-- C13, amended: the slice strategy.  Let `s` be a present slice whose backing
array is in memory, and let the elements of `s` all clone without error: each
time the loop of the strategy has cloned and stored the elements before an index
`j`, the dispatcher, called on `s[j]` in the state the loop has reached, returns
without error the untyped nil or a value the element type accepts.  Then the
strategy returns without error a slice of the type and length of `s` on a fresh
backing array, leaving the existing memory as it was; its element at each index
`j` is the clone the dispatcher returned for `s[j]` in the state the loop had
reached, or the zero value of the element type when that clone is the untyped
nil; so when the element type is an interface type the element is the clone in
both cases, and an element that holds the untyped nil remains the untyped nil
(the table having no entry under the nil type); and the result is deep-equal to
`s` whenever each of these clones is deep-equal to the element it is the clone
of, and is a valid value unless the element type is an interface type. -/
theorem c13_slice_strategy (Z : Ty → Value) (n : Nat) (tm : TypeMap) (t : Ty)
    (hdr : SliceHdr) (st : State)
    (hh : hdr.arr < st.heap.length)
    (hwf : ∀ j, j < hdr.len → ∃ xj, st.heap.index hdr j = some xj)
    (hok : ∀ j stj xj, j < hdr.len →
      sliceLoop (_anything Z n) tm hdr st.heap.length t j 0
        { st with heap := st.heap ++
            [.arr t.elem (List.replicate hdr.len (zeroValue Z t.elem))] } = .ok stj →
      st.heap.index hdr j = some xj →
      ∃ item st1, _anything Z n xj stj tm = .ret item none st1 ∧
        (item.isValid = true → assignable item t.elem = true)) :
    ∃ st', _slice Z (_anything Z n) (.slice t (some hdr)) st tm =
        .ret (.slice t (some ⟨st.heap.length, 0, hdr.len, hdr.len⟩)) none st' ∧
      (∀ a, a < st.heap.length → st'.heap.get? a = st.heap.get? a) ∧
      (∀ j, j < hdr.len → ∃ stj xj item st1,
        sliceLoop (_anything Z n) tm hdr st.heap.length t j 0
          { st with heap := st.heap ++
              [.arr t.elem (List.replicate hdr.len (zeroValue Z t.elem))] } = .ok stj ∧
        st.heap.index hdr j = some xj ∧
        _anything Z n xj stj tm = .ret item none st1 ∧
        st'.heap.index ⟨st.heap.length, 0, hdr.len, hdr.len⟩ j =
          some (if item.isValid = true then item else zeroValue Z t.elem) ∧
        (t.elem.kind = .Interface →
          st'.heap.index ⟨st.heap.length, 0, hdr.len, hdr.len⟩ j = some item) ∧
        (xj = .nil → tm.lookup none = none → item = .nil)) ∧
      ((∀ j stj xj item st1, j < hdr.len →
          sliceLoop (_anything Z n) tm hdr st.heap.length t j 0
            { st with heap := st.heap ++
                [.arr t.elem (List.replicate hdr.len (zeroValue Z t.elem))] } = .ok stj →
          st.heap.index hdr j = some xj →
          _anything Z n xj stj tm = .ret item none st1 →
          DeepEqual st.heap st'.heap xj item ∧
            (item.isValid = true ∨ t.elem.kind = .Interface)) →
        DeepEqual st.heap st'.heap (.slice t (some hdr))
          (.slice t (some ⟨st.heap.length, 0, hdr.len, hdr.len⟩))) := by
  have hf := anything_framed Z n
  have hidx : ∀ j stj, sliceLoop (_anything Z n) tm hdr st.heap.length t j 0
      { st with heap := st.heap ++
          [.arr t.elem (List.replicate hdr.len (zeroValue Z t.elem))] } = .ok stj →
      ∀ i, stj.heap.index hdr i = st.heap.index hdr i := by
    intro j stj hloop i
    have hk := sliceLoop_keeps (_anything Z n) hf tm hdr st.heap.length t st.heap.length
      (le_refl _) j 0 { st with heap := st.heap ++
          [.arr t.elem (List.replicate hdr.len (zeroValue Z t.elem))] } (by simp)
    rw [hloop] at hk
    refine index_extends ?_ hdr hh i
    intro a ha
    rw [keep_get hk ha]
    exact extends_append _ _ a ha
  obtain ⟨st', hloop⟩ := sliceLoop_total (_anything Z n) tm hdr st.heap.length t
    { st with heap := st.heap ++
        [.arr t.elem (List.replicate hdr.len (zeroValue Z t.elem))] } hdr.len
    (by
      intro j stj hj hl
      obtain ⟨xj, hxj⟩ := hwf j hj
      obtain ⟨item, st1, h1, h2⟩ := hok j stj xj hj hl hxj
      exact ⟨xj, item, st1, by rw [hidx j stj hl]; exact hxj, h1, h2⟩)
    hdr.len (le_refl _)
  have hret : _slice Z (_anything Z n) (.slice t (some hdr)) st tm =
      .ret (.slice t (some ⟨st.heap.length, 0, hdr.len, hdr.len⟩)) none st' := by
    simp only [_slice, hloop]
  have hk := slice_keeps Z (_anything Z n) hf (.slice t (some hdr)) st tm
  rw [hret] at hk
  obtain ⟨vs', hfin, _, _, hrun⟩ := sliceLoop_run (_anything Z n) hf tm hdr
    st.heap.length t hdr.len 0 _ st' hloop (by simp) t.elem
    (List.replicate hdr.len (zeroValue Z t.elem))
    (by exact get?_append_length st.heap _ []) (by simp)
  have hstored : ∀ j, j < hdr.len → ∃ stj xj item st1,
      sliceLoop (_anything Z n) tm hdr st.heap.length t j 0
        { st with heap := st.heap ++
            [.arr t.elem (List.replicate hdr.len (zeroValue Z t.elem))] } = .ok stj ∧
      st.heap.index hdr j = some xj ∧
      _anything Z n xj stj tm = .ret item none st1 ∧
      st'.heap.index ⟨st.heap.length, 0, hdr.len, hdr.len⟩ j =
        some (if item.isValid = true then item else zeroValue Z t.elem) := by
    intro j hj
    obtain ⟨stj, xj, item, st1, h1, h2, h3, _, h5⟩ := hrun j hj
    rw [Nat.zero_add] at h2 h5
    rw [hidx j stj h1] at h2
    refine ⟨stj, xj, item, st1, h1, h2, h3, ?_⟩
    simp only [Heap.index, hfin, Nat.zero_add, h5]
    split
    · rfl
    · exact get?_replicate _ _ _ hj
  refine ⟨st', hret, fun a ha => keep_get hk ha, ?_, ?_⟩
  · intro j hj
    obtain ⟨stj, xj, item, st1, h1, h2, h3, h4⟩ := hstored j hj
    refine ⟨stj, xj, item, st1, h1, h2, h3, h4, ?_, ?_⟩
    · intro hi
      rw [h4, zeroValue_iface Z _ hi]
      cases item <;> rfl
    · intro hx hno
      subst hx
      cases n with
      | zero => cases h3
      | succ m =>
        rw [anything_nil Z m stj tm (no_override_eq hno)] at h3
        injection h3 with h5 _ _
        exact h5.symm
  · intro hall
    refine DeepEqual.slice t hdr _ rfl ?_ ?_
    · intro i hi
      obtain ⟨xj, hxj⟩ := hwf i hi
      obtain ⟨_, _, _, _, _, _, _, h4⟩ := hstored i hi
      exact ⟨by rw [hxj]; rfl, by rw [h4]; rfl⟩
    · intro i x y hi hx hy
      obtain ⟨stj, xj, item, st1, h1, h2, h3, h4⟩ := hstored i hi
      rw [hx] at h2
      cases h2
      obtain ⟨hde, hv⟩ := hall i stj x item st1 hi h1 hx h3
      have hy2 : y = item := by
        rw [h4] at hy
        injection hy with hy
        rw [← hy]
        rcases hv with hv | hv
        · simp [hv]
        · rw [zeroValue_iface Z _ hv]
          cases item <;> rfl
      rw [hy2]
      exact hde

theorem nilAndPtr_elems (j : Nat) (stj : State) (xj : Value) (hj : j < 2)
    (hl : sliceLoop (_anything noStructs 2) [] ⟨1, 0, 2, 2⟩ 2 (.slice .iface) j 0
      ⟨nilAndPtrHeap ++ [.arr .iface [.nil, .nil]], []⟩ = .ok stj)
    (hx : Heap.index nilAndPtrHeap ⟨1, 0, 2, 2⟩ j = some xj) :
    ∃ item st1, _anything noStructs 2 xj stj [] = .ret item none st1 ∧
      (item.isValid = true → assignable item (Ty.slice .iface).elem = true) := by
  have hj2 : j = 0 ∨ j = 1 := by omega
  rcases hj2 with rfl | rfl
  · have e : sliceLoop (_anything noStructs 2) [] ⟨1, 0, 2, 2⟩ 2 (.slice .iface) 0 0
        ⟨nilAndPtrHeap ++ [.arr .iface [.nil, .nil]], []⟩ =
        .ok ⟨nilAndPtrHeap ++ [.arr .iface [.nil, .nil]], []⟩ := rfl
    rw [e] at hl
    cases hl
    have e2 : Heap.index nilAndPtrHeap ⟨1, 0, 2, 2⟩ 0 = some .nil := rfl
    rw [e2] at hx
    cases hx
    exact ⟨_, _, rfl, fun h => by cases h⟩
  · have e : sliceLoop (_anything noStructs 2) [] ⟨1, 0, 2, 2⟩ 2 (.slice .iface) 1 0
        ⟨nilAndPtrHeap ++ [.arr .iface [.nil, .nil]], []⟩ =
        .ok ⟨nilAndPtrHeap ++ [.arr .iface [.nil, .nil]], []⟩ := rfl
    rw [e] at hl
    cases hl
    have e2 : Heap.index nilAndPtrHeap ⟨1, 0, 2, 2⟩ 1 = some sharedPtr := rfl
    rw [e2] at hx
    cases hx
    exact ⟨_, _, rfl, fun _ => rfl⟩

/-- C13 at the slice `[]interface{}{nil, p}`, with `p` a pointer to an `int`: the
element that holds nil, as in `TestInterface`, and an element that the dispatcher
clones through the tracker. -/
theorem c13_slice_strategy_witness :
    (1 < nilAndPtrHeap.length) ∧
    (∀ j, j < 2 → ∃ xj, Heap.index nilAndPtrHeap ⟨1, 0, 2, 2⟩ j = some xj) ∧
    (∀ j stj xj, j < 2 →
      sliceLoop (_anything noStructs 2) [] ⟨1, 0, 2, 2⟩ 2 (.slice .iface) j 0
        ⟨nilAndPtrHeap ++ [.arr .iface [.nil, .nil]], []⟩ = .ok stj →
      Heap.index nilAndPtrHeap ⟨1, 0, 2, 2⟩ j = some xj →
      ∃ item st1, _anything noStructs 2 xj stj [] = .ret item none st1 ∧
        (item.isValid = true → assignable item (Ty.slice .iface).elem = true)) ∧
    ∃ st', _slice noStructs (_anything noStructs 2) nilAndPtrSlice
        ⟨nilAndPtrHeap, []⟩ [] =
        .ret (.slice (.slice .iface) (some ⟨2, 0, 2, 2⟩)) none st' ∧
      (∀ a, a < 2 → st'.heap.get? a = nilAndPtrHeap.get? a) ∧
      (∀ j, j < 2 → ∃ stj xj item st1,
        sliceLoop (_anything noStructs 2) [] ⟨1, 0, 2, 2⟩ 2 (.slice .iface) j 0
          ⟨nilAndPtrHeap ++ [.arr .iface [.nil, .nil]], []⟩ = .ok stj ∧
        Heap.index nilAndPtrHeap ⟨1, 0, 2, 2⟩ j = some xj ∧
        _anything noStructs 2 xj stj [] = .ret item none st1 ∧
        st'.heap.index ⟨2, 0, 2, 2⟩ j =
          some (if item.isValid = true then item else zeroValue noStructs .iface) ∧
        ((Ty.slice .iface).elem.kind = .Interface →
          st'.heap.index ⟨2, 0, 2, 2⟩ j = some item) ∧
        (xj = .nil → TypeMap.lookup [] none = none → item = .nil)) ∧
      ((∀ j stj xj item st1, j < 2 →
          sliceLoop (_anything noStructs 2) [] ⟨1, 0, 2, 2⟩ 2 (.slice .iface) j 0
            ⟨nilAndPtrHeap ++ [.arr .iface [.nil, .nil]], []⟩ = .ok stj →
          Heap.index nilAndPtrHeap ⟨1, 0, 2, 2⟩ j = some xj →
          _anything noStructs 2 xj stj [] = .ret item none st1 →
          DeepEqual nilAndPtrHeap st'.heap xj item ∧
            (item.isValid = true ∨ (Ty.slice .iface).elem.kind = .Interface)) →
        DeepEqual nilAndPtrHeap st'.heap nilAndPtrSlice
          (.slice (.slice .iface) (some ⟨2, 0, 2, 2⟩))) :=
  ⟨by decide, fun j hj => by
      have hj2 : j = 0 ∨ j = 1 := by omega
      rcases hj2 with rfl | rfl
      · exact ⟨_, rfl⟩
      · exact ⟨_, rfl⟩,
    nilAndPtr_elems,
    c13_slice_strategy noStructs 2 [] (.slice .iface) ⟨1, 0, 2, 2⟩ ⟨nilAndPtrHeap, []⟩
      (by decide) (fun j hj => by
        have hj1 : j < 2 := hj
        have hj2 : j = 0 ∨ j = 1 := by omega
        rcases hj2 with rfl | rfl
        · exact ⟨_, rfl⟩
        · exact ⟨_, rfl⟩)
      nilAndPtr_elems⟩

end DeepCopy
